import Mathlib

/-!
Verification of the xmind_tool program (src/skills/xmind/scripts/xmind_tool.py).

The program converts between two on-disk mind-map package variants (a JSON
"zen" variant and an XML "legacy" variant, both ZIP containers) and a
plain-text markdown outline.  This file is a shallow embedding of its data
model and of the functions the claims are about:

* strings are `List Char`; helper functions mirror the Python primitives
  used by the source (`str.strip`, `str.splitlines`, `str.split`,
  `re.split`, `re.search`, `re.match`);
* the data model (`Topic`, `Sheet`) mirrors the classes of the source;
  identifier generation (`uuid.uuid4().hex[:26]`) is modelled by the opaque
  nonempty constant `genId` standing for a freshly generated identifier;
* JSON values and XML element trees are modelled by `JVal` and `XElem`;
  the (de)serialization done by `json.dumps/loads` and `ElementTree` is
  assumed faithful, so the codecs are composed at the value/tree level;
* ZIP archives are modelled as association lists from entry names to
  parsed entry contents;
* Python exceptions raised by the modelled code paths are modelled by
  `Except PyErr`; code paths on which the Python program would carry a
  dynamically ill-typed value around (for instance a JSON number stored
  into `Topic.labels`) are modelled as `PyErr.typeConfusion` and are
  outside every claim considered here.
-/

/-- Convert a Lean string literal to the `List Char` representation used
throughout this development. -/
def s2 (s : String) : List Char := s.data

/-- Python whitespace (`\s`, `str.strip()`), restricted to the ASCII range:
space, tab, newline, carriage return, vertical tab, form feed. -/
def isWs (c : Char) : Bool :=
  c = ' ' || c = '\t' || c = '\n' || c = '\r' || c = '\x0b' || c = '\x0c'

/-- Python `str.lstrip()`. -/
def lstripPy (s : List Char) : List Char := s.dropWhile isWs

/-- Python `str.rstrip()`. -/
def rstripPy (s : List Char) : List Char := (s.reverse.dropWhile isWs).reverse

/-- Python `str.strip()`. -/
def stripPy (s : List Char) : List Char := rstripPy (lstripPy s)

/-- Split a string at every newline character; mirrors Python
`str.split('\n')` (the result always has one more piece than there are
newlines, and can contain empty pieces). -/
def splitNl : List Char → List (List Char)
  | [] => [[]]
  | c :: cs =>
    if c = '\n' then [] :: splitNl cs
    else
      match splitNl cs with
      | [] => [[c]]
      | l :: ls => (c :: l) :: ls

/-- Python `str.splitlines()` for strings whose only line terminator is
`'\n'` (the only terminator the modelled program produces): like
`split('\n')` but an empty string gives `[]` and one trailing empty piece
is dropped. -/
def splitlinesPy (s : List Char) : List (List Char) :=
  if s = [] then []
  else if s.getLast? = some '\n' then (splitNl s).dropLast
  else splitNl s

/-- Python `str.split(',')`. -/
def splitComma (s : List Char) : List (List Char) := s.splitOn ','

-- ============================================================
-- Data model (classes Topic and Sheet)
-- ============================================================

/-- A mind-map node: `Topic` of the source, with fields `id`, `title`,
`children`, `notes`, `labels`, `link`, `markers`. -/
inductive Topic where
  | mk (id : List Char) (title : List Char) (children : List Topic)
       (notes : List Char) (labels : List (List Char)) (link : List Char)
       (markers : List (List Char))

def Topic.id : Topic → List Char
  | .mk i _ _ _ _ _ _ => i

def Topic.title : Topic → List Char
  | .mk _ t _ _ _ _ _ => t

def Topic.children : Topic → List Topic
  | .mk _ _ c _ _ _ _ => c

def Topic.notes : Topic → List Char
  | .mk _ _ _ n _ _ _ => n

def Topic.labels : Topic → List (List Char)
  | .mk _ _ _ _ l _ _ => l

def Topic.link : Topic → List Char
  | .mk _ _ _ _ _ l _ => l

def Topic.markers : Topic → List (List Char)
  | .mk _ _ _ _ _ _ m => m

mutual
/-- Boolean structural equality on `Topic`, used to derive decidable
equality (the nested inductive prevents `deriving DecidableEq`). -/
def Topic.beq : Topic → Topic → Bool
  | .mk i t ch n l k m, .mk i2 t2 ch2 n2 l2 k2 m2 =>
    i = i2 && t = t2 && Topic.beqList ch ch2 && n = n2 && l = l2 && k = k2 && m = m2

def Topic.beqList : List Topic → List Topic → Bool
  | [], [] => true
  | t :: ts, t2 :: ts2 => Topic.beq t t2 && Topic.beqList ts ts2
  | _, _ => false
end

/-- Simultaneous induction over a topic and its child list, with both
motives passed positionally. -/
theorem topic_ind (P : Topic → Prop) (Q : List Topic → Prop)
    (hmk : ∀ i ti ch no la li ma, Q ch → P (Topic.mk i ti ch no la li ma))
    (hnil : Q []) (hcons : ∀ t ts, P t → Q ts → Q (t :: ts)) :
    ∀ t, P t :=
  fun t => @Topic.rec P Q hmk hnil hcons t

theorem Topic.beq_iff : ∀ t t2 : Topic, Topic.beq t t2 = true ↔ t = t2 :=
  topic_ind (fun t => ∀ t2, Topic.beq t t2 = true ↔ t = t2)
    (fun ts => ∀ ts2, Topic.beqList ts ts2 = true ↔ ts = ts2)
    (fun i ti ch n l k m ih => by
      intro t2
      match t2 with
      | .mk i2 ti2 ch2 n2 l2 k2 m2 =>
        simp only [Topic.beq, Bool.and_eq_true, decide_eq_true_eq,
          Topic.mk.injEq, ih]
        tauto)
    (by intro ts2; cases ts2 <;> simp [Topic.beqList])
    (fun h tl ih1 ih2 => by
      intro ts2
      cases ts2 <;> simp [Topic.beqList, ih1, ih2])

instance : DecidableEq Topic := fun t t2 =>
  decidable_of_iff (Topic.beq t t2 = true) (Topic.beq_iff t t2)

/-- A worksheet: `Sheet` of the source, with fields `id`, `title` and
`root_topic` (zero or one root topic). -/
structure Sheet where
  id : List Char
  title : List Char
  root_topic : Option Topic
deriving DecidableEq

/-- Model of `uuid.uuid4().hex[:26]`: an opaque, nonempty identifier token
standing for a freshly generated identifier.  The claims below either
compare documents up to identifiers or only exercise code paths on which
identifiers are taken from the input. -/
def genId : List Char := s2 "fresh-id"

-- ============================================================
-- JSON values, XML elements, ZIP archives, Python errors
-- ============================================================

/-- JSON values (what `json.loads` produces / `json.dumps` consumes). -/
inductive JVal where
  | jnull
  | jbool (b : Bool)
  | jnum (n : Int)
  | jstr (s : List Char)
  | jarr (xs : List JVal)
  | jobj (fields : List (List Char × JVal))

/-- XML element tree (ElementTree): tag, attributes, text, children.  All
tags of the modelled documents live in the single content namespace, kept
implicit; the XLink-namespaced href attribute is modelled by the
distinguished attribute key `xlinkHref`.  `text = []` stands both for an
absent and for an empty text node (the source only tests text for
truthiness, on which the two agree). -/
inductive XElem where
  | mk (tag : List Char) (attrs : List (List Char × List Char))
       (text : List Char) (children : List XElem)

def XElem.tag : XElem → List Char
  | .mk t _ _ _ => t

def XElem.attrs : XElem → List (List Char × List Char)
  | .mk _ a _ _ => a

def XElem.text : XElem → List Char
  | .mk _ _ t _ => t

def XElem.children : XElem → List XElem
  | .mk _ _ _ c => c

/-- Modelled Python error outcomes.  `attrError`, `typeError` model the
exceptions the source can raise on odd JSON shapes; `keyError` models a
missing required ZIP entry; `fmtUnrecognized` models the `ValueError`
raised by `detect_format` (it carries the archive's entry names);
`typeConfusion` marks code paths on which the Python program would carry a
dynamically ill-typed value onward (for instance a JSON number stored into
a `Topic` string field) — those paths are outside the modelled domain and
outside every claim. -/
inductive PyErr where
  | attrError
  | typeError
  | keyError
  | fmtUnrecognized (names : List (List Char))
  | typeConfusion
deriving DecidableEq

instance {e a : Type} [DecidableEq e] [DecidableEq a] :
    DecidableEq (Except e a) := fun x y =>
  match x, y with
  | .ok u, .ok v =>
    if h : u = v then isTrue (by rw [h]) else isFalse (by simp [h])
  | .error u, .error v =>
    if h : u = v then isTrue (by rw [h]) else isFalse (by simp [h])
  | .ok _, .error _ => isFalse (by simp)
  | .error _, .ok _ => isFalse (by simp)

/-- ZIP entries are stored parsed: JSON entries as `JVal`, XML entries as
`XElem`, fixed text entries as raw text (JSON/XML (de)serialization is
assumed faithful, so codecs compose at the value/tree level). -/
inductive ZEntry where
  | json (v : JVal)
  | xml (x : XElem)
  | raw (s : List Char)

/-- A ZIP archive: entry names in archive order, with parsed contents. -/
abbrev ZipFile := List (List Char × ZEntry)

/-- Entry names of an archive (`ZipFile.namelist()`). -/
def namelist (z : ZipFile) : List (List Char) := z.map (fun e => e.1)

/-- Read an entry (`zf.read(name)`); a missing entry raises `KeyError`. -/
def zfRead (z : ZipFile) (name : List Char) : Except PyErr ZEntry :=
  match z.find? (fun e => decide (e.1 = name)) with
  | some e => .ok e.2
  | none => .error .keyError

-- ============================================================
-- Format detection (detect_format)
-- ============================================================

inductive Fmt where
  | zen
  | legacy
deriving DecidableEq

/-- Embedding of `detect_format`: inspect the entry names only; an entry
named content.json means "zen", else content.xml means "legacy", else a
ValueError carrying the name list is raised. -/
def detect_format (z : ZipFile) : Except PyErr Fmt :=
  let names := namelist z
  if s2 "content.json" ∈ names then .ok .zen
  else if s2 "content.xml" ∈ names then .ok .legacy
  else .error (.fmtUnrecognized names)

-- ============================================================
-- Zen format decoding (parse_zen, _parse_zen_topic)
-- ============================================================

/-- Python `dict.get` on a JSON object (first binding wins; the objects the
program builds have distinct keys). -/
def jget (fields : List (List Char × JVal)) (k : List Char) : Option JVal :=
  (fields.find? (fun kv => decide (kv.1 = k))).map (fun kv => kv.2)

/-- Python truthiness of a JSON value. -/
def pyTruthy : JVal → Bool
  | .jnull => false
  | .jbool b => b
  | .jnum n => decide (n ≠ 0)
  | .jstr s => decide (s ≠ [])
  | .jarr xs => !xs.isEmpty
  | .jobj fs => !fs.isEmpty

/-- Python iteration over a JSON value: lists yield their elements, strings
their characters (as one-character strings), dicts their keys; anything
else raises TypeError. -/
def pyIter : JVal → Except PyErr (List JVal)
  | .jarr xs => .ok xs
  | .jstr s => .ok (s.map (fun c => .jstr [c]))
  | .jobj fs => .ok (fs.map (fun kv => .jstr kv.1))
  | _ => .error .typeError

/-- One op of a rich-text notes op list: a dict contributes its `insert`
field (default empty); a non-dict op is skipped by the `isinstance`
filter.  A non-string `insert` would make `str.join` raise TypeError. -/
def insPiece : JVal → Except PyErr (List Char)
  | .jobj fs =>
    match jget fs (s2 "insert") with
    | none => .ok []
    | some (.jstr s) => .ok s
    | some _ => .error .typeError
  | _ => .ok []

/-- Embedding of the notes-decoding block of `_parse_zen_topic` (the value
of `data.get('notes', {})` is passed in; `none` stands for an absent
`notes` key, which Python defaults to the empty dict). -/
def zenNotes (notesData : Option JVal) : Except PyErr (List Char) :=
  match notesData with
  | some (.jobj fs) =>
    match jget fs (s2 "plain") with
    | some (.jobj pfs) =>
      match jget pfs (s2 "content") with
      | none => .ok []
      | some (.jstr s) => .ok s
      | some _ => .error .typeConfusion
    | some _ => .error .attrError
    | none =>
      match jget fs (s2 "ops") with
      | some ops0 =>
        let ops1 := match ops0 with
          | .jobj ofs => (jget ofs (s2 "ops")).getD (.jarr [])
          | v => v
        match pyIter ops1 with
        | .error e => .error e
        | .ok elems =>
          match elems.mapM insPiece with
          | .error e => .error e
          | .ok pieces => .ok (stripPy pieces.flatten)
      | none => .ok []
  | some _ => .ok []
  | none => .ok []

/-- Extract a string-valued optional field with a string default (`title`,
`href`): an absent key gives the default, a present string its value; a
present non-string value would be stored raw by Python (out of the
modelled domain). -/
def jstrField (fields : List (List Char × JVal)) (k : List Char)
    (dflt : List Char) : Except PyErr (List Char) :=
  match jget fields k with
  | none => .ok dflt
  | some (.jstr s) => .ok s
  | some _ => .error .typeConfusion

/-- Extract an identifier field: `Topic(topic_id=data.get('id'))` /
`Sheet(sheet_id=...)` regenerate a fresh identifier when the value is
absent or falsy; a truthy non-string would be stored raw (out of the
modelled domain). -/
def jidField (fields : List (List Char × JVal)) (k : List Char) :
    Except PyErr (List Char) :=
  match jget fields k with
  | none => .ok genId
  | some (.jstr s) => .ok (if s = [] then genId else s)
  | some v => if pyTruthy v then .error .typeConfusion else .ok genId

/-- The labels of a zen topic: `list(data.get('labels', []))`; non-string
elements would be stored raw (out of the modelled domain). -/
def zenLabels (fields : List (List Char × JVal)) :
    Except PyErr (List (List Char)) :=
  match jget fields (s2 "labels") with
  | none => .ok []
  | some v =>
    match pyIter v with
    | .error e => .error e
    | .ok xs =>
      xs.mapM (fun x => match x with
        | .jstr s => Except.ok s
        | _ => Except.error PyErr.typeConfusion)

/-- The markers of a zen topic: marker dicts with a truthy `markerId` keep
it, everything else is dropped; a truthy non-string `markerId` would be
stored raw (out of the modelled domain). -/
def zenMarkers (fields : List (List Char × JVal)) :
    Except PyErr (List (List Char)) :=
  match jget fields (s2 "markers") with
  | none => .ok []
  | some v =>
    match pyIter v with
    | .error e => .error e
    | .ok xs =>
      match xs.mapM (fun x => match x with
        | .jobj mfs =>
          match jget mfs (s2 "markerId") with
          | none => Except.ok none
          | some (.jstr s) => Except.ok (if s = [] then none else some s)
          | some w =>
            if pyTruthy w then Except.error PyErr.typeConfusion
            else Except.ok none
        | _ => Except.ok none) with
      | .error e => .error e
      | .ok l => .ok (l.filterMap (fun o => o))

/-- Size bound for `jget`, needed for the termination of the recursive
topic parsers below. -/
theorem jget_sizeOf {fields : List (List Char × JVal)} {k : List Char}
    {v : JVal} (h : jget fields k = some v) : sizeOf v < sizeOf fields := by
  unfold jget at h
  match hf : fields.find? (fun kv => decide (kv.1 = k)) with
  | none => rw [hf] at h; simp at h
  | some kv =>
    rw [hf] at h
    simp at h
    have hmem := List.mem_of_find?_eq_some hf
    have h1 : sizeOf kv < sizeOf fields := List.sizeOf_lt_of_mem hmem
    have h2 : sizeOf v < sizeOf kv := by
      subst h
      cases kv
      simp only [Prod.mk.sizeOf_spec]
      omega
    omega

mutual
/-- Embedding of `_parse_zen_topic`: decode one zen topic node.  A non-dict
node raises AttributeError (`data.get` on a non-dict). -/
def parse_zen_topic : JVal → Except PyErr Topic
  | .jobj fs => do
    let tid ← jidField fs (s2 "id")
    let title ← jstrField fs (s2 "title") []
    let notes ← zenNotes (jget fs (s2 "notes"))
    let labels ← zenLabels fs
    let link ← jstrField fs (s2 "href") []
    let markers ← zenMarkers fs
    let children ← parse_zen_children (jget fs (s2 "children"))
    pure (Topic.mk tid title children notes labels link markers)
  | _ => .error .attrError
termination_by v => sizeOf v
decreasing_by
  cases hj : jget fs (s2 "children") with
  | none =>
    have h0 : 0 < sizeOf fs := by
      cases fs with
      | nil => simp
      | cons a l =>
        simp
        all_goals omega
    simp [hj]
    omega
  | some v =>
    have h1 := jget_sizeOf hj
    simp only [hj, JVal.jobj.sizeOf_spec, Option.some.sizeOf_spec] at h1 ⊢
    omega

/-- The children block of `_parse_zen_topic`: the value of
`data.get('children', {})` is passed in (`none` for an absent key, which
Python defaults to the empty dict, contributing no children); only the
`attached` list is traversed.  A non-dict children value raises
AttributeError (`children_data.get`); an `attached` value that is a
non-empty string or dict would feed its elements (one-character strings
resp. keys) to `_parse_zen_topic`, which raises AttributeError on them; a
non-iterable `attached` raises TypeError. -/
def parse_zen_children : Option JVal → Except PyErr (List Topic)
  | none => pure []
  | some (.jobj cfs) =>
    match ha : jget cfs (s2 "attached") with
    | none => pure []
    | some (.jarr xs) => parse_zen_topics xs
    | some (.jstr s) => if s.isEmpty then pure [] else .error .attrError
    | some (.jobj ofs) => if ofs.isEmpty then pure [] else .error .attrError
    | some _ => .error .typeError
  | some _ => .error .attrError
termination_by o => sizeOf o
decreasing_by
  have h2 := jget_sizeOf ha
  simp only [JVal.jobj.sizeOf_spec, JVal.jarr.sizeOf_spec,
    Option.some.sizeOf_spec] at h2 ⊢
  omega

/-- Decode a list of attached zen child nodes in order (the
`for child in children_data.get('attached', [])` loop). -/
def parse_zen_topics : List JVal → Except PyErr (List Topic)
  | [] => pure []
  | x :: xs => do
    let t ← parse_zen_topic x
    let ts ← parse_zen_topics xs
    pure (t :: ts)
termination_by xs => sizeOf xs
decreasing_by
  all_goals simp
  omega
end

/-- Embedding of the per-sheet part of `parse_zen`: each JSON array element
becomes one `Sheet`. -/
def parse_zen_sheet : JVal → Except PyErr Sheet
  | .jobj fs => do
    let title ← jstrField fs (s2 "title") (s2 "Sheet 1")
    let sid ← jidField fs (s2 "id")
    match jget fs (s2 "rootTopic") with
    | some rv => do
      let rt ← parse_zen_topic rv
      pure (Sheet.mk sid title (some rt))
    | none => pure (Sheet.mk sid title none)
  | _ => .error .attrError

/-- Embedding of `parse_zen` at the content level: decode the JSON value of
content.json into a sheet list. -/
def parse_zen_content (v : JVal) : Except PyErr (List Sheet) := do
  let elems ← pyIter v
  elems.mapM parse_zen_sheet

/-- Embedding of `parse_zen`: read and decode content.json from the
archive. -/
def parse_zen (z : ZipFile) : Except PyErr (List Sheet) := do
  match ← zfRead z (s2 "content.json") with
  | .json v => parse_zen_content v
  | _ => .error .keyError

-- ============================================================
-- Zen format encoding (create_zen, _topic_to_zen_dict)
-- ============================================================

/-- The field list of the JSON object `_topic_to_zen_dict` builds: `id`,
`class`, `title` always; `notes`, `labels`, `href`, `markers` and
`children.attached` only when non-empty.  The children segment takes the
already-encoded child dictionaries as a parameter. -/
def zen_fields (tid title notes link : List Char)
    (labels markers : List (List Char)) (children : List Topic)
    (childDicts : List JVal) : List (List Char × JVal) :=
  [(s2 "id", .jstr tid), (s2 "class", .jstr (s2 "topic")),
   (s2 "title", .jstr title)] ++
  (if notes ≠ [] then
    [(s2 "notes", .jobj [(s2 "plain", .jobj [(s2 "content", .jstr notes)])])]
   else []) ++
  (if labels ≠ [] then [(s2 "labels", .jarr (labels.map .jstr))] else []) ++
  (if link ≠ [] then [(s2 "href", .jstr link)] else []) ++
  (if markers ≠ [] then
    [(s2 "markers", .jarr (markers.map (fun m => .jobj [(s2 "markerId", .jstr m)])))]
   else []) ++
  (if !children.isEmpty then
    [(s2 "children", .jobj [(s2 "attached", .jarr childDicts)])]
   else [])

mutual
/-- Embedding of `_topic_to_zen_dict`: encode one topic as a JSON object
with the fields of `zen_fields`. -/
def topic_to_zen_dict : Topic → JVal
  | .mk tid title children notes labels link markers =>
    .jobj (zen_fields tid title notes link labels markers children
      (topics_to_zen_dicts children))

def topics_to_zen_dicts : List Topic → List JVal
  | [] => []
  | t :: ts => topic_to_zen_dict t :: topics_to_zen_dicts ts
end

/-- The JSON value written to content.json by `create_zen`. -/
def create_zen_content (sheets : List Sheet) : JVal :=
  .jarr (sheets.map (fun sh =>
    .jobj
      ([(s2 "id", .jstr sh.id), (s2 "class", .jstr (s2 "sheet")),
        (s2 "title", .jstr sh.title)] ++
       (match sh.root_topic with
        | some rt => [(s2 "rootTopic", topic_to_zen_dict rt)]
        | none => []))))

/-- The fixed metadata.json value written by `create_zen`. -/
def zenMetadata : JVal :=
  .jobj [(s2 "creator",
    .jobj [(s2 "name", .jstr (s2 "xmind-tool")),
           (s2 "version", .jstr (s2 "1.0.0"))])]

/-- Embedding of `create_zen`: the archive written for a sheet list. -/
def create_zen (sheets : List Sheet) : ZipFile :=
  [(s2 "content.json", .json (create_zen_content sheets)),
   (s2 "metadata.json", .json zenMetadata)]

-- ============================================================
-- Legacy format decoding (parse_legacy, _parse_legacy_topic)
-- ============================================================

/-- The XLink-namespaced `href` attribute key (`_XLINK` of the source). -/
def xlinkHref : List Char := s2 "xlink:href"

/-- ElementTree `elem.find(tag)`: first direct child with the tag. -/
def xfind (tag : List Char) (xs : List XElem) : Option XElem :=
  xs.find? (fun c => decide (c.tag = tag))

/-- ElementTree `elem.findall(tag)`: all direct children with the tag. -/
def xfindall (tag : List Char) (xs : List XElem) : List XElem :=
  xs.filter (fun c => decide (c.tag = tag))

/-- ElementTree `elem.get(key)`. -/
def xattr (e : XElem) (k : List Char) : Option (List Char) :=
  (e.attrs.find? (fun kv => decide (kv.1 = k))).map (fun kv => kv.2)

/-- The identifier passed to `Topic(...)`/`Sheet(...)`: absent or empty
means a fresh one is generated. -/
def idOr (v : Option (List Char)) : List Char :=
  match v with
  | none => genId
  | some s => if s.isEmpty then genId else s

/-- Size bound for `xfind`, for the termination of the legacy parser. -/
theorem xfind_sizeOf {tag : List Char} {xs : List XElem} {e : XElem}
    (h : xfind tag xs = some e) : sizeOf e < sizeOf xs := by
  unfold xfind at h
  match hf : xs.find? (fun c => decide (c.tag = tag)) with
  | none => rw [hf] at h; simp at h
  | some c =>
    rw [hf] at h
    simp at h
    subst h
    exact List.sizeOf_lt_of_mem (List.mem_of_find?_eq_some hf)

/-- The children list of an element is smaller than the element. -/
theorem xelem_children_sizeOf (e : XElem) : sizeOf e.children < sizeOf e := by
  cases e
  simp [XElem.children]
  all_goals omega

/-- Filtering does not increase list size. -/
theorem sizeOf_filter_le (p : XElem → Bool) (xs : List XElem) :
    sizeOf (xs.filter p) ≤ sizeOf xs := by
  induction xs with
  | nil => simp
  | cons x xs ih =>
    by_cases h : p x = true
    · simp [List.filter_cons, h]
      omega
    · simp only [List.filter_cons, h]
      simp
      omega

mutual
/-- Embedding of `_parse_legacy_topic`: decode one legacy XML topic
element (title, notes, labels, xlink href, marker refs, attached
children). -/
def parse_legacy_topic : XElem → Topic
  | .mk tg at2 tx ch =>
    let title := match xfind (s2 "title") ch with
      | some te => te.text
      | none => []
    let notes := match xfind (s2 "notes") ch with
      | some ne =>
        match xfind (s2 "plain") ne.children with
        | some pe => pe.text
        | none => []
      | none => []
    let labels := match xfind (s2 "labels") ch with
      | some le =>
        ((xfindall (s2 "label") le.children).map XElem.text).filter
          (fun t => !t.isEmpty)
      | none => []
    let link := (xattr (.mk tg at2 tx ch) xlinkHref).getD []
    let markers := match xfind (s2 "marker-refs") ch with
      | some me =>
        ((xfindall (s2 "marker-ref") me.children).map
          (fun mr => (xattr mr (s2 "marker-id")).getD [])).filter
          (fun t => !t.isEmpty)
      | none => []
    let children := match hc : xfind (s2 "children") ch with
      | some ce => legacy_attached_groups ce.children
      | none => []
    Topic.mk (idOr (xattr (.mk tg at2 tx ch) (s2 "id"))) title children notes
      labels link markers
termination_by e => sizeOf e
decreasing_by
  have h1 := xfind_sizeOf hc
  have h2 := xelem_children_sizeOf ce
  simp at h1 ⊢
  all_goals omega

/-- The loop over `children_elem.findall('c:topics')`: each `topics`
element whose `type` attribute is exactly "attached" contributes its
`topic` children, in order. -/
def legacy_attached_groups : List XElem → List Topic
  | [] => []
  | te :: rest =>
    (if xattr te (s2 "type") = some (s2 "attached") ∧ te.tag = s2 "topics" then
      legacy_topic_list (xfindall (s2 "topic") te.children)
    else []) ++ legacy_attached_groups rest
termination_by xs => sizeOf xs
decreasing_by
  · have h1 := sizeOf_filter_le (fun c => decide (c.tag = s2 "topic")) te.children
    have h2 := xelem_children_sizeOf te
    simp [xfindall] at h1 ⊢
    all_goals omega
  · simp
    all_goals omega

/-- The loop appending one decoded child per `topic` element. -/
def legacy_topic_list : List XElem → List Topic
  | [] => []
  | c :: cs => parse_legacy_topic c :: legacy_topic_list cs
termination_by xs => sizeOf xs
decreasing_by
  · simp
    all_goals omega
  · simp
    all_goals omega
end

/-- The per-sheet decoder inside `parse_legacy`: a sheet element has an
optional `title` child (defaulting to "Sheet 1" when absent or empty) and
its first `topic` child is the root topic. -/
def parse_legacy_sheet (se : XElem) : Sheet :=
  Sheet.mk (idOr (xattr se (s2 "id")))
    (match xfind (s2 "title") se.children with
     | some te => if te.text.isEmpty then s2 "Sheet 1" else te.text
     | none => s2 "Sheet 1")
    ((xfind (s2 "topic") se.children).map parse_legacy_topic)

/-- Embedding of the per-sheet part of `parse_legacy`: sheets are the
`sheet` children of the root element. -/
def parse_legacy_content (root : XElem) : List Sheet :=
  (xfindall (s2 "sheet") root.children).map parse_legacy_sheet

/-- Embedding of `parse_legacy`: read and decode content.xml. -/
def parse_legacy (z : ZipFile) : Except PyErr (List Sheet) := do
  match ← zfRead z (s2 "content.xml") with
  | .xml root => pure (parse_legacy_content root)
  | _ => .error .keyError

-- ============================================================
-- Legacy format encoding (create_legacy, _topic_to_legacy_xml)
-- ============================================================

/-- The attribute list of a legacy topic element: `id` and the encode-time
`timestamp`, plus the XLink href when the link is non-empty. -/
def legacy_topic_attrs (tid ts link : List Char) : List (List Char × List Char) :=
  [(s2 "id", tid), (s2 "timestamp", ts)] ++
  (if link ≠ [] then [(xlinkHref, link)] else [])

/-- The child elements of a legacy topic element: the title element
always, then notes, labels, marker-refs and children elements when
non-empty (the encoded child elements are passed in). -/
def legacy_topic_children (title notes : List Char)
    (labels markers : List (List Char)) (children : List Topic)
    (childElems : List XElem) : List XElem :=
  [XElem.mk (s2 "title") [] title []] ++
  (if notes ≠ [] then
    [XElem.mk (s2 "notes") [] [] [XElem.mk (s2 "plain") [] notes []]]
   else []) ++
  (if labels ≠ [] then
    [XElem.mk (s2 "labels") [] []
      (labels.map (fun l => XElem.mk (s2 "label") [] l []))]
   else []) ++
  (if markers ≠ [] then
    [XElem.mk (s2 "marker-refs") [] []
      (markers.map (fun m => XElem.mk (s2 "marker-ref") [(s2 "marker-id", m)] [] []))]
   else []) ++
  (if !children.isEmpty then
    [XElem.mk (s2 "children") [] []
      [XElem.mk (s2 "topics") [(s2 "type", s2 "attached")] [] childElems]]
   else [])

mutual
/-- Embedding of `_topic_to_legacy_xml`: encode one topic as a legacy XML
element.  `ts` is the millisecond timestamp string taken at encode time
(`str(int(time.time() * 1000))`), passed in as a parameter since it is
read from the clock. -/
def topic_to_legacy_xml (ts : List Char) : Topic → XElem
  | .mk tid title children notes labels link markers =>
    XElem.mk (s2 "topic") (legacy_topic_attrs tid ts link) []
      (legacy_topic_children title notes labels markers children
        (topics_to_legacy_xml ts children))

def topics_to_legacy_xml (ts : List Char) : List Topic → List XElem
  | [] => []
  | t :: rest => topic_to_legacy_xml ts t :: topics_to_legacy_xml ts rest
end

/-- The per-sheet element written by `create_legacy`: the sheet's root
topic element, if any, followed by its title element. -/
def sheet_to_legacy_elem (ts : List Char) (sh : Sheet) : XElem :=
  XElem.mk (s2 "sheet") [(s2 "id", sh.id), (s2 "timestamp", ts)] []
    ((match sh.root_topic with
      | some rt => [topic_to_legacy_xml ts rt]
      | none => []) ++
     [XElem.mk (s2 "title") [] sh.title []])

/-- The root `xmap-content` element written by `create_legacy`. -/
def create_legacy_content (ts : List Char) (sheets : List Sheet) : XElem :=
  XElem.mk (s2 "xmap-content") [(s2 "version", s2 "2.0")] []
    (sheets.map (sheet_to_legacy_elem ts))

/-- The fixed manifest written by `create_legacy`. -/
def legacyManifest : List Char :=
  s2 "<?xml version=\"1.0\" encoding=\"UTF-8\" standalone=\"no\"?>\n<manifest xmlns=\"urn:xmind:xmap:xmlns:manifest:1.0\">\n  <file-entry full-path=\"content.xml\" media-type=\"text/xml\"/>\n  <file-entry full-path=\"META-INF/\" media-type=\"\"/>\n  <file-entry full-path=\"META-INF/manifest.xml\" media-type=\"text/xml\"/>\n</manifest>"

/-- Embedding of `create_legacy`: the archive written for a sheet list. -/
def create_legacy (ts : List Char) (sheets : List Sheet) : ZipFile :=
  [(s2 "content.xml", .xml (create_legacy_content ts sheets)),
   (s2 "META-INF/manifest.xml", .raw legacyManifest)]

-- ============================================================
-- Model → markdown (sheets_to_markdown, _format_meta_block, _topic_to_md)
-- ============================================================

/-- The blockquote metadata lines `_format_meta_block` produces for a root
topic: Labels / Link / Markers lines for the non-empty attributes, then
one quoted line per notes line. -/
def format_meta_block_lines (t : Topic) : List (List Char) :=
  (if t.labels ≠ [] then
    [s2 "> Labels: " ++ List.intercalate (s2 ", ") t.labels] else []) ++
  (if t.link ≠ [] then [s2 "> Link: " ++ t.link] else []) ++
  (if t.markers ≠ [] then
    [s2 "> Markers: " ++ List.intercalate (s2 ", ") t.markers] else []) ++
  (if t.notes ≠ [] then
    (splitlinesPy t.notes).map (fun nl => s2 "> " ++ nl) else [])

/-- Embedding of `_format_meta_block` (the joined string). -/
def format_meta_block (t : Topic) : List Char :=
  List.intercalate (s2 "\n") (format_meta_block_lines t)

/-- The inline metadata fragments of `_topic_to_md`, in the fixed order
labels, link, markers (each a brace-delimited fragment). -/
def inline_meta_parts (t : Topic) : List (List Char) :=
  (if t.labels ≠ [] then
    [s2 "\x7blabels: " ++ List.intercalate (s2 ", ") t.labels ++ s2 "\x7d"] else []) ++
  (if t.link ≠ [] then [s2 "\x7blink: " ++ t.link ++ s2 "\x7d"] else []) ++
  (if t.markers ≠ [] then
    [s2 "\x7bmarkers: " ++ List.intercalate (s2 ", ") t.markers ++ s2 "\x7d"] else [])

/-- The `'  ' * depth` indent. -/
def indentOf (depth : Nat) : List Char := List.replicate (2 * depth) ' '

/-- The bullet line of a topic at a given depth: indent, `- `, title, and
the inline fragments separated by two spaces. -/
def titleLineOf (depth : Nat) (t : Topic) : List Char :=
  let base := indentOf depth ++ s2 "- " ++ t.title
  if inline_meta_parts t ≠ [] then
    base ++ s2 "  " ++ List.intercalate (s2 "  ") (inline_meta_parts t)
  else base

/-- The raw title text after the bullet `- ` on an encoded title line: the
title followed by the joined inline metadata fragments. -/
def rawTitleOf (t : Topic) : List Char :=
  t.title ++ (if inline_meta_parts t ≠ [] then
    s2 "  " ++ List.intercalate (s2 "  ") (inline_meta_parts t) else [])

/-- The text contributed by a list of inline metadata fragments, as
key/value pairs: two separating spaces before each `\x7bkey: value\x7d`
fragment.  `s2 "  " ++ List.intercalate (s2 "  ") parts` has exactly this
shape. -/
def fragsText : List (List Char × List Char) → List Char
  | [] => []
  | (k, v) :: rest => s2 "  \x7b" ++ k ++ s2 ": " ++ v ++ s2 "\x7d" ++ fragsText rest

/-- The key/value pairs of a topic's inline metadata fragments. -/
def metaPairs (t : Topic) : List (List Char × List Char) :=
  (if t.labels ≠ [] then
    [(s2 "labels", List.intercalate (s2 ", ") t.labels)] else []) ++
  (if t.link ≠ [] then [(s2 "link", t.link)] else []) ++
  (if t.markers ≠ [] then
    [(s2 "markers", List.intercalate (s2 ", ") t.markers)] else [])

mutual
/-- Embedding of `_topic_to_md`: the markdown string of one topic — bullet
line, quoted note lines indented two spaces past the bullet, then each
child's markdown (one joined string per child, like the source's `lines`
list), all joined with newlines. -/
def topic_to_md (depth : Nat) : Topic → List Char
  | .mk i ti ch no la li ma =>
    List.intercalate (s2 "\n")
      ([titleLineOf depth (.mk i ti ch no la li ma)] ++
       (if no ≠ [] then
          (splitlinesPy no).map (fun nl => indentOf depth ++ s2 "  > " ++ nl)
        else []) ++
       topics_to_md (depth + 1) ch)

/-- The recursion over children of `_topic_to_md` (one string per child). -/
def topics_to_md (depth : Nat) : List Topic → List (List Char)
  | [] => []
  | t :: rest => topic_to_md depth t :: topics_to_md depth rest
end

/-- The `parts` list contributed by one sheet in `sheets_to_markdown`
(including the separator part for every sheet but the first). -/
def sheet_parts (i : Nat) (sh : Sheet) : List (List Char) :=
  (if 0 < i then [s2 "\n---\n"] else []) ++
  [s2 "# Sheet: " ++ sh.title ++ s2 "\n"] ++
  (match sh.root_topic with
   | none => []
   | some rt =>
     [s2 "\n## " ++ rt.title ++ s2 "\n"] ++
     (if format_meta_block rt ≠ [] then [format_meta_block rt] else []) ++
     [[]] ++
     topics_to_md 0 rt.children)

/-- Embedding of `sheets_to_markdown`: all parts joined with newlines. -/
def sheets_to_markdown (sheets : List Sheet) : List Char :=
  List.intercalate (s2 "\n")
    ((sheets.enum.map (fun p => sheet_parts p.1 p.2)).flatten)

-- ============================================================
-- Markdown → model (markdown_to_sheets and helpers)
-- ============================================================

/-- The regex `^(\s*)- (.+)$` of the item loop: maximal whitespace prefix,
a literal `- `, and a non-empty rest.  Returns the indent width and the
rest. -/
def matchBullet (l : List Char) : Option (Nat × List Char) :=
  let w := l.takeWhile isWs
  let r := l.drop w.length
  if (s2 "- ").isPrefixOf r ∧ r.drop 2 ≠ [] then some (w.length, r.drop 2)
  else none

/-- The regex `^(\s*)- ` used to recognize a nested list item (no
constraint on what follows the dash-space). -/
def matchBulletStart (l : List Char) : Option Nat :=
  let w := l.takeWhile isWs
  if (s2 "- ").isPrefixOf (l.drop w.length) then some w.length else none

/-- The regex `^(\s*)> (.*)$` of the quoted-note check: maximal whitespace
prefix, a literal `> `, and the (possibly empty) remainder. -/
def matchQuote (l : List Char) : Option (Nat × List Char) :=
  let w := l.takeWhile isWs
  let r := l.drop w.length
  if (s2 "> ").isPrefixOf r then some (w.length, r.drop 2) else none

/-- Split a string at its first closing brace. -/
def splitAtRBrace : List Char → Option (List Char × List Char)
  | [] => none
  | c :: cs =>
    if c = '\x7d' then some ([], cs)
    else (splitAtRBrace cs).map (fun p => (c :: p.1, p.2))

/-- Group 1 of a successful `\{key:\s*([^}]+)\}` match whose bracketed
region (between the colon and the closing brace) is `m`: the greedy `\s*`
takes the whitespace prefix, backtracking one character when everything is
whitespace so that `[^}]+` is non-empty. -/
def group1Of (m : List Char) : List Char :=
  let w := m.takeWhile isWs
  if m.length ≤ w.length then m.drop (m.length - 1) else m.drop w.length

/-- The search `re.search(r'\{key:\s*([^}]+)\}', s)`: scan left to right
for an occurrence of `{key:` that is followed (at distance at least one)
by a closing brace; return the text before the match, group 1, and the
text after the match. -/
def findFrag (key : List Char) : List Char → Option (List Char × List Char × List Char)
  | [] => none
  | c :: cs =>
    if ('\x7b' :: key ++ [':']).isPrefixOf (c :: cs) then
      match splitAtRBrace ((c :: cs).drop (key.length + 2)) with
      | some (m, b) =>
        if m.isEmpty then
          (findFrag key cs).map (fun p => (c :: p.1, p.2.1, p.2.2))
        else some ([], group1Of m, b)
      | none => (findFrag key cs).map (fun p => (c :: p.1, p.2.1, p.2.2))
    else (findFrag key cs).map (fun p => (c :: p.1, p.2.1, p.2.2))

/-- The comprehension `[v.strip() for v in val.split(',') if v.strip()]`. -/
def clean_list_vals (val : List Char) : List (List Char) :=
  ((splitComma val).map stripPy).filter (fun v => !v.isEmpty)

/-- Embedding of `_parse_title_meta`: extract the inline `{labels: ...}`,
`{link: ...}`, `{markers: ...}` fragments (in that order, each removed
from the remaining text), the final title being the stripped remainder. -/
def parse_title_meta (raw : List Char) : Topic :=
  let p1 := findFrag (s2 "labels") raw
  let labels := match p1 with
    | some (_, g, _) => clean_list_vals (stripPy g)
    | none => []
  let r1 := match p1 with
    | some (a, _, b) => a ++ b
    | none => raw
  let p2 := findFrag (s2 "link") r1
  let link := match p2 with
    | some (_, g, _) => stripPy g
    | none => []
  let r2 := match p2 with
    | some (a, _, b) => a ++ b
    | none => r1
  let p3 := findFrag (s2 "markers") r2
  let markers := match p3 with
    | some (_, g, _) => clean_list_vals (stripPy g)
    | none => []
  let r3 := match p3 with
    | some (a, _, b) => a ++ b
    | none => r2
  Topic.mk genId (stripPy r3) [] [] labels link markers

/-- The substitution `re.sub(r'^>\s*', '', line)`. -/
def subQuote (line : List Char) : List Char :=
  match line with
  | c :: cs => if c = '>' then cs.dropWhile isWs else line
  | [] => line

/-- The loop of `_apply_block_meta` over the collected quote lines,
threading the topic's labels/link/markers and accumulating note parts. -/
def abmLoop (labels : List (List Char)) (link : List Char)
    (markers : List (List Char)) (noteParts : List (List Char)) :
    List (List Char) →
      List (List Char) × List Char × List (List Char) × List (List Char)
  | [] => (labels, link, markers, noteParts)
  | line :: rest =>
    let text := subQuote line
    if (s2 "Labels:").isPrefixOf text then
      abmLoop (clean_list_vals (text.drop 7)) link markers noteParts rest
    else if (s2 "Link:").isPrefixOf text then
      abmLoop labels (stripPy (text.drop 5)) markers noteParts rest
    else if (s2 "Markers:").isPrefixOf text then
      abmLoop labels link (clean_list_vals (text.drop 8)) noteParts rest
    else abmLoop labels link markers (noteParts ++ [text]) rest

/-- Embedding of `_apply_block_meta`: apply the root metadata lines to a
topic (notes are set only when note parts were collected). -/
def apply_block_meta (t : Topic) (metaLines : List (List Char)) : Topic :=
  match t with
  | .mk tid title ch notes labels link markers =>
    match abmLoop labels link markers [] metaLines with
    | (labels2, link2, markers2, noteParts) =>
      Topic.mk tid title ch
        (if noteParts ≠ [] then List.intercalate (s2 "\n") noteParts else notes)
        labels2 link2 markers2

/-- The inner line-consuming loop of `_parse_md_items`: starting after an
item line with indent `cur`, classify each following line as nested
content (`childAcc`), an own quoted note line (`noteAcc`), or a
terminator; returns the accumulators and the unconsumed remainder. -/
def consumeItem (cur : Nat) (childAcc noteAcc : List (List Char)) :
    List (List Char) →
      List (List Char) × List (List Char) × List (List Char)
  | [] => (childAcc, noteAcc, [])
  | nxt :: rest =>
    if (stripPy nxt).isEmpty then consumeItem cur childAcc noteAcc rest
    else
      match matchBulletStart nxt with
      | some ni =>
        if cur < ni then consumeItem cur (childAcc ++ [nxt]) noteAcc rest
        else (childAcc, noteAcc, nxt :: rest)
      | none =>
        match matchQuote nxt with
        | some (bi, content) =>
          if childAcc = [] ∧ bi = cur + 2 then
            consumeItem cur childAcc (noteAcc ++ [content]) rest
          else if cur < bi then
            consumeItem cur (childAcc ++ [nxt]) noteAcc rest
          else (childAcc, noteAcc, nxt :: rest)
        | none =>
          if (List.replicate (cur + 2) ' ').isPrefixOf nxt then
            consumeItem cur (childAcc ++ [nxt]) noteAcc rest
          else (childAcc, noteAcc, nxt :: rest)

/-- Size bound on the inner loop's output, needed for the termination of
`parse_md_items`: collected child lines and the remainder together never
exceed the accumulator plus the input. -/
theorem consumeItem_length (cur : Nat) (A N ls : List (List Char)) :
    (consumeItem cur A N ls).1.length + (consumeItem cur A N ls).2.2.length ≤
      A.length + ls.length := by
  induction A, N, ls using consumeItem.induct cur with
  | case1 A N => simp [consumeItem]
  | case2 A N nxt rest h ih =>
    rw [consumeItem, if_pos h]
    simp only [List.length_cons]
    omega
  | case3 A N nxt rest h ni hb hlt ih =>
    rw [consumeItem, if_neg (by simp [h])]
    simp only [hb]
    rw [if_pos hlt]
    simp only [List.length_cons, List.length_append, List.length_singleton,
      List.length_nil] at ih ⊢
    all_goals omega
  | case4 A N nxt rest h ni hb hge =>
    rw [consumeItem, if_neg (by simp [h])]
    simp only [hb]
    rw [if_neg hge]
  | case5 A N nxt rest h hb bi content hq hc ih =>
    rw [consumeItem, if_neg (by simp [h])]
    simp only [hb, hq]
    rw [if_pos hc]
    simp only [List.length_cons, List.length_append, List.length_singleton,
      List.length_nil] at ih ⊢
    all_goals omega
  | case6 A N nxt rest h hb bi content hq hc hlt ih =>
    rw [consumeItem, if_neg (by simp [h])]
    simp only [hb, hq]
    rw [if_neg hc, if_pos hlt]
    simp only [List.length_cons, List.length_append, List.length_singleton,
      List.length_nil] at ih ⊢
    all_goals omega
  | case7 A N nxt rest h hb bi content hq hc hge =>
    rw [consumeItem, if_neg (by simp [h])]
    simp only [hb, hq]
    rw [if_neg hc, if_neg hge]
  | case8 A N nxt rest h hb hq hp ih =>
    rw [consumeItem, if_neg (by simp [h])]
    simp only [hb, hq]
    rw [if_pos hp]
    simp only [List.length_cons, List.length_append, List.length_singleton,
      List.length_nil] at ih ⊢
    all_goals omega
  | case9 A N nxt rest h hb hq hp =>
    rw [consumeItem, if_neg (by simp [h])]
    simp only [hb, hq]
    rw [if_neg hp]

/-- Embedding of `_parse_md_items`: scan for bullet lines; for each, parse
its inline metadata, consume its note and nested-content lines, recurse on
the nested content, and continue with the remainder. -/
def parse_md_items : List (List Char) → List Topic
  | [] => []
  | line :: rest =>
    match matchBullet line with
    | none => parse_md_items rest
    | some (cur, rawTitle) =>
      let t0 := parse_title_meta rawTitle
      match h : consumeItem cur [] [] rest with
      | (childLines, noteLines, remaining) =>
        Topic.mk t0.id t0.title
          (if childLines ≠ [] then parse_md_items childLines else t0.children)
          (if noteLines ≠ [] then List.intercalate (s2 "\n") noteLines
           else t0.notes)
          t0.labels t0.link t0.markers
        :: parse_md_items remaining
termination_by ls => ls.length
decreasing_by
  · simp only [List.length_cons]
    omega
  · have hlen := consumeItem_length cur [] [] ls
    rw [h] at hlen
    simp only [List.length_cons, List.length_nil] at hlen ⊢
    omega
  · have hlen := consumeItem_length cur [] [] ls
    rw [h] at hlen
    simp only [List.length_cons, List.length_nil] at hlen ⊢
    omega

/-- The phases of the `_parse_sheet_block` line loop. -/
inductive Phase where
  | init
  | afterSheet
  | rootMeta
  | body
deriving DecidableEq

/-- State of the `_parse_sheet_block` line loop. -/
structure BState where
  phase : Phase
  sheetTitle : List Char
  rootTitle : List Char
  rootMeta : List (List Char)
  body : List (List Char)

/-- The line loop of `_parse_sheet_block`: blank lines are kept only in
the body; the `# Sheet:` heading is recognized in the initial phase only,
the `## ` root heading before any body content, quoted root metadata lines
directly after the root heading; everything else starts (or continues) the
body. -/
def psbLoop (st : BState) : List (List Char) → BState
  | [] => st
  | line :: rest =>
    let stripped := stripPy line
    if stripped.isEmpty then
      psbLoop (if st.phase = .body then { st with body := st.body ++ [line] } else st) rest
    else if st.phase = .init ∧ (s2 "# Sheet:").isPrefixOf stripped then
      psbLoop { st with phase := .afterSheet,
                        sheetTitle := stripPy (stripped.drop 8) } rest
    else if (st.phase = .init ∨ st.phase = .afterSheet) ∧
        (s2 "## ").isPrefixOf stripped then
      psbLoop { st with phase := .rootMeta,
                        rootTitle := stripPy (stripped.drop 3) } rest
    else if st.phase = .rootMeta ∧ (s2 ">").isPrefixOf stripped then
      psbLoop { st with rootMeta := st.rootMeta ++ [stripped] } rest
    else
      psbLoop { st with phase := .body, body := st.body ++ [line] } rest

/-- Replace a topic's children (the assignment
`sheet.root_topic.children = _parse_md_items(body_lines)`). -/
def setChildren : Topic → List Topic → Topic
  | .mk i t _ n la li m, ch => .mk i t ch n la li m

/-- Embedding of `_parse_sheet_block`: run the line loop; a block with
neither a root title nor body lines yields no sheet; otherwise build the
sheet with a fresh root topic carrying the root metadata and the parsed
body items. -/
def parse_sheet_block (block : List Char) : Option Sheet :=
  match psbLoop (BState.mk .init (s2 "Sheet 1") [] [] []) (splitNl block) with
  | st =>
    if st.rootTitle.isEmpty ∧ st.body.isEmpty then none
    else
      let root0 := Topic.mk genId st.rootTitle [] [] [] [] []
      let root1 := apply_block_meta root0 st.rootMeta
      let root2 :=
        if !st.body.isEmpty then setChildren root1 (parse_md_items st.body)
        else root1
      some (Sheet.mk genId st.sheetTitle (some root2))

/-- The separator of `re.split(r'\n---\n', md_text)`. -/
def sepChars : List Char := s2 "\n---\n"

/-- Find the leftmost occurrence of the sheet separator: the text before
it and the text after it. -/
def findSep : List Char → Option (List Char × List Char)
  | [] => none
  | c :: cs =>
    if sepChars.isPrefixOf (c :: cs) then some ([], (c :: cs).drop 5)
    else (findSep cs).map (fun p => (c :: p.1, p.2))

/-- The remainder after a found separator is shorter than the input
(termination of `reSplitSep`). -/
theorem findSep_length : ∀ (s a b : List Char), findSep s = some (a, b) →
    b.length < s.length := by
  intro s
  induction s with
  | nil => intro a b h; simp [findSep] at h
  | cons c cs ih =>
    intro a b h
    rw [findSep] at h
    by_cases hp : sepChars.isPrefixOf (c :: cs)
    · simp only [hp, if_true, Option.some.injEq, Prod.mk.injEq] at h
      have hl : 5 ≤ (c :: cs).length := by
        have h6 := List.IsPrefix.length_le (List.isPrefixOf_iff_prefix.mp hp)
        have h5 : sepChars.length = 5 := by decide
        omega
      have hb : b = (c :: cs).drop 5 := h.2.symm
      subst hb
      rw [List.length_drop]
      omega
    · simp only [hp, if_false, Bool.false_eq_true] at h
      match hf : findSep cs with
      | none => rw [hf] at h; simp at h
      | some (a2, b2) =>
        rw [hf] at h
        simp at h
        have := ih a2 b2 hf
        simp [← h.2]
        omega

/-- Embedding of `re.split(r'\n---\n', md_text)`: repeatedly split at the
leftmost separator occurrence. -/
def reSplitSep (s : List Char) : List (List Char) :=
  match h : findSep s with
  | none => [s]
  | some (a, b) => a :: reSplitSep b
termination_by s.length
decreasing_by
  exact findSep_length s a b h

/-- Embedding of `markdown_to_sheets`: split on the separator, parse each
stripped block, keep the blocks that produce a sheet. -/
def markdown_to_sheets (mdText : List Char) : List Sheet :=
  (reSplitSep mdText).filterMap (fun b => parse_sheet_block (stripPy b))

-- ============================================================
-- Update and command boundaries (update_xmind, cmd_create, cmd_update)
-- ============================================================

/-- Embedding of `update_xmind` as a transformer of the target file's
content: the first component is the package content after the call, the
second the raised error, if any.  Mirrors the source's control flow:
detect the variant first, then parse the markdown (which is total), and
only then re-encode with the codec of the detected variant, overwriting
the file; when detection raises, the file is left untouched.  `ts` is the
encode-time timestamp string. -/
def update_xmind (z : ZipFile) (mdText : List Char) (ts : List Char) :
    ZipFile × Option PyErr :=
  match detect_format z with
  | .error e => (z, some e)
  | .ok fmt =>
    let sheets := markdown_to_sheets mdText
    (if fmt = .zen then create_zen sheets else create_legacy ts sheets, none)

/-- Embedding of the `cmd_create` boundary (file-existence checks aside):
zero parsed sheets is a usage error — exit code 1 and no package written;
otherwise the package is written (legacy only when the format argument is
exactly "legacy") and the exit code is 0. -/
def cmd_create (fmtArg : List Char) (mdText : List Char) (ts : List Char) :
    Option ZipFile × Nat :=
  let sheets := markdown_to_sheets mdText
  if sheets.isEmpty then (none, 1)
  else
    (some (if fmtArg = s2 "legacy" then create_legacy ts sheets
           else create_zen sheets), 0)

/-- Embedding of the `cmd_update` boundary (file-existence checks aside):
it simply runs `update_xmind`; an uncaught error gives a non-zero exit, a
success exit code 0.  The first component is the target file's content
after the call. -/
def cmd_update (z : ZipFile) (mdText : List Char) (ts : List Char) :
    ZipFile × Nat :=
  match update_xmind z mdText ts with
  | (z2, none) => (z2, 0)
  | (z2, some _) => (z2, 1)

-- ============================================================
-- Auxiliary notions for the claims: identifier erasure,
-- well-formedness predicates, flattened encoder output
-- ============================================================

mutual
/-- Erase identifiers in a topic tree (replace them by the generated-id
token).  Two documents are "equal up to regenerated identifiers" when
their erasures are equal. -/
def scrubTopic : Topic → Topic
  | .mk _ ti ch no la li ma => .mk genId ti (scrubTopics ch) no la li ma

def scrubTopics : List Topic → List Topic
  | [] => []
  | t :: ts => scrubTopic t :: scrubTopics ts
end

/-- Erase identifiers in a sheet. -/
def scrubSheet (sh : Sheet) : Sheet :=
  Sheet.mk genId sh.title (sh.root_topic.map scrubTopic)

/-- Erase identifiers in a document. -/
def scrubDoc (sheets : List Sheet) : List Sheet := sheets.map scrubSheet

/-- A single-line, strip-invariant, non-empty, brace-free string: safe as
a title or metadata value in the outline text. -/
def mdValOk (v : List Char) : Bool :=
  !v.isEmpty && decide (stripPy v = v) && !decide ('\n' ∈ v) &&
  !decide ('\x7b' ∈ v) && !decide ('\x7d' ∈ v)

/-- A list-valued metadata entry (label or marker) must additionally be
comma-free, since the outline joins and re-splits on commas. -/
def mdListValOk (v : List Char) : Bool := mdValOk v && !decide (',' ∈ v)

/-- A notes line survives the outline round trip when it is
strip-invariant and does not look like one of the root metadata
keywords. -/
def noteLineOk (nl : List Char) : Bool :=
  decide (stripPy nl = nl) &&
  !(s2 "Labels:").isPrefixOf nl && !(s2 "Link:").isPrefixOf nl &&
  !(s2 "Markers:").isPrefixOf nl

/-- Characters other than `'\n'` that Python `str.splitlines` treats as
line terminators; notes must avoid them for `splitlinesPy` to model
`splitlines` faithfully. -/
def isAltTerm (c : Char) : Bool :=
  c = '\r' || c = '\x0b' || c = '\x0c' || c = '\x1c' || c = '\x1d' ||
  c = '\x1e' || c = '\x85' || c = ' ' || c = ' '

/-- Notes survive the outline round trip when they have no trailing
newline, use only `'\n'` as a terminator, and each line is clean. -/
def notesOk (n : List Char) : Bool :=
  (splitlinesPy n).all noteLineOk && !decide (n.getLast? = some '\n') &&
  !n.any isAltTerm

mutual
/-- Well-formedness of a topic tree for the outline round trip: titles are
single-line, strip-invariant, non-empty and brace-free; labels and markers
additionally comma-free; an absent link is the empty string, a present one
is clean; notes are clean. -/
def wfTopicMd : Topic → Bool
  | .mk _ ti ch no la li ma =>
    mdValOk ti && la.all mdListValOk && ma.all mdListValOk &&
    (li.isEmpty || mdValOk li) && notesOk no && wfTopicsMd ch

def wfTopicsMd : List Topic → Bool
  | [] => true
  | t :: ts => wfTopicMd t && wfTopicsMd ts
end

/-- Well-formedness of a sheet for the outline round trip: the title is
single-line and strip-invariant, and the sheet has a (well-formed) root
topic — the encoder drops rootless sheets, so they cannot round trip. -/
def wfSheetMd (sh : Sheet) : Bool :=
  decide (stripPy sh.title = sh.title) && !decide ('\n' ∈ sh.title) &&
  match sh.root_topic with
  | some rt => wfTopicMd rt
  | none => false

/-- Well-formedness of a document for the outline round trip. -/
def wfDocMd (sheets : List Sheet) : Bool := sheets.all wfSheetMd

mutual
/-- Well-formedness of a topic tree for the package round trips:
identifiers non-empty (an empty identifier is falsy, so decoding would
regenerate it), markers non-empty (the decoders drop falsy marker ids),
labels non-empty (the legacy decoder skips empty label texts). -/
def wfTopicPkg : Topic → Bool
  | .mk i _ ch _ la _ ma =>
    !i.isEmpty && la.all (fun l => !l.isEmpty) && ma.all (fun m => !m.isEmpty) &&
    wfTopicsPkg ch

def wfTopicsPkg : List Topic → Bool
  | [] => true
  | t :: ts => wfTopicPkg t && wfTopicsPkg ts
end

/-- Well-formedness of a sheet for the package round trips: identifier and
title non-empty (a legacy sheet with empty title decodes to "Sheet 1"). -/
def wfSheetPkg (sh : Sheet) : Bool :=
  !sh.id.isEmpty && !sh.title.isEmpty &&
  match sh.root_topic with
  | some rt => wfTopicPkg rt
  | none => true

/-- Well-formedness of a document for the package round trips. -/
def wfDocPkg (sheets : List Sheet) : Bool := sheets.all wfSheetPkg

mutual
/-- The individual output lines of `_topic_to_md` (its joined string cut
back into lines; children contribute their lines flattened). -/
def topic_to_md_lines (depth : Nat) : Topic → List (List Char)
  | .mk i ti ch no la li ma =>
    [titleLineOf depth (.mk i ti ch no la li ma)] ++
    (if no ≠ [] then
      (splitlinesPy no).map (fun nl => indentOf depth ++ s2 "  > " ++ nl)
     else []) ++
    topics_to_md_lines (depth + 1) ch

def topics_to_md_lines (depth : Nat) : List Topic → List (List Char)
  | [] => []
  | t :: rest => topic_to_md_lines depth t ++ topics_to_md_lines depth rest
end

/-- Classification of an encoder-produced body line at depth bound `d`:
non-blank, and either a bullet line of indent at least `2*d` or (not a
bullet and) a quote line of indent at least `2*d + 2`. -/
def lineShape (d : Nat) (L : List Char) : Prop :=
  (stripPy L).isEmpty = false ∧
  ((∃ n, matchBulletStart L = some n ∧ 2 * d ≤ n) ∨
   (matchBulletStart L = none ∧
    ∃ b c, matchQuote L = some (b, c) ∧ 2 * d + 2 ≤ b))

/-- First line of a block that is non-blank after stripping. -/
def firstNonBlank (lines : List (List Char)) : Option (List Char) :=
  lines.find? (fun l => !(stripPy l).isEmpty)

/-- The sheet title a line list should produce according to the claim: the
`# Sheet:` heading counts only as the first non-blank content; otherwise
the default "Sheet 1" applies.  (Spec-side definition, compared against
the parser.) -/
def expectedTitleOfLines (L : List (List Char)) : List Char :=
  match firstNonBlank L with
  | some l =>
    if (s2 "# Sheet:").isPrefixOf (stripPy l) then stripPy ((stripPy l).drop 8)
    else s2 "Sheet 1"
  | none => s2 "Sheet 1"

/-- The expected sheet title of a whole block (spec-side definition). -/
def expectedSheetTitle (block : List Char) : List Char :=
  expectedTitleOfLines (splitNl block)

/-- The root-metadata blockquote payloads (the text after `> `) of a
topic, in the order `_format_meta_block` emits them. -/
def metaPayloads (t : Topic) : List (List Char) :=
  (if t.labels ≠ [] then
    [s2 "Labels: " ++ List.intercalate (s2 ", ") t.labels] else []) ++
  (if t.link ≠ [] then [s2 "Link: " ++ t.link] else []) ++
  (if t.markers ≠ [] then
    [s2 "Markers: " ++ List.intercalate (s2 ", ") t.markers] else []) ++
  (if t.notes ≠ [] then splitlinesPy t.notes else [])

/-- The individual lines contributed by one sheet to the outline text
(the sheet's parts, cut at the newlines they contain). -/
def sheetLines (sh : Sheet) : List (List Char) :=
  match sh.root_topic with
  | none => [s2 "# Sheet: " ++ sh.title, []]
  | some rt =>
    [s2 "# Sheet: " ++ sh.title, [], [], s2 "## " ++ rt.title, []] ++
    format_meta_block_lines rt ++ [[]] ++ topics_to_md_lines 0 rt.children

/-- All lines of the outline text of a document: the sheets' lines with
the separator lines between consecutive sheets. -/
def docLines : List Sheet → List (List Char)
  | [] => []
  | [sh] => sheetLines sh
  | sh :: sh2 :: rest =>
    sheetLines sh ++ [[], s2 "---", []] ++ docLines (sh2 :: rest)

-- ============================================================
-- Toolkit: string lemmas
-- ============================================================

theorem drop_takeWhile_length (p : Char → Bool) :
    ∀ l : List Char, l.drop (l.takeWhile p).length = l.dropWhile p := by
  intro l
  induction l with
  | nil => simp
  | cons c cs ih =>
    simp only [List.takeWhile_cons, List.dropWhile_cons]
    by_cases h : p c
    · simp [h, ih]
    · simp [h]

theorem lstripPy_cons_of_ws {c : Char} (h : isWs c) (r : List Char) :
    lstripPy (c :: r) = lstripPy r := by
  simp [lstripPy, List.dropWhile_cons, h]

theorem lstripPy_cons_of_not_ws {c : Char} (h : ¬ isWs c) (r : List Char) :
    lstripPy (c :: r) = c :: r := by
  simp [lstripPy, List.dropWhile_cons, h]

theorem lstripPy_ws_append {w : List Char} (h : ∀ c ∈ w, isWs c)
    (r : List Char) : lstripPy (w ++ r) = lstripPy r := by
  induction w with
  | nil => simp
  | cons c cs ih =>
    have hc : isWs c := h c (by simp)
    simp only [List.cons_append]
    rw [lstripPy_cons_of_ws hc, ih (fun x hx => h x (by simp [hx]))]

theorem rstripPy_append_ws {w : List Char} (h : ∀ c ∈ w, isWs c)
    (r : List Char) : rstripPy (r ++ w) = rstripPy r := by
  unfold rstripPy
  rw [List.reverse_append]
  have : ∀ c ∈ w.reverse, isWs c := fun c hc => h c (List.mem_reverse.mp hc)
  have hvw : w.reverse.dropWhile isWs = [] := by
    rw [List.dropWhile_eq_nil_iff]
    intro x hx
    exact this x hx
  calc (List.dropWhile isWs (w.reverse ++ r.reverse)).reverse
      = (List.dropWhile isWs r.reverse).reverse := by
        rw [List.dropWhile_append, hvw]
        simp

theorem rstripPy_append_not_ws {c : Char} (h : ¬ isWs c) (r : List Char) :
    rstripPy (r ++ [c]) = r ++ [c] := by
  unfold rstripPy
  rw [List.reverse_append]
  simp [List.dropWhile_cons, h]

theorem stripPy_ws_append {w : List Char} (h : ∀ c ∈ w, isWs c)
    (r : List Char) : stripPy (w ++ r) = stripPy r := by
  unfold stripPy
  rw [lstripPy_ws_append h]

theorem stripPy_append_ws {w : List Char} (h : ∀ c ∈ w, isWs c)
    (r : List Char) : stripPy (r ++ w) = stripPy r := by
  unfold stripPy
  have : ∀ s : List Char, lstripPy (r ++ w) = lstripPy r ++ w ∨
      (lstripPy (r ++ w) = lstripPy w ∧ lstripPy r = []) := by
    intro _
    unfold lstripPy
    rw [List.dropWhile_append]
    by_cases he : (List.dropWhile isWs r).isEmpty
    · right
      constructor
      · rw [if_pos he]
      · simpa [List.isEmpty_iff] using he
    · left
      rw [if_neg he]
  rcases this [] with h1 | ⟨h1, h2⟩
  · rw [h1, rstripPy_append_ws h]
  · rw [h1, h2]
    unfold rstripPy
    have hw : List.dropWhile isWs (lstripPy w).reverse = [] := by
      rw [List.dropWhile_eq_nil_iff]
      intro x hx
      have hx2 : x ∈ lstripPy w := List.mem_reverse.mp hx
      have : x ∈ w := by
        have := List.dropWhile_sublist (l := w) (p := isWs)
        exact this.subset hx2
      exact h x this
    rw [hw]
    simp

theorem stripPy_nonws_head_last {c d : Char} (hc : ¬ isWs c) (hd : ¬ isWs d)
    (m : List Char) : stripPy (c :: (m ++ [d])) = c :: (m ++ [d]) := by
  unfold stripPy
  rw [lstripPy_cons_of_not_ws hc]
  have : (c :: (m ++ [d])) = (c :: m) ++ [d] := by simp
  rw [this, rstripPy_append_not_ws hd]

theorem stripPy_single_nonws {c : Char} (hc : ¬ isWs c) :
    stripPy [c] = [c] := by
  simp [stripPy, lstripPy, rstripPy, List.dropWhile_cons, hc]

-- ============================================================
-- Claim C5: format detection
-- ============================================================

/-- C5: the format detector looks only at the entry names: content.json
present (anywhere) means "zen"; otherwise content.xml present means
"legacy"; otherwise it raises the unrecognized-format error carrying the
full entry-name list.  Archives with identical entry names are classified
identically, whatever their contents. -/
theorem c5_detect_format :
    (∀ z : ZipFile,
      detect_format z =
        (if s2 "content.json" ∈ namelist z then .ok .zen
         else if s2 "content.xml" ∈ namelist z then .ok .legacy
         else .error (.fmtUnrecognized (namelist z)))) ∧
    (∀ z z2 : ZipFile, namelist z = namelist z2 →
      detect_format z = detect_format z2) := by
  constructor
  · intro z
    rfl
  · intro z z2 h
    unfold detect_format
    rw [h]

/-- Witness for C5 at concrete archives: two archives with entry name
content.json but different contents are both classified "zen". -/
theorem c5_detect_format_witness :
    detect_format [(s2 "content.json", .raw [])] =
      detect_format [(s2 "content.json", .json .jnull)] ∧
    detect_format [(s2 "content.json", .raw [])] = .ok .zen ∧
    detect_format [(s2 "content.xml", .raw [])] = .ok .legacy ∧
    detect_format [(s2 "other.bin", .raw [])] =
      .error (.fmtUnrecognized [s2 "other.bin"]) := by
  refine ⟨c5_detect_format.2 _ _ (by rfl), by rfl, by rfl, by rfl⟩

-- ============================================================
-- Claim C3: update does not write on failure
-- ============================================================

/-- C3: the update operation never touches the target unless format
detection succeeded (markdown parsing is total in the source, so detection
is the only failure point before the write): when detection raises, the
call returns that error and the target content is exactly the original;
when the result carries any error the target is unchanged; and a
successful update implies detection succeeded. -/
theorem c3_update_no_write_on_failure :
    ∀ (z : ZipFile) (md ts : List Char),
      (∀ e, detect_format z = .error e → update_xmind z md ts = (z, some e)) ∧
      ((update_xmind z md ts).2 ≠ none → (update_xmind z md ts).1 = z) ∧
      ((update_xmind z md ts).2 = none → ∃ fmt, detect_format z = .ok fmt) := by
  intro z md ts
  refine ⟨?_, ?_, ?_⟩
  · intro e he
    unfold update_xmind
    rw [he]
  · intro hne
    unfold update_xmind at hne ⊢
    match hd : detect_format z with
    | .error e => rfl
    | .ok fmt => rw [hd] at hne; simp at hne
  · intro hnone
    unfold update_xmind at hnone
    match hd : detect_format z with
    | .error e => rw [hd] at hnone; simp at hnone
    | .ok fmt => exact ⟨fmt, rfl⟩

/-- Witness for C3: an archive with neither marker entry makes update fail
and leave the file unchanged. -/
theorem c3_update_no_write_on_failure_witness :
    update_xmind [(s2 "other.bin", .raw [])] (s2 "# Sheet: S") [] =
      ([(s2 "other.bin", .raw [])],
       some (.fmtUnrecognized [s2 "other.bin"])) := by
  exact (c3_update_no_write_on_failure _ _ _).1 _ (by rfl)

-- ============================================================
-- Claim C9: update preserves the variant
-- ============================================================

theorem detect_create_zen (sheets : List Sheet) :
    detect_format (create_zen sheets) = .ok .zen := by
  have h1 : namelist (create_zen sheets) =
      [s2 "content.json", s2 "metadata.json"] := rfl
  unfold detect_format
  rw [h1, if_pos (by simp)]

theorem detect_create_legacy (ts : List Char) (sheets : List Sheet) :
    detect_format (create_legacy ts sheets) = .ok .legacy := by
  have h1 : namelist (create_legacy ts sheets) =
      [s2 "content.xml", s2 "META-INF/manifest.xml"] := rfl
  unfold detect_format
  rw [h1, if_neg (by decide), if_pos (by simp)]

/-- C9: update re-encodes with the codec of the originally detected
variant, so the updated package is detected as the same variant as before
the update — the variant is never switched. -/
theorem c9_update_preserves_variant :
    ∀ (z : ZipFile) (md ts : List Char) (fmt : Fmt),
      detect_format z = .ok fmt →
      (update_xmind z md ts).2 = none ∧
      detect_format (update_xmind z md ts).1 = .ok fmt := by
  intro z md ts fmt hd
  unfold update_xmind
  rw [hd]
  match fmt with
  | .zen => exact ⟨rfl, detect_create_zen _⟩
  | .legacy => exact ⟨rfl, detect_create_legacy _ _⟩

/-- Witness for C9: updating a legacy package with fresh outline text
yields a package still detected as legacy. -/
theorem c9_update_preserves_variant_witness :
    (update_xmind [(s2 "content.xml", .raw [])] (s2 "# Sheet: S") []).2 = none ∧
    detect_format
      (update_xmind [(s2 "content.xml", .raw [])] (s2 "# Sheet: S") []).1 =
      .ok .legacy :=
  c9_update_preserves_variant _ _ _ _ (by rfl)

-- ============================================================
-- Toolkit: bullet / quote line shape lemmas
-- ============================================================

theorem takeWhile_ws_append {p : Char → Bool} {w : List Char} {d : Char}
    (hw : ∀ c ∈ w, p c) (hc : ¬ p d) (t : List Char) :
    (w ++ d :: t).takeWhile p = w := by
  induction w with
  | nil => simp [List.takeWhile_cons, hc]
  | cons c cs ih =>
    have h1 : p c := hw c (by simp)
    simp only [List.cons_append, List.takeWhile_cons, h1, if_true]
    rw [ih (fun x hx => hw x (by simp [hx]))]

theorem rstripPy_eq_nil_iff {s : List Char} :
    rstripPy s = [] ↔ ∀ c ∈ s, isWs c := by
  unfold rstripPy
  rw [List.reverse_eq_nil_iff, List.dropWhile_eq_nil_iff]
  constructor
  · intro h c hc
    exact h c (List.mem_reverse.mpr hc)
  · intro h c hc
    exact h c (List.mem_reverse.mp hc)

theorem matchQuote_encode {w : List Char} (hw : ∀ c ∈ w, isWs c)
    (t : List Char) : matchQuote (w ++ '>' :: ' ' :: t) = some (w.length, t) := by
  have h1 := takeWhile_ws_append (p := isWs) hw (d := '>') (by decide) (' ' :: t)
  simp [matchQuote, h1, List.drop_left, s2, List.isPrefixOf]

theorem matchBullet_encode {w : List Char} (hw : ∀ c ∈ w, isWs c)
    {t : List Char} (ht : t ≠ []) :
    matchBullet (w ++ '-' :: ' ' :: t) = some (w.length, t) := by
  have h1 := takeWhile_ws_append (p := isWs) hw (d := '-') (by decide) (' ' :: t)
  simp [matchBullet, h1, List.drop_left, s2, List.isPrefixOf, ht]

theorem matchBulletStart_encode {w : List Char} (hw : ∀ c ∈ w, isWs c)
    (t : List Char) :
    matchBulletStart (w ++ '-' :: ' ' :: t) = some w.length := by
  have h1 := takeWhile_ws_append (p := isWs) hw (d := '-') (by decide) (' ' :: t)
  simp [matchBulletStart, h1, List.drop_left, s2, List.isPrefixOf]

theorem matchQuote_inv {nxt : List Char} {bi : Nat} {content : List Char}
    (h : matchQuote nxt = some (bi, content)) :
    nxt = nxt.takeWhile isWs ++ '>' :: ' ' :: content ∧
    bi = (nxt.takeWhile isWs).length ∧ (∀ c ∈ nxt.takeWhile isWs, isWs c) := by
  unfold matchQuote at h
  by_cases hp : (s2 "> ").isPrefixOf (nxt.drop (nxt.takeWhile isWs).length)
  · rw [if_pos hp] at h
    simp only [Option.some.injEq, Prod.mk.injEq] at h
    obtain ⟨hbi, hcon⟩ := h
    have hdw := drop_takeWhile_length isWs nxt
    have hpre : nxt.drop (nxt.takeWhile isWs).length =
        '>' :: ' ' :: (nxt.drop (nxt.takeWhile isWs).length).drop 2 := by
      obtain ⟨u, hu⟩ := List.isPrefixOf_iff_prefix.mp hp
      rw [← hu]
      rfl
    refine ⟨?_, hbi.symm, fun c hc => List.mem_takeWhile_imp hc⟩
    calc nxt = nxt.takeWhile isWs ++ nxt.dropWhile isWs :=
          (List.takeWhile_append_dropWhile isWs nxt).symm
      _ = nxt.takeWhile isWs ++ '>' :: ' ' :: content := by
          rw [← hdw, hpre, ← hcon]
  · rw [if_neg hp] at h
    simp at h

theorem matchQuote_not_blank {nxt : List Char} {bi : Nat} {content : List Char}
    (h : matchQuote nxt = some (bi, content)) :
    (stripPy nxt).isEmpty = false := by
  obtain ⟨hshape, _, hws⟩ := matchQuote_inv h
  rw [hshape]
  unfold stripPy
  rw [lstripPy_ws_append hws, lstripPy_cons_of_not_ws (by decide)]
  have hne : rstripPy ('>' :: ' ' :: content) ≠ [] := by
    intro hnil
    have h2 := rstripPy_eq_nil_iff.mp hnil '>' (by simp)
    simp [isWs] at h2
  rw [Bool.eq_false_iff]
  intro htrue
  exact hne (List.isEmpty_iff.mp htrue)

theorem matchQuote_no_bullet {nxt : List Char} {bi : Nat} {content : List Char}
    (h : matchQuote nxt = some (bi, content)) :
    matchBulletStart nxt = none := by
  obtain ⟨hshape, _, hws⟩ := matchQuote_inv h
  have h1 := takeWhile_ws_append (p := isWs) hws (d := '>') (by decide)
    (' ' :: content)
  conv_lhs => rw [hshape]
  simp [matchBulletStart, h1, List.drop_left, s2, List.isPrefixOf]

-- ============================================================
-- Claim C6: attribution of quoted lines in the item loop
-- ============================================================

/-- C6: in the item loop, a following line matching "optional spaces, a
quote mark, a space, rest" is attached as a note line of the current item
exactly when no child content has been collected yet and its indent is the
item's indent plus two; otherwise it becomes nested content when its
indent exceeds the item's, and terminates the item when it does not. -/
theorem c6_note_attachment :
    ∀ (cur : Nat) (childAcc noteAcc : List (List Char)) (nxt : List Char)
      (rest : List (List Char)) (bi : Nat) (content : List Char),
      matchQuote nxt = some (bi, content) →
      consumeItem cur childAcc noteAcc (nxt :: rest) =
        (if childAcc = [] ∧ bi = cur + 2 then
          consumeItem cur childAcc (noteAcc ++ [content]) rest
        else if cur < bi then
          consumeItem cur (childAcc ++ [nxt]) noteAcc rest
        else (childAcc, noteAcc, nxt :: rest)) := by
  intro cur childAcc noteAcc nxt rest bi content hq
  have hstrip := matchQuote_not_blank hq
  have hb := matchQuote_no_bullet hq
  rw [consumeItem, if_neg (by simp [hstrip])]
  simp only [hb, hq]

/-- Witness for C6 at a concrete quoted line: with no child content yet
and indent exactly cur+2 the line becomes a note; the same line with an
indent mismatch becomes nested content. -/
theorem c6_note_attachment_witness :
    matchQuote (s2 "  > hi") = some (2, s2 "hi") ∧
    consumeItem 0 [] [] [s2 "  > hi"] =
      (if ([] : List (List Char)) = [] ∧ 2 = 0 + 2 then
        consumeItem 0 [] ([] ++ [s2 "hi"]) []
      else if 0 < 2 then consumeItem 0 ([] ++ [s2 "  > hi"]) [] []
      else ([], [], [s2 "  > hi"])) :=
  ⟨by rfl, c6_note_attachment 0 [] [] (s2 "  > hi") [] 2 (s2 "hi") (by rfl)⟩

-- ============================================================
-- Claim C7: zen notes decoding
-- ============================================================

theorem mapM_insPiece (xs : List (List Char)) :
    (xs.map (fun s => JVal.jobj [(s2 "insert", .jstr s)])).mapM insPiece =
      .ok xs := by
  induction xs with
  | nil => rfl
  | cons x rest ih =>
    simp only [List.map_cons, List.mapM_cons, ih]
    rfl

/-- C7 counterexample: a notes value of shape `{plain: "hello"}` — not
covered by the plain-object or ops shapes — makes the decoder raise
AttributeError (`notes_data['plain'].get` on a string) instead of
yielding empty notes, contradicting the claim's "every other notes shape
yields empty notes without raising an error". -/
theorem c7_counterexample :
    zenNotes (some (.jobj [(s2 "plain", .jstr (s2 "hello"))])) =
      .error .attrError ∧
    zenNotes (some (.jobj [(s2 "plain", .jstr (s2 "hello"))])) ≠
      .ok [] := by
  constructor
  · rfl
  · decide

/-- C7 as amended: rich-text op lists (bare or wrapped) decode to the
trimmed concatenation of the ops' insert strings; a plain shape whose
`plain` value is an object decodes to its `content` string (default
empty); a non-object notes value, an absent notes field, and an object
with neither `plain` nor `ops` all yield empty notes; but a `plain` key
whose value is not an object raises AttributeError. -/
theorem c7_zen_notes :
    (∀ xs : List (List Char),
      zenNotes (some (.jobj [(s2 "ops",
          .jarr (xs.map (fun s => .jobj [(s2 "insert", .jstr s)])))])) =
        .ok (stripPy xs.flatten) ∧
      zenNotes (some (.jobj [(s2 "ops", .jobj [(s2 "ops",
          .jarr (xs.map (fun s => .jobj [(s2 "insert", .jstr s)])))])])) =
        .ok (stripPy xs.flatten)) ∧
    (∀ (fs pfs : List (List Char × JVal)) (s : List Char),
      jget fs (s2 "plain") = some (.jobj pfs) →
      jget pfs (s2 "content") = some (.jstr s) →
      zenNotes (some (.jobj fs)) = .ok s) ∧
    (∀ v : JVal, (∀ fs, v ≠ .jobj fs) → zenNotes (some v) = .ok []) ∧
    (∀ fs : List (List Char × JVal),
      jget fs (s2 "plain") = none → jget fs (s2 "ops") = none →
      zenNotes (some (.jobj fs)) = .ok []) ∧
    zenNotes none = .ok [] ∧
    (∀ (fs : List (List Char × JVal)) (pv : JVal),
      jget fs (s2 "plain") = some pv → (∀ pfs, pv ≠ .jobj pfs) →
      zenNotes (some (.jobj fs)) = .error .attrError) := by
  refine ⟨?_, ?_, ?_, ?_, rfl, ?_⟩
  · intro xs
    constructor
    · have h1 : jget [(s2 "ops",
          JVal.jarr (xs.map (fun s => .jobj [(s2 "insert", .jstr s)])))]
          (s2 "plain") = none := rfl
      have h2 : jget [(s2 "ops",
          JVal.jarr (xs.map (fun s => .jobj [(s2 "insert", .jstr s)])))]
          (s2 "ops") =
          some (.jarr (xs.map (fun s => .jobj [(s2 "insert", .jstr s)]))) := rfl
      simp only [zenNotes, h1, h2, pyIter, mapM_insPiece]
    · have h1 : jget [(s2 "ops", JVal.jobj [(s2 "ops",
          .jarr (xs.map (fun s => JVal.jobj [(s2 "insert", .jstr s)])))])]
          (s2 "plain") = none := rfl
      have h2 : jget [(s2 "ops", JVal.jobj [(s2 "ops",
          .jarr (xs.map (fun s => JVal.jobj [(s2 "insert", .jstr s)])))])]
          (s2 "ops") = some (.jobj [(s2 "ops",
          .jarr (xs.map (fun s => JVal.jobj [(s2 "insert", .jstr s)])))]) := rfl
      have h3 : jget [(s2 "ops",
          JVal.jarr (xs.map (fun s => JVal.jobj [(s2 "insert", .jstr s)])))]
          (s2 "ops") =
          some (.jarr (xs.map (fun s => .jobj [(s2 "insert", .jstr s)]))) := rfl
      simp only [zenNotes, h1, h2, h3, Option.getD_some, pyIter, mapM_insPiece]
  · intro fs pfs s hplain hcontent
    simp only [zenNotes, hplain, hcontent]
  · intro v hv
    match v with
    | .jnull => rfl
    | .jbool b => rfl
    | .jnum n => rfl
    | .jstr s => rfl
    | .jarr xs => rfl
    | .jobj fs => exact absurd rfl (hv fs)
  · intro fs h1 h2
    simp only [zenNotes, h1, h2]
  · intro fs pv hplain hnot
    match pv with
    | .jnull => simp only [zenNotes, hplain]
    | .jbool b => simp only [zenNotes, hplain]
    | .jnum n => simp only [zenNotes, hplain]
    | .jstr s => simp only [zenNotes, hplain]
    | .jarr xs => simp only [zenNotes, hplain]
    | .jobj pfs => exact absurd rfl (hnot pfs)

/-- Witness for C7: the spec's scenario — ops
`[{"insert":"hello "},{"insert":"world"}]` decode to "hello world"; a
plain note decodes to its content; a bare string notes value yields empty
notes. -/
theorem c7_zen_notes_witness :
    zenNotes (some (.jobj [(s2 "ops",
        .jarr ([s2 "hello ", s2 "world"].map
          (fun s => .jobj [(s2 "insert", .jstr s)])))])) =
      .ok (s2 "hello world") ∧
    zenNotes (some (.jobj [(s2 "plain",
        .jobj [(s2 "content", .jstr (s2 "note text"))])])) =
      .ok (s2 "note text") ∧
    zenNotes (some (.jstr (s2 "odd"))) = .ok [] := by
  refine ⟨?_, ?_, ?_⟩
  · have h := (c7_zen_notes.1 [s2 "hello ", s2 "world"]).1
    rw [h]
    rfl
  · exact c7_zen_notes.2.1 _ [(s2 "content", .jstr (s2 "note text"))]
      (s2 "note text") rfl rfl
  · exact c7_zen_notes.2.2.1 _ (by intro fs h; exact JVal.noConfusion h)

-- ============================================================
-- Claim C4: the zero-sheets boundary
-- ============================================================

theorem markdown_to_sheets_nil : markdown_to_sheets [] = [] := by
  have h2 : reSplitSep [] = [[]] := by
    rw [reSplitSep]
    rfl
  unfold markdown_to_sheets
  rw [h2]
  rfl

/-- C4 counterexample: updating an existing zen package with outline text
that parses to zero sheets does NOT fail at the update boundary — the
package is overwritten with an empty-sheet package and the exit code is 0,
contradicting the claimed NoSheetsParsed usage error (non-zero result, no
package written) at the update boundary. -/
theorem c4_counterexample :
    markdown_to_sheets [] = [] ∧
    cmd_update (create_zen [Sheet.mk (s2 "sid") (s2 "S") none]) [] [] =
      (create_zen [], 0) ∧
    create_zen [] ≠ create_zen [Sheet.mk (s2 "sid") (s2 "S") none] := by
  refine ⟨markdown_to_sheets_nil, ?_, ?_⟩
  · unfold cmd_update update_xmind
    rw [detect_create_zen]
    rw [markdown_to_sheets_nil]
    rfl
  · intro h
    simp [create_zen, create_zen_content] at h

/-- C4 as amended: on outline text yielding zero sheets, the create
boundary fails with the usage error (exit 1, nothing written) while the
outline decoder itself just returns the empty sheet list; the update
boundary, however, performs no such check — it overwrites the package
with the empty re-encoding of the detected variant and exits 0. -/
theorem c4_no_sheets_boundary :
    ∀ (fmtArg md ts : List Char) (z : ZipFile) (fmt : Fmt),
      markdown_to_sheets md = [] →
      detect_format z = .ok fmt →
      cmd_create fmtArg md ts = (none, 1) ∧
      cmd_update z md ts =
        ((if fmt = .zen then create_zen [] else create_legacy ts []), 0) := by
  intro fmtArg md ts z fmt hmd hdet
  constructor
  · unfold cmd_create
    rw [hmd]
    rfl
  · unfold cmd_update update_xmind
    rw [hdet, hmd]

/-- Witness for C4 at concrete inputs: empty outline text against a
legacy package. -/
theorem c4_no_sheets_boundary_witness :
    cmd_create (s2 "zen") [] [] = (none, 1) ∧
    cmd_update (create_legacy [] []) [] [] = (create_legacy [] [], 0) := by
  have h := c4_no_sheets_boundary (s2 "zen") [] [] (create_legacy [] [])
    .legacy markdown_to_sheets_nil (detect_create_legacy [] [])
  exact ⟨h.1, h.2⟩

-- ============================================================
-- Claim C10: the sheet title of a block
-- ============================================================

theorem psbLoop_title_frozen :
    ∀ (L : List (List Char)) (st : BState), st.phase ≠ .init →
      (psbLoop st L).sheetTitle = st.sheetTitle := by
  intro L
  induction L with
  | nil => intro st h; rfl
  | cons l rest ih =>
    intro st h
    rw [psbLoop]
    by_cases h1 : (stripPy l).isEmpty
    · rw [if_pos h1]
      by_cases h2 : st.phase = .body
      · rw [if_pos h2, ih _ (by simp [h2])]
      · rw [if_neg h2, ih _ h]
    · rw [if_neg h1, if_neg (by simp [h])]
      by_cases h3 : (st.phase = .init ∨ st.phase = .afterSheet) ∧
          (s2 "## ").isPrefixOf (stripPy l)
      · rw [if_pos h3, ih _ (by simp)]
      · rw [if_neg h3]
        by_cases h4 : st.phase = .rootMeta ∧ (s2 ">").isPrefixOf (stripPy l)
        · rw [if_pos h4, ih _ (by simp [h4.1])]
        · rw [if_neg h4, ih _ (by simp)]

theorem psbLoop_title_init :
    ∀ (L : List (List Char)) (st : BState), st.phase = .init →
      st.sheetTitle = s2 "Sheet 1" →
      (psbLoop st L).sheetTitle = expectedTitleOfLines L := by
  intro L
  induction L with
  | nil =>
    intro st h1 h2
    simpa [psbLoop, expectedTitleOfLines, firstNonBlank] using h2
  | cons l rest ih =>
    intro st h1 h2
    rw [psbLoop]
    by_cases hb : (stripPy l).isEmpty
    · rw [if_pos hb, if_neg (by simp [h1])]
      have hfb : expectedTitleOfLines (l :: rest) = expectedTitleOfLines rest := by
        unfold expectedTitleOfLines firstNonBlank
        rw [List.find?_cons_of_neg _ (by simp [hb])]
      rw [hfb]
      exact ih st h1 h2
    · have hfb : expectedTitleOfLines (l :: rest) =
          (if (s2 "# Sheet:").isPrefixOf (stripPy l) then
            stripPy ((stripPy l).drop 8)
          else s2 "Sheet 1") := by
        unfold expectedTitleOfLines firstNonBlank
        rw [List.find?_cons_of_pos _ (by simp [hb])]
      rw [if_neg hb, hfb]
      by_cases hs : (s2 "# Sheet:").isPrefixOf (stripPy l)
      · rw [if_pos (by exact ⟨h1, hs⟩)]
        rw [psbLoop_title_frozen _ _ (by simp)]
        simp [hs]
      · rw [if_neg (by simp [hs]), if_neg hs]
        by_cases h3 : (st.phase = .init ∨ st.phase = .afterSheet) ∧
            (s2 "## ").isPrefixOf (stripPy l)
        · rw [if_pos h3, psbLoop_title_frozen _ _ (by simp)]
          exact h2
        · rw [if_neg h3]
          rw [if_neg (by simp [h1])]
          rw [psbLoop_title_frozen _ _ (by simp)]
          exact h2

/-- C10: a parsed sheet's title is determined by the block's first
non-blank line alone — it is the default "Sheet 1" unless that line,
stripped, starts with `# Sheet:`, in which case it is that line's stripped
payload; and once the loop has left its initial phase, a later
`# Sheet:`-looking line is routed into the body like any other content
line (so it cannot set the title). -/
theorem c10_sheet_title_default :
    (∀ (block : List Char) (sh : Sheet),
      parse_sheet_block block = some sh →
      sh.title = expectedSheetTitle block) ∧
    (∀ (st : BState) (l : List Char) (rest : List (List Char)),
      st.phase ≠ .init → (s2 "# Sheet:").isPrefixOf (stripPy l) →
      psbLoop st (l :: rest) =
        psbLoop { st with phase := .body, body := st.body ++ [l] } rest) := by
  constructor
  · intro block sh h
    unfold parse_sheet_block at h
    by_cases hc : (psbLoop (BState.mk .init (s2 "Sheet 1") [] [] [])
        (splitNl block)).rootTitle.isEmpty ∧
        (psbLoop (BState.mk .init (s2 "Sheet 1") [] [] [])
        (splitNl block)).body.isEmpty
    · rw [if_pos hc] at h
      exact absurd h (by simp)
    · rw [if_neg hc] at h
      simp only [Option.some.injEq] at h
      rw [← h]
      have htitle := psbLoop_title_init (splitNl block)
        (BState.mk .init (s2 "Sheet 1") [] [] []) rfl rfl
      exact htitle
  · intro st l rest hph hpre
    obtain ⟨u, hu⟩ := List.isPrefixOf_iff_prefix.mp hpre
    rw [psbLoop]
    rw [if_neg (by rw [← hu]; simp [s2])]
    rw [if_neg (by simp [hph])]
    rw [if_neg (by
      intro hcontra
      have h2 := hcontra.2
      rw [← hu] at h2
      simp [s2, List.isPrefixOf] at h2)]
    rw [if_neg (by
      intro hcontra
      have h2 := hcontra.2
      rw [← hu] at h2
      simp [s2, List.isPrefixOf] at h2)]

/-- Witness for C10 at concrete blocks: a block without a sheet heading
gets the default title; a block whose heading appears after the root
heading keeps the default and the heading line joins the body. -/
theorem c10_sheet_title_default_witness :
    (∃ sh, parse_sheet_block (s2 "## Root") = some sh ∧
      sh.title = expectedSheetTitle (s2 "## Root") ∧
      sh.title = s2 "Sheet 1") ∧
    psbLoop (BState.mk .body (s2 "Sheet 1") (s2 "Root") [] [])
        [s2 "# Sheet: late"] =
      psbLoop (BState.mk .body (s2 "Sheet 1") (s2 "Root") []
        ([] ++ [s2 "# Sheet: late"])) [] := by
  constructor
  · refine ⟨_, rfl, ?_, ?_⟩
    · exact (c10_sheet_title_default.1 (s2 "## Root") _ rfl)
    · rfl
  · exact c10_sheet_title_default.2
      (BState.mk .body (s2 "Sheet 1") (s2 "Root") [] [])
      (s2 "# Sheet: late") [] (by simp) (by rfl)

-- ============================================================
-- Toolkit: lookup lemmas for JSON objects and XML elements
-- ============================================================

theorem jget_append (a b : List (List Char × JVal)) (k : List Char) :
    jget (a ++ b) k = (jget a k).or (jget b k) := by
  unfold jget
  rw [List.find?_append]
  cases List.find? (fun kv => decide (kv.1 = k)) a <;> rfl

theorem jget_keys_ne {l : List (List Char × JVal)} {k : List Char}
    (h : ∀ kv ∈ l, kv.1 ≠ k) : jget l k = none := by
  unfold jget
  rw [List.find?_eq_none.mpr (fun kv hkv => by simp [h kv hkv])]
  rfl

theorem xfind_append (a b : List XElem) (tag : List Char) :
    xfind tag (a ++ b) = (xfind tag a).or (xfind tag b) := by
  unfold xfind
  rw [List.find?_append]

theorem xfind_tags_ne {l : List XElem} {tag : List Char}
    (h : ∀ e ∈ l, e.tag ≠ tag) : xfind tag l = none := by
  unfold xfind
  exact List.find?_eq_none.mpr (fun e he => by simp [h e he])

-- ============================================================
-- Claim C2: package round trips
-- ============================================================

theorem zen_labels_map (la : List (List Char)) :
    (la.map JVal.jstr).mapM (fun x => match x with
      | .jstr s => Except.ok s
      | _ => Except.error PyErr.typeConfusion) = Except.ok la := by
  induction la with
  | nil => rfl
  | cons x rest ih =>
    simp only [List.map_cons, List.mapM_cons, ih]
    rfl

theorem zen_markers_map {ma : List (List Char)}
    (h : ∀ m ∈ ma, ¬ m.isEmpty) :
    (ma.map (fun m => JVal.jobj [(s2 "markerId", .jstr m)])).mapM
      (fun x => match x with
        | .jobj mfs =>
          match jget mfs (s2 "markerId") with
          | none => Except.ok none
          | some (.jstr s) => Except.ok (if s = [] then none else some s)
          | some w =>
            if pyTruthy w then Except.error PyErr.typeConfusion
            else Except.ok none
        | _ => Except.ok none) = Except.ok (ma.map some) := by
  induction ma with
  | nil => rfl
  | cons m rest ih =>
    have hm : ¬ m.isEmpty := h m (by simp)
    have hne : m ≠ [] := by simpa [List.isEmpty_iff] using hm
    simp only [List.map_cons, List.mapM_cons,
      ih (fun x hx => h x (by simp [hx]))]
    have hj : jget [(s2 "markerId", JVal.jstr m)] (s2 "markerId") =
        some (.jstr m) := rfl
    simp [hj, hne]
    rfl

theorem mem_if_singleton {α : Type} {c : Prop} [Decidable c] {x kv : α}
    (h : kv ∈ (if c then [x] else [])) : kv = x := by
  by_cases hc : c
  · rw [if_pos hc] at h
    simpa using h
  · rw [if_neg hc] at h
    simp at h

theorem jget_cons_eq (k : List Char) (v : JVal) (rest : List (List Char × JVal)) :
    jget ((k, v) :: rest) k = some v := by
  unfold jget
  rw [List.find?_cons_of_pos _ (by simp)]
  rfl

theorem jget_cons_ne {k2 k : List Char} (h : k2 ≠ k) (v : JVal)
    (rest : List (List Char × JVal)) : jget ((k2, v) :: rest) k = jget rest k := by
  unfold jget
  rw [List.find?_cons_of_neg _ (by simp [h])]

theorem jget_seg_none {seg : List (List Char × JVal)} {key k2 : List Char}
    (hseg : ∀ kv ∈ seg, kv.1 = key) (hkk : key ≠ k2) : jget seg k2 = none :=
  jget_keys_ne (fun kv hkv => by rw [hseg kv hkv]; exact hkk)

theorem jget_zen_shape (i ti : List Char) (sN sL sH sM sC : List (List Char × JVal))
    (hN : ∀ kv ∈ sN, kv.1 = s2 "notes")
    (hL : ∀ kv ∈ sL, kv.1 = s2 "labels")
    (hH : ∀ kv ∈ sH, kv.1 = s2 "href")
    (hM : ∀ kv ∈ sM, kv.1 = s2 "markers")
    (hC : ∀ kv ∈ sC, kv.1 = s2 "children") :
    jget ([(s2 "id", JVal.jstr i), (s2 "class", .jstr (s2 "topic")),
        (s2 "title", .jstr ti)] ++ sN ++ sL ++ sH ++ sM ++ sC) (s2 "id") =
      some (.jstr i) ∧
    jget ([(s2 "id", JVal.jstr i), (s2 "class", .jstr (s2 "topic")),
        (s2 "title", .jstr ti)] ++ sN ++ sL ++ sH ++ sM ++ sC) (s2 "title") =
      some (.jstr ti) ∧
    jget ([(s2 "id", JVal.jstr i), (s2 "class", .jstr (s2 "topic")),
        (s2 "title", .jstr ti)] ++ sN ++ sL ++ sH ++ sM ++ sC) (s2 "notes") =
      jget sN (s2 "notes") ∧
    jget ([(s2 "id", JVal.jstr i), (s2 "class", .jstr (s2 "topic")),
        (s2 "title", .jstr ti)] ++ sN ++ sL ++ sH ++ sM ++ sC) (s2 "labels") =
      jget sL (s2 "labels") ∧
    jget ([(s2 "id", JVal.jstr i), (s2 "class", .jstr (s2 "topic")),
        (s2 "title", .jstr ti)] ++ sN ++ sL ++ sH ++ sM ++ sC) (s2 "href") =
      jget sH (s2 "href") ∧
    jget ([(s2 "id", JVal.jstr i), (s2 "class", .jstr (s2 "topic")),
        (s2 "title", .jstr ti)] ++ sN ++ sL ++ sH ++ sM ++ sC) (s2 "markers") =
      jget sM (s2 "markers") ∧
    jget ([(s2 "id", JVal.jstr i), (s2 "class", .jstr (s2 "topic")),
        (s2 "title", .jstr ti)] ++ sN ++ sL ++ sH ++ sM ++ sC) (s2 "children") =
      jget sC (s2 "children") := by
  refine ⟨?_, ?_, ?_, ?_, ?_, ?_, ?_⟩ <;>
    simp only [List.cons_append, List.nil_append]
  · rw [jget_cons_eq]
  · rw [jget_cons_ne (by decide), jget_cons_ne (by decide), jget_cons_eq]
  · rw [jget_cons_ne (by decide), jget_cons_ne (by decide),
      jget_cons_ne (by decide), jget_append, jget_append, jget_append,
      jget_append]
    rw [jget_seg_none hL (by decide), jget_seg_none hH (by decide),
      jget_seg_none hM (by decide), jget_seg_none hC (by decide)]
    cases jget sN (s2 "notes") <;> rfl
  · rw [jget_cons_ne (by decide), jget_cons_ne (by decide),
      jget_cons_ne (by decide), jget_append, jget_append, jget_append,
      jget_append]
    rw [jget_seg_none hN (by decide), jget_seg_none hH (by decide),
      jget_seg_none hM (by decide), jget_seg_none hC (by decide)]
    cases jget sL (s2 "labels") <;> rfl
  · rw [jget_cons_ne (by decide), jget_cons_ne (by decide),
      jget_cons_ne (by decide), jget_append, jget_append, jget_append,
      jget_append]
    rw [jget_seg_none hN (by decide), jget_seg_none hL (by decide),
      jget_seg_none hM (by decide), jget_seg_none hC (by decide)]
    cases jget sH (s2 "href") <;> rfl
  · rw [jget_cons_ne (by decide), jget_cons_ne (by decide),
      jget_cons_ne (by decide), jget_append, jget_append, jget_append,
      jget_append]
    rw [jget_seg_none hN (by decide), jget_seg_none hL (by decide),
      jget_seg_none hH (by decide), jget_seg_none hC (by decide)]
    cases jget sM (s2 "markers") <;> rfl
  · rw [jget_cons_ne (by decide), jget_cons_ne (by decide),
      jget_cons_ne (by decide), jget_append, jget_append, jget_append,
      jget_append]
    rw [jget_seg_none hN (by decide), jget_seg_none hL (by decide),
      jget_seg_none hH (by decide), jget_seg_none hM (by decide)]
    cases jget sC (s2 "children") <;> rfl


theorem jget_if_seg {c : Prop} [Decidable c] (k : List Char) (v : JVal) :
    jget (if c then [(k, v)] else []) k = if c then some v else none := by
  by_cases hc : c
  · rw [if_pos hc, if_pos hc, jget_cons_eq]
  · rw [if_neg hc, if_neg hc]
    rfl

theorem jget_zf (tid title notes link : List Char)
    (labels markers : List (List Char)) (children : List Topic)
    (childDicts : List JVal) :
    jget (zen_fields tid title notes link labels markers children childDicts)
      (s2 "id") = some (.jstr tid) ∧
    jget (zen_fields tid title notes link labels markers children childDicts)
      (s2 "title") = some (.jstr title) ∧
    jget (zen_fields tid title notes link labels markers children childDicts)
      (s2 "notes") =
      (if notes ≠ [] then
        some (.jobj [(s2 "plain", .jobj [(s2 "content", .jstr notes)])])
       else none) ∧
    jget (zen_fields tid title notes link labels markers children childDicts)
      (s2 "labels") =
      (if labels ≠ [] then some (.jarr (labels.map .jstr)) else none) ∧
    jget (zen_fields tid title notes link labels markers children childDicts)
      (s2 "href") = (if link ≠ [] then some (.jstr link) else none) ∧
    jget (zen_fields tid title notes link labels markers children childDicts)
      (s2 "markers") =
      (if markers ≠ [] then
        some (.jarr (markers.map (fun m => .jobj [(s2 "markerId", .jstr m)])))
       else none) ∧
    jget (zen_fields tid title notes link labels markers children childDicts)
      (s2 "children") =
      (if !children.isEmpty then
        some (.jobj [(s2 "attached", .jarr childDicts)])
       else none) := by
  have h := jget_zen_shape tid title
    (if notes ≠ [] then
      [(s2 "notes", .jobj [(s2 "plain", .jobj [(s2 "content", .jstr notes)])])]
     else [])
    (if labels ≠ [] then [(s2 "labels", .jarr (labels.map .jstr))] else [])
    (if link ≠ [] then [(s2 "href", .jstr link)] else [])
    (if markers ≠ [] then
      [(s2 "markers", .jarr (markers.map (fun m => .jobj [(s2 "markerId", .jstr m)])))]
     else [])
    (if !children.isEmpty then
      [(s2 "children", .jobj [(s2 "attached", .jarr childDicts)])]
     else [])
    (fun kv hkv => by rw [mem_if_singleton hkv])
    (fun kv hkv => by rw [mem_if_singleton hkv])
    (fun kv hkv => by rw [mem_if_singleton hkv])
    (fun kv hkv => by rw [mem_if_singleton hkv])
    (fun kv hkv => by rw [mem_if_singleton hkv])
  obtain ⟨h1, h2, h3, h4, h5, h6, h7⟩ := h
  unfold zen_fields
  exact ⟨h1, h2, h3.trans (jget_if_seg _ _), h4.trans (jget_if_seg _ _),
    h5.trans (jget_if_seg _ _), h6.trans (jget_if_seg _ _),
    h7.trans (jget_if_seg _ _)⟩

theorem zf_jid {tid : List Char} (hne : tid ≠ []) (title notes link : List Char)
    (labels markers : List (List Char)) (children : List Topic)
    (childDicts : List JVal) :
    jidField (zen_fields tid title notes link labels markers children childDicts)
      (s2 "id") = .ok tid := by
  unfold jidField
  rw [(jget_zf tid title notes link labels markers children childDicts).1]
  simp [hne]

theorem zf_title (tid title notes link : List Char)
    (labels markers : List (List Char)) (children : List Topic)
    (childDicts : List JVal) :
    jstrField (zen_fields tid title notes link labels markers children childDicts)
      (s2 "title") [] = .ok title := by
  unfold jstrField
  rw [(jget_zf tid title notes link labels markers children childDicts).2.1]

theorem zf_notes (tid title notes link : List Char)
    (labels markers : List (List Char)) (children : List Topic)
    (childDicts : List JVal) :
    zenNotes (jget (zen_fields tid title notes link labels markers children
      childDicts) (s2 "notes")) = .ok notes := by
  rw [(jget_zf tid title notes link labels markers children childDicts).2.2.1]
  by_cases hno : notes = []
  · rw [if_neg (by simp [hno]), hno]
    rfl
  · rw [if_pos hno]
    rfl

theorem zf_labels (tid title notes link : List Char)
    (labels markers : List (List Char)) (children : List Topic)
    (childDicts : List JVal) :
    zenLabels (zen_fields tid title notes link labels markers children
      childDicts) = .ok labels := by
  unfold zenLabels
  rw [(jget_zf tid title notes link labels markers children childDicts).2.2.2.1]
  by_cases hla : labels = []
  · rw [if_neg (by simp [hla]), hla]
  · rw [if_pos hla]
    simp only [pyIter]
    rw [zen_labels_map]

theorem zf_href (tid title notes link : List Char)
    (labels markers : List (List Char)) (children : List Topic)
    (childDicts : List JVal) :
    jstrField (zen_fields tid title notes link labels markers children
      childDicts) (s2 "href") [] = .ok link := by
  unfold jstrField
  rw [(jget_zf tid title notes link labels markers children
    childDicts).2.2.2.2.1]
  by_cases hli : link = []
  · rw [if_neg (by simp [hli]), hli]
  · rw [if_pos hli]

theorem zf_markers (tid title notes link : List Char)
    {markers : List (List Char)} (hma : ∀ m ∈ markers, m ≠ [])
    (labels : List (List Char)) (children : List Topic)
    (childDicts : List JVal) :
    zenMarkers (zen_fields tid title notes link labels markers children
      childDicts) = .ok markers := by
  unfold zenMarkers
  rw [(jget_zf tid title notes link labels markers children
    childDicts).2.2.2.2.2.1]
  by_cases hm : markers = []
  · rw [if_neg (by simp [hm]), hm]
  · rw [if_pos hm]
    simp only [pyIter]
    rw [zen_markers_map (by
      intro m hmem
      simpa [List.isEmpty_iff] using hma m hmem)]
    simp only [Except.ok.injEq]
    exact List.filterMap_map _ _ _ |>.trans (List.filterMap_some _)

theorem zf_children (tid title notes link : List Char)
    (labels markers : List (List Char)) {children : List Topic}
    {childDicts : List JVal}
    (hps : parse_zen_topics childDicts = .ok children) :
    parse_zen_children (jget (zen_fields tid title notes link labels markers
      children childDicts) (s2 "children")) = .ok children := by
  rw [(jget_zf tid title notes link labels markers children
    childDicts).2.2.2.2.2.2]
  by_cases hch : children.isEmpty
  · rw [if_neg (by simp [hch])]
    rw [parse_zen_children]
    have h0 : children = [] := by simpa [List.isEmpty_iff] using hch
    rw [h0]
    rfl
  · rw [if_pos (by simp [hch])]
    rw [parse_zen_children]
    exact hps

theorem parse_zen_topic_roundtrip :
    ∀ t : Topic, wfTopicPkg t = true →
      parse_zen_topic (topic_to_zen_dict t) = .ok t := by
  refine topic_ind
    (fun t => wfTopicPkg t = true → parse_zen_topic (topic_to_zen_dict t) = .ok t)
    (fun ts => wfTopicsPkg ts = true →
      parse_zen_topics (topics_to_zen_dicts ts) = .ok ts) ?mk ?nil ?cons
  case mk =>
    intro i ti ch no la li ma ih hwf
    simp only [wfTopicPkg, Bool.and_eq_true] at hwf
    obtain ⟨⟨⟨hid, hla⟩, hma⟩, hch⟩ := hwf
    have hidne : i ≠ [] := by simpa [List.isEmpty_iff] using hid
    have hmane : ∀ m ∈ ma, m ≠ [] := by
      intro m hm
      have := List.all_eq_true.mp hma m hm
      simpa [List.isEmpty_iff] using this
    simp only [topic_to_zen_dict]
    rw [parse_zen_topic]
    rw [zf_jid hidne, zf_title, zf_notes, zf_labels, zf_href,
      zf_markers _ _ _ _ hmane, zf_children _ _ _ _ _ _ (ih hch)]
    rfl
  case nil =>
    intro h
    rw [show topics_to_zen_dicts [] = [] from rfl, parse_zen_topics]
    rfl
  case cons =>
    intro hd tl ih1 ih2 h
    simp only [wfTopicsPkg, Bool.and_eq_true] at h
    rw [show topics_to_zen_dicts (hd :: tl) =
      topic_to_zen_dict hd :: topics_to_zen_dicts tl from rfl]
    rw [parse_zen_topics, ih1 h.1, ih2 h.2]
    rfl

theorem parse_zen_sheet_roundtrip (sh : Sheet) (hwf : wfSheetPkg sh = true) :
    parse_zen_sheet (.jobj
      ([(s2 "id", .jstr sh.id), (s2 "class", .jstr (s2 "sheet")),
        (s2 "title", .jstr sh.title)] ++
       (match sh.root_topic with
        | some rt => [(s2 "rootTopic", topic_to_zen_dict rt)]
        | none => []))) = .ok sh := by
  obtain ⟨sid, stitle, root⟩ := sh
  match root with
  | none =>
    simp only [wfSheetPkg, Bool.and_eq_true] at hwf
    have hidne : sid ≠ [] := by simpa [List.isEmpty_iff] using hwf.1.1
    show Except.ok (Sheet.mk (if sid = [] then genId else sid) stitle none) =
      Except.ok (Sheet.mk sid stitle none)
    rw [if_neg hidne]
  | some rt =>
    simp only [wfSheetPkg, Bool.and_eq_true] at hwf
    obtain ⟨⟨hid, hti⟩, hroot⟩ := hwf
    have hidne : sid ≠ [] := by simpa [List.isEmpty_iff] using hid
    show (do
      let rt2 ← parse_zen_topic (topic_to_zen_dict rt)
      pure (Sheet.mk (if sid = [] then genId else sid) stitle (some rt2))) =
      Except.ok (Sheet.mk sid stitle (some rt))
    rw [parse_zen_topic_roundtrip rt hroot]
    show Except.ok (Sheet.mk (if sid = [] then genId else sid) stitle
      (some rt)) = Except.ok (Sheet.mk sid stitle (some rt))
    rw [if_neg hidne]

theorem parse_zen_sheets_mapM (sheets : List Sheet)
    (h : wfDocPkg sheets = true) :
    (sheets.map (fun sh =>
      JVal.jobj
        ([(s2 "id", .jstr sh.id), (s2 "class", .jstr (s2 "sheet")),
          (s2 "title", .jstr sh.title)] ++
         (match sh.root_topic with
          | some rt => [(s2 "rootTopic", topic_to_zen_dict rt)]
          | none => [])))).mapM parse_zen_sheet = .ok sheets := by
  induction sheets with
  | nil => rfl
  | cons sh rest ih =>
    simp only [wfDocPkg, List.all_cons, Bool.and_eq_true] at h
    simp only [List.map_cons, List.mapM_cons]
    rw [parse_zen_sheet_roundtrip sh h.1]
    rw [ih (by simpa [wfDocPkg] using h.2)]
    rfl

/-- Zen round trip: decoding an encoded well-formed document returns it
exactly. -/
theorem parse_zen_create_zen (sheets : List Sheet)
    (h : wfDocPkg sheets = true) :
    parse_zen (create_zen sheets) = .ok sheets := by
  exact parse_zen_sheets_mapM sheets h

-- Legacy round trip: lookup lemmas for the element shapes.

theorem find_pair_cons_eq {b : Type} (k : List Char) (v : b)
    (rest : List (List Char × b)) :
    ((k, v) :: rest).find? (fun kv => decide (kv.1 = k)) = some (k, v) := by
  rw [List.find?_cons_of_pos _ (by simp)]

theorem find_pair_cons_ne {b : Type} {k2 k : List Char} (h : k2 ≠ k) (v : b)
    (rest : List (List Char × b)) :
    ((k2, v) :: rest).find? (fun kv => decide (kv.1 = k)) =
      rest.find? (fun kv => decide (kv.1 = k)) := by
  rw [List.find?_cons_of_neg _ (by simp [h])]

theorem xfind_cons_eq {c : XElem} {tag : List Char} (h : c.tag = tag)
    (rest : List XElem) : xfind tag (c :: rest) = some c := by
  unfold xfind
  rw [List.find?_cons_of_pos _ (by simp [h])]

theorem xfind_cons_ne {c : XElem} {tag : List Char} (h : c.tag ≠ tag)
    (rest : List XElem) : xfind tag (c :: rest) = xfind tag rest := by
  unfold xfind
  rw [List.find?_cons_of_neg _ (by simp [h])]

theorem xfind_if_seg {c : Prop} [Decidable c] {e : XElem} {tag : List Char}
    (h : e.tag = tag) :
    xfind tag (if c then [e] else []) = if c then some e else none := by
  by_cases hc : c
  · rw [if_pos hc, if_pos hc, xfind_cons_eq h]
  · rw [if_neg hc, if_neg hc]
    rfl

theorem xfind_seg_none {c : Prop} [Decidable c] {e : XElem} {tag : List Char}
    (h : e.tag ≠ tag) :
    xfind tag (if c then [e] else []) = none := by
  by_cases hc : c
  · rw [if_pos hc, xfind_cons_ne h]
    rfl
  · rw [if_neg hc]
    rfl

theorem legacy_attrs_id (tid ts link : List Char) :
    (legacy_topic_attrs tid ts link).find?
      (fun kv => decide (kv.1 = s2 "id")) = some (s2 "id", tid) := by
  unfold legacy_topic_attrs
  rw [show ([(s2 "id", tid), (s2 "timestamp", ts)] ++
    (if link ≠ [] then [(xlinkHref, link)] else [])) =
    (s2 "id", tid) :: ((s2 "timestamp", ts) ::
      (if link ≠ [] then [(xlinkHref, link)] else [])) from rfl]
  rw [find_pair_cons_eq]

theorem legacy_attrs_href (tid ts link : List Char) :
    (legacy_topic_attrs tid ts link).find?
      (fun kv => decide (kv.1 = xlinkHref)) =
      (if link ≠ [] then some (xlinkHref, link) else none) := by
  unfold legacy_topic_attrs
  rw [show ([(s2 "id", tid), (s2 "timestamp", ts)] ++
    (if link ≠ [] then [(xlinkHref, link)] else [])) =
    (s2 "id", tid) :: ((s2 "timestamp", ts) ::
      (if link ≠ [] then [(xlinkHref, link)] else [])) from rfl]
  rw [find_pair_cons_ne (by decide), find_pair_cons_ne (by decide)]
  by_cases hc : link ≠ []
  · rw [if_pos hc, if_pos hc, find_pair_cons_eq]
  · rw [if_neg hc, if_neg hc]
    rfl

theorem legacy_children_shape (title notes : List Char)
    (labels markers : List (List Char)) (children : List Topic)
    (childElems : List XElem) :
    xfind (s2 "title") (legacy_topic_children title notes labels markers
      children childElems) = some (XElem.mk (s2 "title") [] title []) ∧
    xfind (s2 "notes") (legacy_topic_children title notes labels markers
      children childElems) =
      (if notes ≠ [] then
        some (XElem.mk (s2 "notes") [] [] [XElem.mk (s2 "plain") [] notes []])
       else none) ∧
    xfind (s2 "labels") (legacy_topic_children title notes labels markers
      children childElems) =
      (if labels ≠ [] then
        some (XElem.mk (s2 "labels") [] []
          (labels.map (fun l => XElem.mk (s2 "label") [] l [])))
       else none) ∧
    xfind (s2 "marker-refs") (legacy_topic_children title notes labels markers
      children childElems) =
      (if markers ≠ [] then
        some (XElem.mk (s2 "marker-refs") [] []
          (markers.map (fun m =>
            XElem.mk (s2 "marker-ref") [(s2 "marker-id", m)] [] [])))
       else none) ∧
    xfind (s2 "children") (legacy_topic_children title notes labels markers
      children childElems) =
      (if !children.isEmpty then
        some (XElem.mk (s2 "children") [] []
          [XElem.mk (s2 "topics") [(s2 "type", s2 "attached")] [] childElems])
       else none) := by
  unfold legacy_topic_children
  simp only [List.cons_append, List.nil_append]
  refine ⟨?_, ?_, ?_, ?_, ?_⟩
  · rw [xfind_cons_eq (by exact (rfl : s2 "title" = s2 "title"))]
  · rw [xfind_cons_ne (by exact (by decide : ¬ s2 "title" = s2 "notes"))]
    simp only [xfind_append]
    rw [xfind_if_seg (e := XElem.mk (s2 "notes") [] [] [XElem.mk (s2 "plain") [] notes []])
        (by exact (rfl : s2 "notes" = s2 "notes")),
      xfind_seg_none (e := XElem.mk (s2 "labels") [] [] (labels.map (fun l => XElem.mk (s2 "label") [] l [])))
        (by exact (by decide : ¬ s2 "labels" = s2 "notes")),
      xfind_seg_none (e := XElem.mk (s2 "marker-refs") [] [] (markers.map (fun m => XElem.mk (s2 "marker-ref") [(s2 "marker-id", m)] [] [])))
        (by exact (by decide : ¬ s2 "marker-refs" = s2 "notes")),
      xfind_seg_none (e := XElem.mk (s2 "children") [] [] [XElem.mk (s2 "topics") [(s2 "type", s2 "attached")] [] childElems])
        (by exact (by decide : ¬ s2 "children" = s2 "notes"))]
    simp only [Option.or_none, Option.none_or]
  · rw [xfind_cons_ne (by exact (by decide : ¬ s2 "title" = s2 "labels"))]
    simp only [xfind_append]
    rw [xfind_seg_none (e := XElem.mk (s2 "notes") [] [] [XElem.mk (s2 "plain") [] notes []])
        (by exact (by decide : ¬ s2 "notes" = s2 "labels")),
      xfind_if_seg (e := XElem.mk (s2 "labels") [] [] (labels.map (fun l => XElem.mk (s2 "label") [] l [])))
        (by exact (rfl : s2 "labels" = s2 "labels")),
      xfind_seg_none (e := XElem.mk (s2 "marker-refs") [] [] (markers.map (fun m => XElem.mk (s2 "marker-ref") [(s2 "marker-id", m)] [] [])))
        (by exact (by decide : ¬ s2 "marker-refs" = s2 "labels")),
      xfind_seg_none (e := XElem.mk (s2 "children") [] [] [XElem.mk (s2 "topics") [(s2 "type", s2 "attached")] [] childElems])
        (by exact (by decide : ¬ s2 "children" = s2 "labels"))]
    simp only [Option.or_none, Option.none_or]
  · rw [xfind_cons_ne (by exact (by decide : ¬ s2 "title" = s2 "marker-refs"))]
    simp only [xfind_append]
    rw [xfind_seg_none (e := XElem.mk (s2 "notes") [] [] [XElem.mk (s2 "plain") [] notes []])
        (by exact (by decide : ¬ s2 "notes" = s2 "marker-refs")),
      xfind_seg_none (e := XElem.mk (s2 "labels") [] [] (labels.map (fun l => XElem.mk (s2 "label") [] l [])))
        (by exact (by decide : ¬ s2 "labels" = s2 "marker-refs")),
      xfind_if_seg (e := XElem.mk (s2 "marker-refs") [] [] (markers.map (fun m => XElem.mk (s2 "marker-ref") [(s2 "marker-id", m)] [] [])))
        (by exact (rfl : s2 "marker-refs" = s2 "marker-refs")),
      xfind_seg_none (e := XElem.mk (s2 "children") [] [] [XElem.mk (s2 "topics") [(s2 "type", s2 "attached")] [] childElems])
        (by exact (by decide : ¬ s2 "children" = s2 "marker-refs"))]
    simp only [Option.or_none, Option.none_or]
  · rw [xfind_cons_ne (by exact (by decide : ¬ s2 "title" = s2 "children"))]
    simp only [xfind_append]
    rw [xfind_seg_none (e := XElem.mk (s2 "notes") [] [] [XElem.mk (s2 "plain") [] notes []])
        (by exact (by decide : ¬ s2 "notes" = s2 "children")),
      xfind_seg_none (e := XElem.mk (s2 "labels") [] [] (labels.map (fun l => XElem.mk (s2 "label") [] l [])))
        (by exact (by decide : ¬ s2 "labels" = s2 "children")),
      xfind_seg_none (e := XElem.mk (s2 "marker-refs") [] [] (markers.map (fun m => XElem.mk (s2 "marker-ref") [(s2 "marker-id", m)] [] [])))
        (by exact (by decide : ¬ s2 "marker-refs" = s2 "children")),
      xfind_if_seg (e := XElem.mk (s2 "children") [] [] [XElem.mk (s2 "topics") [(s2 "type", s2 "attached")] [] childElems])
        (by exact (rfl : s2 "children" = s2 "children"))]
    simp only [Option.or_none, Option.none_or]

theorem topics_to_legacy_tags (ts : List Char) :
    ∀ l : List Topic, ∀ e ∈ topics_to_legacy_xml ts l, e.tag = s2 "topic" := by
  intro l
  induction l with
  | nil => intro e he; simp [topics_to_legacy_xml] at he
  | cons t rest ih =>
    intro e he
    rw [show topics_to_legacy_xml ts (t :: rest) =
      topic_to_legacy_xml ts t :: topics_to_legacy_xml ts rest from rfl] at he
    rcases List.mem_cons.mp he with h1 | h2
    · subst h1
      cases t
      rfl
    · exact ih e h2

theorem legacy_labels_extract {la : List (List Char)}
    (h : ∀ l ∈ la, l ≠ []) :
    ((xfindall (s2 "label")
      (la.map (fun l => XElem.mk (s2 "label") [] l []))).map XElem.text).filter
      (fun t => !t.isEmpty) = la := by
  have h1 : xfindall (s2 "label")
      (la.map (fun l => XElem.mk (s2 "label") [] l [])) =
      la.map (fun l => XElem.mk (s2 "label") [] l []) := by
    unfold xfindall
    rw [List.filter_eq_self.mpr]
    intro e he
    obtain ⟨l, _, rfl⟩ := List.mem_map.mp he
    simp [XElem.tag]
  rw [h1, List.map_map]
  have h2 : (XElem.text ∘ fun l => XElem.mk (s2 "label") [] l []) = id := by
    funext l
    rfl
  rw [h2, List.map_id, List.filter_eq_self.mpr]
  intro l hl
  simpa [List.isEmpty_iff] using h l hl

theorem legacy_markers_extract {ma : List (List Char)}
    (h : ∀ m ∈ ma, m ≠ []) :
    ((xfindall (s2 "marker-ref")
      (ma.map (fun m => XElem.mk (s2 "marker-ref") [(s2 "marker-id", m)] [] []))).map
      (fun mr => (xattr mr (s2 "marker-id")).getD [])).filter
      (fun t => !t.isEmpty) = ma := by
  have h1 : xfindall (s2 "marker-ref")
      (ma.map (fun m => XElem.mk (s2 "marker-ref") [(s2 "marker-id", m)] [] [])) =
      ma.map (fun m => XElem.mk (s2 "marker-ref") [(s2 "marker-id", m)] [] []) := by
    unfold xfindall
    rw [List.filter_eq_self.mpr]
    intro e he
    obtain ⟨m, _, rfl⟩ := List.mem_map.mp he
    simp [XElem.tag]
  rw [h1, List.map_map]
  have h2 : ((fun mr => (xattr mr (s2 "marker-id")).getD []) ∘
      fun m => XElem.mk (s2 "marker-ref") [(s2 "marker-id", m)] [] []) = id := by
    funext m
    rfl
  rw [h2, List.map_id, List.filter_eq_self.mpr]
  intro m hm
  simpa [List.isEmpty_iff] using h m hm

theorem legacy_groups_singleton (childElems : List XElem) :
    legacy_attached_groups
      [XElem.mk (s2 "topics") [(s2 "type", s2 "attached")] [] childElems] =
      legacy_topic_list (xfindall (s2 "topic") childElems) := by
  rw [legacy_attached_groups]
  rw [if_pos (by exact ⟨rfl, rfl⟩)]
  rw [legacy_attached_groups]
  rw [List.append_nil]
  rfl

theorem parse_legacy_topic_roundtrip (ts : List Char) :
    ∀ t : Topic, wfTopicPkg t = true →
      parse_legacy_topic (topic_to_legacy_xml ts t) = t := by
  refine topic_ind
    (fun t => wfTopicPkg t = true →
      parse_legacy_topic (topic_to_legacy_xml ts t) = t)
    (fun l => wfTopicsPkg l = true →
      legacy_topic_list (topics_to_legacy_xml ts l) = l) ?mk ?nil ?cons
  case mk =>
    intro i ti ch no la li ma ih hwf
    simp only [wfTopicPkg, Bool.and_eq_true] at hwf
    obtain ⟨⟨⟨hid, hla⟩, hma⟩, hch⟩ := hwf
    have hidne : i ≠ [] := by simpa [List.isEmpty_iff] using hid
    have hlane : ∀ l ∈ la, l ≠ [] := by
      intro l hl
      have := List.all_eq_true.mp hla l hl
      simpa [List.isEmpty_iff] using this
    have hmane : ∀ m ∈ ma, m ≠ [] := by
      intro m hm
      have := List.all_eq_true.mp hma m hm
      simpa [List.isEmpty_iff] using this
    obtain ⟨hti2, hno2, hla2, hma2, hch2⟩ :=
      legacy_children_shape ti no la ma ch (topics_to_legacy_xml ts ch)
    simp only [topic_to_legacy_xml]
    rw [parse_legacy_topic]
    have e1 : (match xfind (s2 "title") (legacy_topic_children ti no la ma ch
        (topics_to_legacy_xml ts ch)) with
      | some te => te.text
      | none => ([] : List Char)) = ti := by
      rw [hti2]
      rfl
    have e2 : (match xfind (s2 "notes") (legacy_topic_children ti no la ma ch
        (topics_to_legacy_xml ts ch)) with
      | some ne =>
        match xfind (s2 "plain") ne.children with
        | some pe => pe.text
        | none => ([] : List Char)
      | none => ([] : List Char)) = no := by
      rw [hno2]
      by_cases hno : no = []
      · rw [if_neg (by simp [hno])]
        exact hno.symm
      · rw [if_pos hno]
        rfl
    have e3 : (match xfind (s2 "labels") (legacy_topic_children ti no la ma ch
        (topics_to_legacy_xml ts ch)) with
      | some le =>
        ((xfindall (s2 "label") le.children).map XElem.text).filter
          (fun t => !t.isEmpty)
      | none => ([] : List (List Char))) = la := by
      rw [hla2]
      by_cases hlae : la = []
      · rw [if_neg (by simp [hlae])]
        exact hlae.symm
      · rw [if_pos hlae]
        exact legacy_labels_extract hlane
    have e4 : (match xfind (s2 "marker-refs") (legacy_topic_children ti no la
        ma ch (topics_to_legacy_xml ts ch)) with
      | some me =>
        ((xfindall (s2 "marker-ref") me.children).map
          (fun mr => (xattr mr (s2 "marker-id")).getD [])).filter
          (fun t => !t.isEmpty)
      | none => ([] : List (List Char))) = ma := by
      rw [hma2]
      by_cases hmae : ma = []
      · rw [if_neg (by simp [hmae])]
        exact hmae.symm
      · rw [if_pos hmae]
        exact legacy_markers_extract hmane
    have e5 : (match hc : xfind (s2 "children") (legacy_topic_children ti no
        la ma ch (topics_to_legacy_xml ts ch)) with
      | some ce => legacy_attached_groups ce.children
      | none => ([] : List Topic)) = ch := by
      rw [hch2]
      by_cases hche : ch.isEmpty
      · rw [if_neg (by simp [hche])]
        have h0 : ch = [] := by simpa [List.isEmpty_iff] using hche
        exact h0.symm
      · rw [if_pos (by simp [hche])]
        show legacy_attached_groups
          [XElem.mk (s2 "topics") [(s2 "type", s2 "attached")] []
            (topics_to_legacy_xml ts ch)] = ch
        rw [legacy_groups_singleton]
        have htags : xfindall (s2 "topic") (topics_to_legacy_xml ts ch) =
            topics_to_legacy_xml ts ch := by
          unfold xfindall
          rw [List.filter_eq_self.mpr]
          intro e he
          simp [topics_to_legacy_tags ts ch e he]
        rw [htags]
        exact ih hch
    have e6 : idOr (xattr (XElem.mk (s2 "topic") (legacy_topic_attrs i ts li)
        [] (legacy_topic_children ti no la ma ch (topics_to_legacy_xml ts ch)))
        (s2 "id")) = i := by
      show idOr (((legacy_topic_attrs i ts li).find?
        (fun kv => decide (kv.1 = s2 "id"))).map (fun kv => kv.2)) = i
      rw [legacy_attrs_id]
      simp [idOr, hidne]
    have e7 : (xattr (XElem.mk (s2 "topic") (legacy_topic_attrs i ts li)
        [] (legacy_topic_children ti no la ma ch (topics_to_legacy_xml ts ch)))
        xlinkHref).getD [] = li := by
      show (((legacy_topic_attrs i ts li).find?
        (fun kv => decide (kv.1 = xlinkHref))).map (fun kv => kv.2)).getD [] = li
      rw [legacy_attrs_href]
      by_cases hli : li = []
      · rw [if_neg (by simp [hli]), hli]
        rfl
      · rw [if_pos hli]
        rfl
    simp only [e1, e2, e3, e4, e5, e6, e7]
  case nil =>
    intro h
    rw [show topics_to_legacy_xml ts [] = [] from rfl]
    rw [legacy_topic_list]
  case cons =>
    intro hd tl ih1 ih2 h
    simp only [wfTopicsPkg, Bool.and_eq_true] at h
    rw [show topics_to_legacy_xml ts (hd :: tl) =
      topic_to_legacy_xml ts hd :: topics_to_legacy_xml ts tl from rfl]
    rw [legacy_topic_list]
    rw [ih1 h.1, ih2 h.2]

theorem topic_to_legacy_tag (ts : List Char) (t : Topic) :
    (topic_to_legacy_xml ts t).tag = s2 "topic" := by
  cases t
  rfl

theorem parse_legacy_sheet_roundtrip (ts : List Char) (sh : Sheet)
    (hwf : wfSheetPkg sh = true) :
    parse_legacy_sheet (sheet_to_legacy_elem ts sh) = sh := by
  obtain ⟨sid, stitle, root⟩ := sh
  simp only [wfSheetPkg, Bool.and_eq_true] at hwf
  obtain ⟨⟨hid, hti⟩, hroot⟩ := hwf
  have hidne : sid ≠ [] := by simpa [List.isEmpty_iff] using hid
  have htine : ¬ stitle.isEmpty = true := by simpa using hti
  have eid : idOr (xattr (sheet_to_legacy_elem ts (Sheet.mk sid stitle root))
      (s2 "id")) = sid := by
    show idOr ((((s2 "id", sid) :: [(s2 "timestamp", ts)]).find?
      (fun kv => decide (kv.1 = s2 "id"))).map (fun kv => kv.2)) = sid
    rw [find_pair_cons_eq]
    simp [idOr, hidne]
  match root, hroot with
  | none, _ =>
    show Sheet.mk
      (idOr (xattr (sheet_to_legacy_elem ts (Sheet.mk sid stitle none)) (s2 "id")))
      (match xfind (s2 "title") [XElem.mk (s2 "title") [] stitle []] with
       | some te => if te.text.isEmpty then s2 "Sheet 1" else te.text
       | none => s2 "Sheet 1")
      ((xfind (s2 "topic") [XElem.mk (s2 "title") [] stitle []]).map
        parse_legacy_topic) = Sheet.mk sid stitle none
    rw [eid, xfind_cons_eq (show (XElem.mk (s2 "title") [] stitle []).tag =
      s2 "title" from rfl)]
    rw [xfind_cons_ne (show (XElem.mk (s2 "title") [] stitle []).tag ≠
      s2 "topic" from by exact (by decide : ¬ s2 "title" = s2 "topic"))]
    show Sheet.mk sid (if stitle.isEmpty then s2 "Sheet 1" else stitle)
      (Option.map parse_legacy_topic none) = Sheet.mk sid stitle none
    rw [if_neg htine]
    rfl
  | some rt, hrt =>
    show Sheet.mk
      (idOr (xattr (sheet_to_legacy_elem ts (Sheet.mk sid stitle (some rt)))
        (s2 "id")))
      (match xfind (s2 "title") (topic_to_legacy_xml ts rt ::
        [XElem.mk (s2 "title") [] stitle []]) with
       | some te => if te.text.isEmpty then s2 "Sheet 1" else te.text
       | none => s2 "Sheet 1")
      ((xfind (s2 "topic") (topic_to_legacy_xml ts rt ::
        [XElem.mk (s2 "title") [] stitle []])).map parse_legacy_topic) =
      Sheet.mk sid stitle (some rt)
    rw [eid]
    rw [xfind_cons_ne (show (topic_to_legacy_xml ts rt).tag ≠ s2 "title" from by
      rw [topic_to_legacy_tag]
      exact (by decide : ¬ s2 "topic" = s2 "title"))]
    rw [xfind_cons_eq (topic_to_legacy_tag ts rt)]
    rw [xfind_cons_eq (show (XElem.mk (s2 "title") [] stitle []).tag =
      s2 "title" from rfl)]
    show Sheet.mk sid (if stitle.isEmpty then s2 "Sheet 1" else stitle)
      (Option.map parse_legacy_topic (some (topic_to_legacy_xml ts rt))) =
      Sheet.mk sid stitle (some rt)
    rw [if_neg htine]
    show Sheet.mk sid stitle (some (parse_legacy_topic
      (topic_to_legacy_xml ts rt))) = Sheet.mk sid stitle (some rt)
    rw [parse_legacy_topic_roundtrip ts rt hrt]

theorem legacy_sheets_map_id (ts : List Char) (sheets : List Sheet)
    (h : wfDocPkg sheets = true) :
    sheets.map (fun sh => parse_legacy_sheet (sheet_to_legacy_elem ts sh)) =
      sheets := by
  induction sheets with
  | nil => rfl
  | cons sh rest ih =>
    simp only [wfDocPkg, List.all_cons, Bool.and_eq_true] at h
    rw [List.map_cons, parse_legacy_sheet_roundtrip ts sh h.1]
    have : wfDocPkg rest = true := h.2
    rw [ih this]

theorem parse_legacy_content_roundtrip (ts : List Char) (sheets : List Sheet)
    (h : wfDocPkg sheets = true) :
    parse_legacy_content (create_legacy_content ts sheets) = sheets := by
  show (xfindall (s2 "sheet") (sheets.map (sheet_to_legacy_elem ts))).map
    parse_legacy_sheet = sheets
  have hall : xfindall (s2 "sheet") (sheets.map (sheet_to_legacy_elem ts)) =
      sheets.map (sheet_to_legacy_elem ts) := by
    unfold xfindall
    rw [List.filter_eq_self.mpr]
    intro e he
    obtain ⟨sh, _, rfl⟩ := List.mem_map.mp he
    obtain ⟨sid, stitle, root⟩ := sh
    exact (by decide : decide ((s2 "sheet" : List Char) = s2 "sheet") = true)
  rw [hall, List.map_map]
  exact legacy_sheets_map_id ts sheets h

/-- Legacy round trip: decoding an encoded well-formed document returns it
unchanged. -/
theorem parse_legacy_create_legacy (ts : List Char) (sheets : List Sheet)
    (h : wfDocPkg sheets = true) :
    parse_legacy (create_legacy ts sheets) = .ok sheets := by
  show Except.ok (parse_legacy_content (create_legacy_content ts sheets)) =
    Except.ok sheets
  rw [parse_legacy_content_roundtrip ts sheets h]

/-- C2 counterexample: the package round trips do not hold for every
document.  A sheet whose title is the empty string is encoded by
`create_legacy` with an empty `title` element, and `parse_legacy` replaces
the empty title with the default "Sheet 1", so decoding the encoded
document changes it. -/
theorem c2_counterexample :
    ¬ (∀ (ts : List Char) (sheets : List Sheet),
      parse_zen (create_zen sheets) = .ok sheets ∧
      parse_legacy (create_legacy ts sheets) = .ok sheets) := by
  intro h
  have h2 := (h [] [Sheet.mk (s2 "i") [] none]).2
  rw [show parse_legacy (create_legacy [] [Sheet.mk (s2 "i") [] none]) =
    .ok [Sheet.mk (s2 "i") (s2 "Sheet 1") none] from rfl] at h2
  exact absurd h2 (by decide)

/-- C2: for every well-formed document (non-empty sheet and topic
identifiers, non-empty sheet titles, non-empty labels and marker ids),
decoding the package produced by either package encoder returns the
document unchanged; the encode-time timestamp does not affect the
result. -/
theorem c2_package_roundtrip (ts : List Char) (sheets : List Sheet)
    (h : wfDocPkg sheets = true) :
    parse_zen (create_zen sheets) = .ok sheets ∧
    parse_legacy (create_legacy ts sheets) = .ok sheets :=
  ⟨parse_zen_create_zen sheets h, parse_legacy_create_legacy ts sheets h⟩

theorem c2_package_roundtrip_witness :
    wfDocPkg [Sheet.mk (s2 "a") (s2 "T")
      (some (Topic.mk (s2 "t") (s2 "R") [] [] [] [] []))] = true ∧
    (parse_zen (create_zen [Sheet.mk (s2 "a") (s2 "T")
      (some (Topic.mk (s2 "t") (s2 "R") [] [] [] [] []))]) =
      .ok [Sheet.mk (s2 "a") (s2 "T")
        (some (Topic.mk (s2 "t") (s2 "R") [] [] [] [] []))] ∧
     parse_legacy (create_legacy (s2 "1") [Sheet.mk (s2 "a") (s2 "T")
      (some (Topic.mk (s2 "t") (s2 "R") [] [] [] [] []))]) =
      .ok [Sheet.mk (s2 "a") (s2 "T")
        (some (Topic.mk (s2 "t") (s2 "R") [] [] [] [] []))]) :=
  ⟨by decide, c2_package_roundtrip (s2 "1")
    [Sheet.mk (s2 "a") (s2 "T")
      (some (Topic.mk (s2 "t") (s2 "R") [] [] [] [] []))] (by decide)⟩

-- Evaluation lemmas for the well-founded recursive decoders on concrete
-- inputs (their equations do not hold definitionally).

theorem reSplitSep_none {s : List Char} (h : findSep s = none) :
    reSplitSep s = [s] := by
  rw [reSplitSep]
  split
  · rfl
  · rename_i a b heq
    rw [h] at heq
    exact absurd heq (by simp)

theorem filterMap_singleton_some {α β : Type} (f : α → Option β) (a : α)
    (b : β) (h : f a = some b) : List.filterMap f [a] = [b] := by
  simp [List.filterMap_cons, h]

theorem parse_md_items_nil : parse_md_items [] = [] := by
  rw [parse_md_items]

theorem parse_md_items_skip (line : List Char) (rest : List (List Char))
    (hb : matchBullet line = none) :
    parse_md_items (line :: rest) = parse_md_items rest := by
  rw [parse_md_items, hb]

theorem parse_md_items_step (line : List Char) (rest : List (List Char))
    (cur : Nat) (rawTitle : List Char) (cl nl rem : List (List Char))
    (hb : matchBullet line = some (cur, rawTitle))
    (hc : consumeItem cur [] [] rest = (cl, nl, rem)) :
    parse_md_items (line :: rest) =
      Topic.mk (parse_title_meta rawTitle).id (parse_title_meta rawTitle).title
        (if cl ≠ [] then parse_md_items cl
         else (parse_title_meta rawTitle).children)
        (if nl ≠ [] then List.intercalate (s2 "\n") nl
         else (parse_title_meta rawTitle).notes)
        (parse_title_meta rawTitle).labels (parse_title_meta rawTitle).link
        (parse_title_meta rawTitle).markers
      :: parse_md_items rem := by
  rw [parse_md_items, hb]
  split
  · rename_i heq
    exact absurd heq (by simp)
  · rename_i cur2 raw2 heq
    simp only [Option.some.injEq, Prod.mk.injEq] at heq
    obtain ⟨rfl, rfl⟩ := heq
    split
    rename_i cl2 nl2 rem2 heq2
    rw [hc] at heq2
    simp only [Prod.mk.injEq] at heq2
    obtain ⟨rfl, rfl, rfl⟩ := heq2
    rfl

-- Claim C8: the concrete scenario.

theorem c8_items_eval :
    parse_md_items
      [s2 "- Child A  \x7blabels: x, y\x7d", s2 "  > a note", s2 "- Child B"] =
      [Topic.mk genId (s2 "Child A") [] (s2 "a note") [s2 "x", s2 "y"] [] [],
       Topic.mk genId (s2 "Child B") [] [] [] [] []] := by
  rw [parse_md_items_step (s2 "- Child A  \x7blabels: x, y\x7d")
    [s2 "  > a note", s2 "- Child B"] 0 (s2 "Child A  \x7blabels: x, y\x7d")
    [] [s2 "a note"] [s2 "- Child B"] rfl rfl]
  rw [parse_md_items_step (s2 "- Child B") [] 0 (s2 "Child B")
    [] [] [] rfl rfl]
  rw [parse_md_items_nil]
  decide

theorem c8_decode :
    markdown_to_sheets (s2 "# Sheet: S\n\n## Root\n\n- Child A  \x7blabels: x, y\x7d\n  > a note\n- Child B\n") =
      [Sheet.mk genId (s2 "S") (some (Topic.mk genId (s2 "Root")
        [Topic.mk genId (s2 "Child A") [] (s2 "a note") [s2 "x", s2 "y"] [] [],
         Topic.mk genId (s2 "Child B") [] [] [] [] []] [] [] [] []))] := by
  have hblock : parse_sheet_block (stripPy
      (s2 "# Sheet: S\n\n## Root\n\n- Child A  \x7blabels: x, y\x7d\n  > a note\n- Child B\n")) =
      some (Sheet.mk genId (s2 "S") (some (Topic.mk genId (s2 "Root")
        [Topic.mk genId (s2 "Child A") [] (s2 "a note") [s2 "x", s2 "y"] [] [],
         Topic.mk genId (s2 "Child B") [] [] [] [] []] [] [] [] []))) := by
    rw [show parse_sheet_block (stripPy
        (s2 "# Sheet: S\n\n## Root\n\n- Child A  \x7blabels: x, y\x7d\n  > a note\n- Child B\n")) =
      some (Sheet.mk genId (s2 "S") (some (Topic.mk genId (s2 "Root")
        (parse_md_items [s2 "- Child A  \x7blabels: x, y\x7d", s2 "  > a note",
          s2 "- Child B"]) [] [] [] []))) from rfl]
    rw [c8_items_eval]
  unfold markdown_to_sheets
  rw [reSplitSep_none (show findSep
    (s2 "# Sheet: S\n\n## Root\n\n- Child A  \x7blabels: x, y\x7d\n  > a note\n- Child B\n") =
    none from rfl)]
  exact filterMap_singleton_some _ _ _ hblock

theorem c8_decode2 :
    markdown_to_sheets (s2 "# Sheet: S\n\n\n## Root\n\n\n- Child A  \x7blabels: x, y\x7d\n  > a note\n- Child B") =
      [Sheet.mk genId (s2 "S") (some (Topic.mk genId (s2 "Root")
        [Topic.mk genId (s2 "Child A") [] (s2 "a note") [s2 "x", s2 "y"] [] [],
         Topic.mk genId (s2 "Child B") [] [] [] [] []] [] [] [] []))] := by
  have hblock : parse_sheet_block (stripPy
      (s2 "# Sheet: S\n\n\n## Root\n\n\n- Child A  \x7blabels: x, y\x7d\n  > a note\n- Child B")) =
      some (Sheet.mk genId (s2 "S") (some (Topic.mk genId (s2 "Root")
        [Topic.mk genId (s2 "Child A") [] (s2 "a note") [s2 "x", s2 "y"] [] [],
         Topic.mk genId (s2 "Child B") [] [] [] [] []] [] [] [] []))) := by
    rw [show parse_sheet_block (stripPy
        (s2 "# Sheet: S\n\n\n## Root\n\n\n- Child A  \x7blabels: x, y\x7d\n  > a note\n- Child B")) =
      some (Sheet.mk genId (s2 "S") (some (Topic.mk genId (s2 "Root")
        (parse_md_items [s2 "- Child A  \x7blabels: x, y\x7d", s2 "  > a note",
          s2 "- Child B"]) [] [] [] []))) from rfl]
    rw [c8_items_eval]
  unfold markdown_to_sheets
  rw [reSplitSep_none (show findSep
    (s2 "# Sheet: S\n\n\n## Root\n\n\n- Child A  \x7blabels: x, y\x7d\n  > a note\n- Child B") =
    none from rfl)]
  exact filterMap_singleton_some _ _ _ hblock

/-- C8 counterexample: re-encoding the decoded scenario document does not
reproduce the input text (the encoder inserts a blank part after each
heading, doubling the blank lines, and emits no trailing newline). -/
theorem c8_counterexample :
    sheets_to_markdown (markdown_to_sheets
      (s2 "# Sheet: S\n\n## Root\n\n- Child A  \x7blabels: x, y\x7d\n  > a note\n- Child B\n")) ≠
      s2 "# Sheet: S\n\n## Root\n\n- Child A  \x7blabels: x, y\x7d\n  > a note\n- Child B\n" := by
  rw [c8_decode]
  decide

/-- C8: the scenario text decodes to exactly one sheet titled "S" with
root "Root" and children "Child A" (labels x and y, note "a note") and
"Child B" with no metadata; re-encoding that document yields not the
input text but the stable form with doubled blank lines after the
headings and no trailing newline, and decoding that form returns the
same document again. -/
theorem c8_scenario :
    markdown_to_sheets (s2 "# Sheet: S\n\n## Root\n\n- Child A  \x7blabels: x, y\x7d\n  > a note\n- Child B\n") =
      [Sheet.mk genId (s2 "S") (some (Topic.mk genId (s2 "Root")
        [Topic.mk genId (s2 "Child A") [] (s2 "a note") [s2 "x", s2 "y"] [] [],
         Topic.mk genId (s2 "Child B") [] [] [] [] []] [] [] [] []))] ∧
    sheets_to_markdown
      [Sheet.mk genId (s2 "S") (some (Topic.mk genId (s2 "Root")
        [Topic.mk genId (s2 "Child A") [] (s2 "a note") [s2 "x", s2 "y"] [] [],
         Topic.mk genId (s2 "Child B") [] [] [] [] []] [] [] [] []))] =
      s2 "# Sheet: S\n\n\n## Root\n\n\n- Child A  \x7blabels: x, y\x7d\n  > a note\n- Child B" ∧
    markdown_to_sheets (s2 "# Sheet: S\n\n\n## Root\n\n\n- Child A  \x7blabels: x, y\x7d\n  > a note\n- Child B") =
      [Sheet.mk genId (s2 "S") (some (Topic.mk genId (s2 "Root")
        [Topic.mk genId (s2 "Child A") [] (s2 "a note") [s2 "x", s2 "y"] [] [],
         Topic.mk genId (s2 "Child B") [] [] [] [] []] [] [] [] []))] :=
  ⟨c8_decode, by decide, c8_decode2⟩

-- ============================================================
-- Claim C1: outline round trip — string toolkit
-- ============================================================

theorem stripPy_length_le (s : List Char) : (stripPy s).length ≤ s.length := by
  unfold stripPy rstripPy lstripPy
  have h1 := List.Sublist.length_le (List.dropWhile_sublist (l := s) (p := isWs))
  have h2 := List.Sublist.length_le
    (List.dropWhile_sublist (l := (s.dropWhile isWs).reverse) (p := isWs))
  simp only [List.length_reverse] at h2 ⊢
  omega

theorem strip_inv_head {c : Char} {r : List Char}
    (h : stripPy (c :: r) = c :: r) : ¬ isWs c := by
  intro hws
  have h1 : stripPy (c :: r) = stripPy r := stripPy_ws_append
    (w := [c]) (by simpa using hws) r
  have h2 := stripPy_length_le r
  rw [h] at h1
  have h3 : (c :: r).length = (stripPy r).length := by rw [h1]
  simp only [List.length_cons] at h3
  omega

theorem strip_inv_concat {v : List Char} (h : stripPy v = v) (hne : v ≠ []) :
    ∃ y d, v = y ++ [d] ∧ ¬ isWs d := by
  refine ⟨v.dropLast, v.getLast hne, (List.dropLast_append_getLast hne).symm, ?_⟩
  intro hws
  have hdec := List.dropLast_append_getLast hne
  have h1 : stripPy v = stripPy v.dropLast := by
    conv_lhs => rw [← hdec]
    exact stripPy_append_ws (w := [v.getLast hne]) (by simpa using hws) _
  have h2 := stripPy_length_le v.dropLast
  rw [h] at h1
  have h3 : v.length = v.dropLast.length + 1 := by
    conv_lhs => rw [← hdec]
    simp
  have h4 : v.length = (stripPy v.dropLast).length := congrArg List.length h1
  omega

theorem rstripPy_append_strip_inv {v : List Char} (h : stripPy v = v)
    (hne : v ≠ []) (x : List Char) : rstripPy (x ++ v) = x ++ v := by
  obtain ⟨y, d, hv, hd⟩ := strip_inv_concat h hne
  rw [hv, ← List.append_assoc, rstripPy_append_not_ws hd]

theorem stripPy_sandwich {c : Char} (hc : ¬ isWs c) {v : List Char}
    (hv : stripPy v = v) (hne : v ≠ []) (m : List Char) :
    stripPy (c :: m ++ v) = c :: m ++ v := by
  unfold stripPy
  rw [show (c :: m ++ v : List Char) = c :: (m ++ v) from by simp]
  rw [lstripPy_cons_of_not_ws hc]
  rw [show (c :: (m ++ v) : List Char) = (c :: m) ++ v from by simp]
  rw [rstripPy_append_strip_inv hv hne]

theorem strip_nonblank {w : List Char} (hw : ∀ x ∈ w, isWs x) {c : Char}
    (hc : ¬ isWs c) (t : List Char) :
    (stripPy (w ++ c :: t)).isEmpty = false := by
  rw [stripPy_ws_append hw]
  unfold stripPy
  rw [lstripPy_cons_of_not_ws hc]
  have hne : rstripPy (c :: t) ≠ [] := by
    intro hnil
    have h2 := rstripPy_eq_nil_iff.mp hnil c (by simp)
    exact hc h2
  rw [Bool.eq_false_iff]
  intro htrue
  exact hne (List.isEmpty_iff.mp htrue)

theorem intercalate_one (s x : List Char) : List.intercalate s [x] = x := by
  simp [List.intercalate]

theorem intercalate_two (s a b : List Char) (r : List (List Char)) :
    List.intercalate s (a :: b :: r) = a ++ s ++ List.intercalate s (b :: r) := by
  simp [List.intercalate, List.intersperse]

theorem intercalate_ne_nil {s : List Char} {la : List (List Char)}
    {v : List Char} (hv : v ≠ []) :
    List.intercalate s (v :: la) ≠ [] := by
  match la with
  | [] => rw [intercalate_one]; exact hv
  | b :: r =>
    rw [intercalate_two]
    simp [hv]

theorem mem_intercalate {c : Char} {s : List Char} :
    ∀ {L : List (List Char)}, c ∈ List.intercalate s L →
      (∃ l ∈ L, c ∈ l) ∨ c ∈ s := by
  intro L
  induction L with
  | nil => intro h; simp [List.intercalate] at h
  | cons a r ih =>
    intro h
    match r with
    | [] =>
      rw [intercalate_one] at h
      exact Or.inl ⟨a, by simp, h⟩
    | b :: r2 =>
      rw [intercalate_two] at h
      simp only [List.append_assoc, List.mem_append] at h
      rcases h with h1 | h2 | h3
      · exact Or.inl ⟨a, by simp, h1⟩
      · exact Or.inr h2
      · rcases ih h3 with ⟨l, hl, hc⟩ | hs
        · exact Or.inl ⟨l, by simp [hl], hc⟩
        · exact Or.inr hs

theorem intercalate_strip_inv :
    ∀ {la : List (List Char)}, la ≠ [] →
      (∀ v ∈ la, v ≠ [] ∧ stripPy v = v) →
      stripPy (List.intercalate (s2 ", ") la) = List.intercalate (s2 ", ") la := by
  intro la
  induction la with
  | nil => intro h; exact absurd rfl h
  | cons v r ih =>
    intro _ hall
    obtain ⟨hvne, hvinv⟩ := hall v (by simp)
    match r with
    | [] => rw [intercalate_one]; exact hvinv
    | b :: r2 =>
      have hI := ih (by simp) (fun x hx => hall x (by simp [hx]))
      have hIne : List.intercalate (s2 ", ") (b :: r2) ≠ [] :=
        intercalate_ne_nil (hall b (by simp)).1
      rw [intercalate_two]
      obtain ⟨c, v', rfl⟩ : ∃ c v', v = c :: v' := by
        match v, hvne with | c :: v', _ => exact ⟨c, v', rfl⟩
      have hc : ¬ isWs c := strip_inv_head hvinv
      rw [show (c :: v' ++ s2 ", " ++ List.intercalate (s2 ", ") (b :: r2) :
        List Char) = c :: ((v' ++ s2 ", ") ++ List.intercalate (s2 ", ")
        (b :: r2)) from by simp]
      exact stripPy_sandwich hc hI hIne _

theorem splitNl_ne_nil : ∀ s : List Char, splitNl s ≠ [] := by
  intro s
  induction s with
  | nil => simp [splitNl]
  | cons c cs ih =>
    rw [splitNl]
    by_cases h : c = '\n'
    · rw [if_pos h]; simp
    · rw [if_neg h]
      match hs : splitNl cs with
      | [] => simp
      | l :: ls => simp

theorem splitNl_append : ∀ a b : List Char,
    splitNl (a ++ '\n' :: b) = splitNl a ++ splitNl b := by
  intro a b
  induction a with
  | nil => simp [splitNl]
  | cons c cs ih =>
    rw [List.cons_append, splitNl]
    by_cases h : c = '\n'
    · rw [if_pos h, ih]
      rw [splitNl, if_pos h]
      simp
    · rw [if_neg h, ih]
      rw [splitNl, if_neg h]
      match hs : splitNl cs with
      | [] => exact absurd hs (splitNl_ne_nil cs)
      | l :: ls => simp

theorem splitNl_no_nl : ∀ {a : List Char}, '\n' ∉ a → splitNl a = [a] := by
  intro a
  induction a with
  | nil => intro h; rfl
  | cons c cs ih =>
    intro h
    rw [splitNl, if_neg (by intro hc; exact h (by simp [hc]))]
    rw [ih (by intro hc; exact h (by simp [hc]))]

theorem intercalate_splitNl : ∀ s : List Char,
    List.intercalate (s2 "\n") (splitNl s) = s := by
  intro s
  induction s with
  | nil => simp [splitNl, List.intercalate]
  | cons c cs ih =>
    rw [splitNl]
    by_cases h : c = '\n'
    · rw [if_pos h]
      match hs : splitNl cs with
      | [] => exact absurd hs (splitNl_ne_nil cs)
      | l :: ls =>
        rw [intercalate_two]
        rw [hs] at ih
        rw [ih, h]
        rfl
    · rw [if_neg h]
      match hs : splitNl cs with
      | [] => exact absurd hs (splitNl_ne_nil cs)
      | l :: ls =>
        rw [hs] at ih
        match ls with
        | [] =>
          rw [intercalate_one]
          rw [intercalate_one] at ih
          rw [ih]
        | l2 :: ls2 =>
          rw [intercalate_two]
          rw [intercalate_two] at ih
          simp only [List.cons_append, List.append_assoc] at ih ⊢
          rw [ih]

theorem splitNl_intercalate : ∀ {L : List (List Char)}, L ≠ [] →
    (∀ l ∈ L, '\n' ∉ l) →
    splitNl (List.intercalate (s2 "\n") L) = L := by
  intro L
  induction L with
  | nil => intro h; exact absurd rfl h
  | cons a r ih =>
    intro _ hall
    match r with
    | [] => rw [intercalate_one]; exact splitNl_no_nl (hall a (by simp))
    | b :: r2 =>
      rw [intercalate_two]
      rw [show (a ++ s2 "\n" ++ List.intercalate (s2 "\n") (b :: r2) :
        List Char) = a ++ '\n' :: List.intercalate (s2 "\n") (b :: r2) from
        by simp [s2]]
      rw [splitNl_append, splitNl_no_nl (hall a (by simp))]
      rw [ih (by simp) (fun x hx => hall x (by simp [hx]))]
      rfl

theorem splitComma_ne_nil : ∀ s : List Char, splitComma s ≠ [] := by
  intro s
  induction s with
  | nil => simp [splitComma, List.splitOn]
  | cons c cs ih =>
    unfold splitComma List.splitOn at ih ⊢
    rw [List.splitOnP_cons]
    by_cases h : c = ','
    · simp [h]
    · rw [if_neg (by simp [h])]
      match hs : List.splitOnP (fun x => x == ',') cs with
      | [] => exact absurd hs ih
      | l :: ls => simp

theorem splitComma_cons_comma (t : List Char) :
    splitComma (',' :: t) = [] :: splitComma t := by
  unfold splitComma List.splitOn
  rw [List.splitOnP_cons]
  simp

theorem splitComma_cons_not {c : Char} (h : ¬ c = ',') (t : List Char) :
    splitComma (c :: t) = (splitComma t).modifyHead (List.cons c) := by
  unfold splitComma List.splitOn
  rw [List.splitOnP_cons]
  simp [h]

theorem splitComma_no_comma : ∀ {a : List Char}, ',' ∉ a →
    splitComma a = [a] := by
  intro a
  induction a with
  | nil => intro h; rfl
  | cons c cs ih =>
    intro h
    rw [splitComma_cons_not (by intro hc; exact h (by simp [hc]))]
    rw [ih (by intro hc; exact h (by simp [hc]))]
    rfl

theorem splitComma_sep_append : ∀ {a : List Char}, ',' ∉ a → ∀ t,
    splitComma (a ++ ',' :: t) = a :: splitComma t := by
  intro a
  induction a with
  | nil => intro _ t; exact splitComma_cons_comma t
  | cons c cs ih =>
    intro h t
    rw [List.cons_append]
    rw [splitComma_cons_not (by intro hc; exact h (by simp [hc]))]
    rw [ih (by intro hc; exact h (by simp [hc]))]
    rfl

theorem clean_vals_ws_cons (s : List Char) :
    clean_list_vals (' ' :: s) = clean_list_vals s := by
  unfold clean_list_vals
  rw [splitComma_cons_not (by decide)]
  match hs : splitComma s with
  | [] => exact absurd hs (splitComma_ne_nil s)
  | p :: ps =>
    rw [List.modifyHead_cons]
    simp only [List.map_cons]
    rw [show stripPy (' ' :: p) = stripPy p from
      stripPy_ws_append (w := [' ']) (by decide) p]

theorem clean_vals_intercalate :
    ∀ {la : List (List Char)}, la ≠ [] →
      (∀ v ∈ la, mdListValOk v = true) →
      clean_list_vals (List.intercalate (s2 ", ") la) = la := by
  intro la
  induction la with
  | nil => intro h; exact absurd rfl h
  | cons v r ih =>
    intro _ hall
    have hv := hall v (by simp)
    simp only [mdListValOk, mdValOk, Bool.and_eq_true, Bool.not_eq_true',
      decide_eq_true_eq, decide_eq_false_iff_not] at hv
    obtain ⟨⟨⟨⟨⟨hvne, hvinv⟩, _⟩, _⟩, _⟩, hvcomma⟩ := hv
    have hvne2 : v ≠ [] := by simpa [List.isEmpty_iff] using hvne
    match r with
    | [] =>
      rw [intercalate_one]
      unfold clean_list_vals
      rw [splitComma_no_comma hvcomma]
      simp only [List.map_cons, List.map_nil, hvinv]
      simp [List.filter_cons, hvne]
    | b :: r2 =>
      rw [intercalate_two]
      rw [show (v ++ s2 ", " ++ List.intercalate (s2 ", ") (b :: r2) :
        List Char) = v ++ ',' :: (' ' :: List.intercalate (s2 ", ")
        (b :: r2)) from by simp [s2]]
      unfold clean_list_vals
      rw [splitComma_sep_append hvcomma]
      simp only [List.map_cons, hvinv]
      rw [List.filter_cons_of_pos (by simp [hvne])]
      have htail := ih (by simp) (fun x hx => hall x (by simp [hx]))
      unfold clean_list_vals at htail
      have hws := clean_vals_ws_cons (List.intercalate (s2 ", ") (b :: r2))
      unfold clean_list_vals at hws
      rw [show (((splitComma (' ' :: List.intercalate (s2 ", ")
        (b :: r2))).map stripPy).filter (fun v => !v.isEmpty) :
        List (List Char)) = b :: r2 from hws.trans htail]

theorem splitAtRBrace_closed : ∀ {m : List Char}, '\x7d' ∉ m → ∀ b,
    splitAtRBrace (m ++ '\x7d' :: b) = some (m, b) := by
  intro m
  induction m with
  | nil => intro _ b; simp [splitAtRBrace]
  | cons c cs ih =>
    intro h b
    rw [List.cons_append, splitAtRBrace]
    rw [if_neg (by intro hc; exact h (by simp [hc]))]
    rw [ih (by intro hc; exact h (by simp [hc])) b]
    rfl

theorem findFrag_skip {key : List Char} : ∀ {a : List Char}, '\x7b' ∉ a →
    ∀ s, findFrag key (a ++ s) =
      (findFrag key s).map (fun p => (a ++ p.1, p.2.1, p.2.2)) := by
  intro a
  induction a with
  | nil =>
    intro _ s
    simp only [List.nil_append]
    cases findFrag key s with
    | none => simp
    | some p => simp
  | cons c cs ih =>
    intro h s
    rw [List.cons_append, findFrag]
    rw [if_neg (by
      intro hp
      have := List.isPrefixOf_iff_prefix.mp hp
      obtain ⟨u, hu⟩ := this
      have : c = '\x7b' := by
        have := congrArg (fun l => l.head?) hu
        simpa using this.symm
      exact h (by simp [this]))]
    rw [ih (by intro hc; exact h (by simp [hc])) s]
    cases findFrag key s with
    | none => simp
    | some p => simp

theorem findFrag_nobrace {key x : List Char} (h : '\x7b' ∉ x) :
    findFrag key x = none := by
  have h2 := @findFrag_skip key x h []
  rw [List.append_nil] at h2
  rw [h2]
  rfl

theorem findFrag_skip_chunk {key : List Char} {c : Char} {cs : List Char}
    (R : List Char)
    (hp : ¬ (('\x7b' :: (key ++ [':'])).isPrefixOf (c :: (cs ++ R)) = true))
    (hb : '\x7b' ∉ cs) :
    findFrag key (c :: cs ++ R) =
      (findFrag key R).map (fun p => ((c :: cs) ++ p.1, p.2.1, p.2.2)) := by
  rw [show (c :: cs ++ R : List Char) = c :: (cs ++ R) from rfl]
  rw [findFrag]
  rw [if_neg (by
    intro hp2
    exact hp (by simpa using hp2))]
  rw [findFrag_skip hb R]
  cases findFrag key R with
  | none => simp
  | some p => simp

theorem findFrag_found {key m b : List Char} (hm : '\x7d' ∉ m) (hne : m ≠ []) :
    findFrag key (('\x7b' :: (key ++ [':'])) ++ (m ++ '\x7d' :: b)) =
      some ([], group1Of m, b) := by
  rw [show (('\x7b' :: (key ++ [':'])) ++ (m ++ '\x7d' :: b) : List Char) =
    '\x7b' :: ((key ++ [':']) ++ (m ++ '\x7d' :: b)) from rfl]
  rw [findFrag]
  rw [if_pos (by
    have : ('\x7b' :: (key ++ [':'])) <+: (('\x7b' :: (key ++ [':'])) ++
      (m ++ '\x7d' :: b)) := List.prefix_append _ _
    have h2 := List.isPrefixOf_iff_prefix.mpr this
    simpa using h2)]
  have hd : ('\x7b' :: ((key ++ [':']) ++ (m ++ '\x7d' :: b))).drop
      (key.length + 2) = m ++ '\x7d' :: b := by
    rw [show ('\x7b' :: ((key ++ [':']) ++ (m ++ '\x7d' :: b)) : List Char) =
      ('\x7b' :: (key ++ [':'])) ++ (m ++ '\x7d' :: b) from rfl]
    rw [show key.length + 2 = ('\x7b' :: (key ++ [':'])).length from by simp]
    exact List.drop_left _ _
  rw [hd, splitAtRBrace_closed hm b]
  simp [List.isEmpty_iff, hne]

theorem group1Of_ws_val {c : Char} (hc : ¬ isWs c) (v : List Char) :
    group1Of (' ' :: c :: v) = c :: v := by
  have h1 : (' ' :: c :: v).takeWhile isWs = [' '] := by
    rw [List.takeWhile_cons, if_pos (show isWs ' ' = true from rfl),
      List.takeWhile_cons, if_neg (by simpa using hc)]
  simp only [group1Of, h1]
  rw [if_neg (by simp)]
  simp

theorem findFrag_found_at {key x : List Char} (hx : '\x7b' ∉ x) {c : Char}
    (hc : ¬ isWs c) {v : List Char} (hv : '\x7d' ∉ c :: v) (R : List Char) :
    findFrag key (x ++ ('\x7b' :: (key ++ [':'])) ++ (' ' :: c :: v) ++
      '\x7d' :: R) = some (x, c :: v, R) := by
  have h1 : findFrag key (('\x7b' :: (key ++ [':'])) ++
      ((' ' :: c :: v) ++ '\x7d' :: R)) = some ([], group1Of (' ' :: c :: v), R) :=
    findFrag_found (by
      intro hmem
      simp only [List.mem_cons] at hmem
      rcases hmem with h | h
      · exact absurd h.symm (by decide)
      · exact hv (by simpa using h)) (by simp)
  rw [show (x ++ ('\x7b' :: (key ++ [':'])) ++ (' ' :: c :: v) ++ '\x7d' :: R :
    List Char) = x ++ (('\x7b' :: (key ++ [':'])) ++ ((' ' :: c :: v) ++
    '\x7d' :: R)) from by simp]
  rw [findFrag_skip hx, h1, group1Of_ws_val hc v]
  simp

theorem fragsText_cons_shape (k v : List Char)
    (rest : List (List Char × List Char)) :
    fragsText ((k, v) :: rest) =
      [' ', ' '] ++ (('\x7b' :: (k ++ [':'])) ++ ((' ' :: v) ++
        '\x7d' :: fragsText rest)) := by
  simp [fragsText, s2]

theorem rawTitleOf_frags (t : Topic) :
    rawTitleOf t = t.title ++ fragsText (metaPairs t) := by
  obtain ⟨i, ti, ch, no, la, li, ma⟩ := t
  unfold rawTitleOf metaPairs inline_meta_parts
  by_cases hla : la = [] <;> by_cases hli : li = [] <;> by_cases hma : ma = [] <;>
    simp [hla, hli, hma, fragsText, intercalate_two, intercalate_one, s2,
      Topic.title, Topic.labels, Topic.link, Topic.markers]

theorem findFrag_frags_head (key x : List Char) (hx : '\x7b' ∉ x) {c : Char}
    {v' : List Char} (hc : ¬ isWs c) (hvb : '\x7d' ∉ c :: v')
    (rest : List (List Char × List Char)) :
    findFrag key (x ++ fragsText ((key, c :: v') :: rest)) =
      some (x ++ [' ', ' '], c :: v', fragsText rest) := by
  rw [fragsText_cons_shape]
  rw [show x ++ ([' ', ' '] ++ (('\x7b' :: (key ++ [':'])) ++ ((' ' :: c :: v') ++
      '\x7d' :: fragsText rest))) =
    (x ++ [' ', ' ']) ++ ('\x7b' :: (key ++ [':'])) ++ (' ' :: c :: v') ++
      '\x7d' :: fragsText rest from by simp]
  exact findFrag_found_at (by
    intro hmem
    rcases List.mem_append.mp hmem with h | h
    · exact hx h
    · simp at h) hc hvb (fragsText rest)

theorem findFrag_frags_none (key : List Char) :
    ∀ (ps : List (List Char × List Char)), ∀ x : List Char, '\x7b' ∉ x →
      (∀ kv ∈ ps, '\x7b' ∉ kv.1 ∧ '\x7b' ∉ kv.2 ∧
        ∀ R, ¬ (('\x7b' :: (key ++ [':'])).isPrefixOf
          ('\x7b' :: (kv.1 ++ ':' :: ' ' :: (kv.2 ++ '\x7d' :: R))) = true)) →
      findFrag key (x ++ fragsText ps) = none := by
  intro ps
  induction ps with
  | nil =>
    intro x hx _
    rw [show fragsText [] = [] from rfl, List.append_nil]
    exact findFrag_nobrace hx
  | cons kv rest ih =>
    intro x hx hall
    obtain ⟨k, v⟩ := kv
    obtain ⟨hk1, hv1, hnp⟩ := hall (k, v) (by simp)
    rw [fragsText_cons_shape]
    rw [show x ++ ([' ', ' '] ++ (('\x7b' :: (k ++ [':'])) ++ ((' ' :: v) ++
        '\x7d' :: fragsText rest))) =
      (x ++ [' ', ' ']) ++ ('\x7b' :: ((k ++ ':' :: ' ' :: (v ++ ['\x7d'])) ++
        fragsText rest)) from by simp]
    rw [findFrag_skip (by
      intro hmem
      rcases List.mem_append.mp hmem with h | h
      · exact hx h
      · simp at h)]
    rw [show ('\x7b' :: ((k ++ ':' :: ' ' :: (v ++ ['\x7d'])) ++ fragsText rest) :
      List Char) = '\x7b' :: (k ++ ':' :: ' ' :: (v ++ ['\x7d'])) ++
      fragsText rest from by simp]
    rw [findFrag_skip_chunk (fragsText rest) (by
      have := hnp (fragsText rest)
      intro hp
      apply this
      have h2 : (k ++ ':' :: ' ' :: (v ++ ['\x7d'])) ++ fragsText rest =
          k ++ ':' :: ' ' :: (v ++ '\x7d' :: fragsText rest) := by simp
      rw [h2] at hp
      exact hp) (by
      intro hmem
      simp only [List.mem_append, List.mem_cons] at hmem
      rcases hmem with h | h | h | h
      · exact hk1 h
      · exact absurd h.symm (by decide)
      · exact absurd h.symm (by decide)
      · rcases h with h2 | h2 | h2
        · exact hv1 h2
        · exact absurd h2 (by decide)
        · simp at h2)]
    have hrest : findFrag key (fragsText rest) = none := by
      have h3 := ih [] (by simp) (fun kv2 h2 => hall kv2 (by simp [h2]))
      simpa using h3
    rw [hrest]
    rfl

theorem mdVal_facts {v : List Char} (h : mdValOk v = true) :
    v ≠ [] ∧ stripPy v = v ∧ '\n' ∉ v ∧ '\x7b' ∉ v ∧ '\x7d' ∉ v := by
  simp only [mdValOk, Bool.and_eq_true, Bool.not_eq_true', decide_eq_true_eq,
    decide_eq_false_iff_not] at h
  obtain ⟨⟨⟨⟨h1, h2⟩, h3⟩, h4⟩, h5⟩ := h
  exact ⟨by simpa [List.isEmpty_iff] using h1, h2, h3, h4, h5⟩

theorem mdList_inter_facts {la : List (List Char)} (hne : la ≠ [])
    (hall : la.all mdListValOk = true) :
    ∃ c v', List.intercalate (s2 ", ") la = c :: v' ∧ ¬ isWs c ∧
      '\x7b' ∉ (c :: v') ∧ '\x7d' ∉ (c :: v') ∧
      stripPy (c :: v') = c :: v' ∧ clean_list_vals (c :: v') = la := by
  have hfacts : ∀ v ∈ la, mdListValOk v = true := List.all_eq_true.mp hall
  have hvfacts : ∀ v ∈ la, v ≠ [] ∧ stripPy v = v := by
    intro v hv
    have := hfacts v hv
    simp only [mdListValOk, Bool.and_eq_true] at this
    have h2 := mdVal_facts this.1
    exact ⟨h2.1, h2.2.1⟩
  have hinv := intercalate_strip_inv hne hvfacts
  have hIne : List.intercalate (s2 ", ") la ≠ [] := by
    match la, hne with
    | v :: r, _ => exact intercalate_ne_nil (hvfacts v (by simp)).1
  obtain ⟨c, v', hI⟩ : ∃ c v', List.intercalate (s2 ", ") la = c :: v' := by
    match hI2 : List.intercalate (s2 ", ") la, hIne with
    | c :: v', _ => exact ⟨c, v', rfl⟩
  have hclean := clean_vals_intercalate hne hfacts
  rw [hI] at hinv hclean
  refine ⟨c, v', hI, strip_inv_head hinv, ?_, ?_, hinv, hclean⟩
  · intro hmem
    rw [← hI] at hmem
    rcases mem_intercalate hmem with ⟨l, hl, hc⟩ | hs
    · have := mdVal_facts (by
        have := hfacts l hl
        simp only [mdListValOk, Bool.and_eq_true] at this
        exact this.1)
      exact this.2.2.2.1 hc
    · simp [s2] at hs
  · intro hmem
    rw [← hI] at hmem
    rcases mem_intercalate hmem with ⟨l, hl, hc⟩ | hs
    · have := mdVal_facts (by
        have := hfacts l hl
        simp only [mdListValOk, Bool.and_eq_true] at this
        exact this.1)
      exact this.2.2.2.2 hc
    · simp [s2] at hs

theorem titleLineOf_shape (d : Nat) (t : Topic) :
    titleLineOf d t = indentOf d ++ '-' :: ' ' :: rawTitleOf t := by
  unfold titleLineOf rawTitleOf
  by_cases h : inline_meta_parts t ≠ [] <;> simp [h, s2]

theorem parse_title_meta_raw (t : Topic) (hwf : wfTopicMd t = true) :
    parse_title_meta (rawTitleOf t) =
      Topic.mk genId t.title [] [] t.labels t.link t.markers := by
  obtain ⟨i, ti, ch, no, la, li, ma⟩ := t
  simp only [wfTopicMd, Bool.and_eq_true] at hwf
  obtain ⟨⟨⟨⟨⟨hti, hla2⟩, hma2⟩, hli2⟩, _⟩, _⟩ := hwf
  obtain ⟨htine, htinv, _, htib, _⟩ := mdVal_facts hti
  rw [rawTitleOf_frags]
  simp only [metaPairs, Topic.title, Topic.labels, Topic.link, Topic.markers]
  have hsp2 : ∀ x : List Char, '\x7b' ∉ x → '\x7b' ∉ x ++ [' ', ' '] := by
    intro x hx hmem
    rcases List.mem_append.mp hmem with h | h
    · exact hx h
    · simp at h
  by_cases hla : la = []
  · by_cases hli : li = []
    · by_cases hma : ma = []
      · simp only [hla, hli, hma, ne_eq, not_true_eq_false, if_false,
          List.nil_append, List.append_nil]
        have e1 : findFrag (s2 "labels") (ti ++ fragsText []) = none :=
          findFrag_frags_none _ [] ti htib (by simp)
        have e2 : findFrag (s2 "link") (ti ++ fragsText []) = none :=
          findFrag_frags_none _ [] ti htib (by simp)
        have e3 : findFrag (s2 "markers") (ti ++ fragsText []) = none :=
          findFrag_frags_none _ [] ti htib (by simp)
        simp only [parse_title_meta, e1, e2, e3]
        rw [show ti ++ fragsText [] = ti from by simp [fragsText]]
        rw [htinv]
      · obtain ⟨cM, vM, hIM, hcM, hbM, hbM2, hsM, hcleanM⟩ :=
          mdList_inter_facts hma hma2
        simp only [hla, hli, ne_eq, not_true_eq_false, if_false, hma,
          not_false_eq_true, if_true, List.nil_append, hIM]
        have e1 : findFrag (s2 "labels")
            (ti ++ fragsText [(s2 "markers", cM :: vM)]) = none :=
          findFrag_frags_none _ _ ti htib (by
            intro kv hkv
            simp only [List.mem_cons, List.not_mem_nil, or_false] at hkv
            subst hkv
            refine ⟨by simp [s2], hbM, ?_⟩
            intro R
            simp [s2, List.isPrefixOf, List.cons_prefix_cons])
        have e2 : findFrag (s2 "link")
            (ti ++ fragsText [(s2 "markers", cM :: vM)]) = none :=
          findFrag_frags_none _ _ ti htib (by
            intro kv hkv
            simp only [List.mem_cons, List.not_mem_nil, or_false] at hkv
            subst hkv
            refine ⟨by simp [s2], hbM, ?_⟩
            intro R
            simp [s2, List.isPrefixOf, List.cons_prefix_cons])
        have e3 : findFrag (s2 "markers")
            (ti ++ fragsText [(s2 "markers", cM :: vM)]) =
            some (ti ++ [' ', ' '], cM :: vM, fragsText []) :=
          findFrag_frags_head _ _ htib hcM hbM2 []
        simp only [parse_title_meta, e1, e2, e3, hsM, hcleanM]
        simp only [show fragsText ([] : List (List Char × List Char)) = []
          from rfl, List.append_nil, List.append_assoc]
        rw [stripPy_append_ws (by decide), htinv]
    · obtain ⟨hKne, hKok⟩ : li ≠ [] ∧ mdValOk li = true := by
        have h2 : li.isEmpty = true ∨ mdValOk li = true := by simpa using hli2
        rcases h2 with h | h
        · exact absurd (List.isEmpty_iff.mp h) hli
        · exact ⟨hli, h⟩
      obtain ⟨_, hKinv, _, hKb, hKb2⟩ := mdVal_facts hKok
      obtain ⟨cK, vK, hKeq⟩ : ∃ c v', li = c :: v' := by
        match li, hKne with | c :: v', _ => exact ⟨c, v', rfl⟩
      have hcK : ¬ isWs cK := strip_inv_head (hKeq ▸ hKinv)
      have hKb2' : '\x7d' ∉ cK :: vK := hKeq ▸ hKb2
      by_cases hma : ma = []
      · simp only [hla, hma, ne_eq, not_true_eq_false, if_false, hli,
          not_false_eq_true, if_true, List.nil_append, List.append_nil]
        rw [hKeq]
        have e1 : findFrag (s2 "labels")
            (ti ++ fragsText [(s2 "link", cK :: vK)]) = none :=
          findFrag_frags_none _ _ ti htib (by
            intro kv hkv
            simp only [List.mem_cons, List.not_mem_nil, or_false] at hkv
            subst hkv
            refine ⟨by simp [s2], hKeq ▸ hKb, ?_⟩
            intro R
            simp [s2, List.isPrefixOf, List.cons_prefix_cons])
        have e2 : findFrag (s2 "link")
            (ti ++ fragsText [(s2 "link", cK :: vK)]) =
            some (ti ++ [' ', ' '], cK :: vK, fragsText []) :=
          findFrag_frags_head _ _ htib hcK hKb2' []
        have e3 : findFrag (s2 "markers")
            ((ti ++ [' ', ' ']) ++ fragsText []) = none :=
          findFrag_frags_none _ [] _ (hsp2 ti htib) (by simp)
        simp only [parse_title_meta, e1, e2, e3, hKeq ▸ hKinv]
        simp only [show fragsText ([] : List (List Char × List Char)) = []
          from rfl, List.append_nil, List.append_assoc]
        rw [stripPy_append_ws (by decide), htinv]
      · obtain ⟨cM, vM, hIM, hcM, hbM, hbM2, hsM, hcleanM⟩ :=
          mdList_inter_facts hma hma2
        simp only [hla, ne_eq, not_true_eq_false, if_false, hli, hma,
          not_false_eq_true, if_true, List.nil_append, hIM,
          List.singleton_append]
        rw [hKeq]
        have e1 : findFrag (s2 "labels")
            (ti ++ fragsText [(s2 "link", cK :: vK),
              (s2 "markers", cM :: vM)]) = none :=
          findFrag_frags_none _ _ ti htib (by
            intro kv hkv
            simp only [List.mem_cons, List.not_mem_nil, or_false] at hkv
            rcases hkv with hkv | hkv <;> subst hkv
            · refine ⟨by simp [s2], hKeq ▸ hKb, ?_⟩
              intro R
              simp [s2, List.isPrefixOf]
            · refine ⟨by simp [s2], hbM, ?_⟩
              intro R
              simp [s2, List.isPrefixOf, List.cons_prefix_cons])
        have e2 : findFrag (s2 "link")
            (ti ++ fragsText [(s2 "link", cK :: vK),
              (s2 "markers", cM :: vM)]) =
            some (ti ++ [' ', ' '], cK :: vK,
              fragsText [(s2 "markers", cM :: vM)]) :=
          findFrag_frags_head _ _ htib hcK hKb2' _
        have e3 : findFrag (s2 "markers")
            ((ti ++ [' ', ' ']) ++ fragsText [(s2 "markers", cM :: vM)]) =
            some ((ti ++ [' ', ' ']) ++ [' ', ' '], cM :: vM, fragsText []) :=
          findFrag_frags_head _ _ (hsp2 ti htib) hcM hbM2 []
        simp only [parse_title_meta, e1, e2, e3, hKeq ▸ hKinv, hsM, hcleanM]
        simp only [show fragsText ([] : List (List Char × List Char)) = []
          from rfl, List.append_nil, List.append_assoc]
        rw [stripPy_append_ws (by decide), htinv]
  · obtain ⟨cL, vL, hIL, hcL, hbL, hbL2, hsL, hcleanL⟩ :=
      mdList_inter_facts hla hla2
    by_cases hli : li = []
    · by_cases hma : ma = []
      · simp only [hla, hli, hma, ne_eq, not_true_eq_false, if_false,
          not_false_eq_true, if_true, List.append_nil, hIL]
        have e1 : findFrag (s2 "labels")
            (ti ++ fragsText [(s2 "labels", cL :: vL)]) =
            some (ti ++ [' ', ' '], cL :: vL, fragsText []) :=
          findFrag_frags_head _ _ htib hcL hbL2 []
        have e2 : findFrag (s2 "link")
            ((ti ++ [' ', ' ']) ++ fragsText []) = none :=
          findFrag_frags_none _ [] _ (hsp2 ti htib) (by simp)
        have e3 : findFrag (s2 "markers")
            ((ti ++ [' ', ' ']) ++ fragsText []) = none :=
          findFrag_frags_none _ [] _ (hsp2 ti htib) (by simp)
        simp only [parse_title_meta, e1, e2, e3, hsL, hcleanL]
        simp only [show fragsText ([] : List (List Char × List Char)) = []
          from rfl, List.append_nil, List.append_assoc]
        rw [stripPy_append_ws (by decide), htinv]
      · obtain ⟨cM, vM, hIM, hcM, hbM, hbM2, hsM, hcleanM⟩ :=
          mdList_inter_facts hma hma2
        simp only [hla, hli, hma, ne_eq, not_true_eq_false, if_false,
          not_false_eq_true, if_true, List.nil_append, hIL, hIM,
          List.singleton_append]
        have e1 : findFrag (s2 "labels")
            (ti ++ fragsText [(s2 "labels", cL :: vL),
              (s2 "markers", cM :: vM)]) =
            some (ti ++ [' ', ' '], cL :: vL,
              fragsText [(s2 "markers", cM :: vM)]) :=
          findFrag_frags_head _ _ htib hcL hbL2 _
        have e2 : findFrag (s2 "link")
            ((ti ++ [' ', ' ']) ++ fragsText [(s2 "markers", cM :: vM)]) =
            none :=
          findFrag_frags_none _ _ _ (hsp2 ti htib) (by
            intro kv hkv
            simp only [List.mem_cons, List.not_mem_nil, or_false] at hkv
            subst hkv
            refine ⟨by simp [s2], hbM, ?_⟩
            intro R
            simp [s2, List.isPrefixOf, List.cons_prefix_cons])
        have e3 : findFrag (s2 "markers")
            ((ti ++ [' ', ' ']) ++ fragsText [(s2 "markers", cM :: vM)]) =
            some ((ti ++ [' ', ' ']) ++ [' ', ' '], cM :: vM, fragsText []) :=
          findFrag_frags_head _ _ (hsp2 ti htib) hcM hbM2 []
        simp only [parse_title_meta, e1, e2, e3, hsL, hcleanL, hsM, hcleanM]
        simp only [show fragsText ([] : List (List Char × List Char)) = []
          from rfl, List.append_nil, List.append_assoc]
        rw [stripPy_append_ws (by decide), htinv]
    · obtain ⟨hKne, hKok⟩ : li ≠ [] ∧ mdValOk li = true := by
        have h2 : li.isEmpty = true ∨ mdValOk li = true := by simpa using hli2
        rcases h2 with h | h
        · exact absurd (List.isEmpty_iff.mp h) hli
        · exact ⟨hli, h⟩
      obtain ⟨_, hKinv, _, hKb, hKb2⟩ := mdVal_facts hKok
      obtain ⟨cK, vK, hKeq⟩ : ∃ c v', li = c :: v' := by
        match li, hKne with | c :: v', _ => exact ⟨c, v', rfl⟩
      have hcK : ¬ isWs cK := strip_inv_head (hKeq ▸ hKinv)
      have hKb2' : '\x7d' ∉ cK :: vK := hKeq ▸ hKb2
      by_cases hma : ma = []
      · simp only [hla, hli, hma, ne_eq, not_true_eq_false, if_false,
          not_false_eq_true, if_true, List.append_nil, hIL,
          List.singleton_append]
        rw [hKeq]
        have e1 : findFrag (s2 "labels")
            (ti ++ fragsText [(s2 "labels", cL :: vL),
              (s2 "link", cK :: vK)]) =
            some (ti ++ [' ', ' '], cL :: vL,
              fragsText [(s2 "link", cK :: vK)]) :=
          findFrag_frags_head _ _ htib hcL hbL2 _
        have e2 : findFrag (s2 "link")
            ((ti ++ [' ', ' ']) ++ fragsText [(s2 "link", cK :: vK)]) =
            some ((ti ++ [' ', ' ']) ++ [' ', ' '], cK :: vK, fragsText []) :=
          findFrag_frags_head _ _ (hsp2 ti htib) hcK hKb2' []
        have e3 : findFrag (s2 "markers")
            (((ti ++ [' ', ' ']) ++ [' ', ' ']) ++ fragsText []) = none :=
          findFrag_frags_none _ [] _ (hsp2 _ (hsp2 ti htib)) (by simp)
        simp only [parse_title_meta, e1, e2, e3, hsL, hcleanL, hKeq ▸ hKinv]
        simp only [show fragsText ([] : List (List Char × List Char)) = []
          from rfl, List.append_nil, List.append_assoc]
        rw [stripPy_append_ws (by decide), htinv]
      · obtain ⟨cM, vM, hIM, hcM, hbM, hbM2, hsM, hcleanM⟩ :=
          mdList_inter_facts hma hma2
        simp only [hla, hli, hma, ne_eq, not_true_eq_false, if_false,
          not_false_eq_true, if_true, hIL, hIM, List.singleton_append,
          List.cons_append, List.nil_append]
        rw [hKeq]
        have e1 : findFrag (s2 "labels")
            (ti ++ fragsText [(s2 "labels", cL :: vL), (s2 "link", cK :: vK),
              (s2 "markers", cM :: vM)]) =
            some (ti ++ [' ', ' '], cL :: vL,
              fragsText [(s2 "link", cK :: vK), (s2 "markers", cM :: vM)]) :=
          findFrag_frags_head _ _ htib hcL hbL2 _
        have e2 : findFrag (s2 "link")
            ((ti ++ [' ', ' ']) ++ fragsText [(s2 "link", cK :: vK),
              (s2 "markers", cM :: vM)]) =
            some ((ti ++ [' ', ' ']) ++ [' ', ' '], cK :: vK,
              fragsText [(s2 "markers", cM :: vM)]) :=
          findFrag_frags_head _ _ (hsp2 ti htib) hcK hKb2' _
        have e3 : findFrag (s2 "markers")
            (((ti ++ [' ', ' ']) ++ [' ', ' ']) ++
              fragsText [(s2 "markers", cM :: vM)]) =
            some (((ti ++ [' ', ' ']) ++ [' ', ' ']) ++ [' ', ' '], cM :: vM,
              fragsText []) :=
          findFrag_frags_head _ _ (hsp2 _ (hsp2 ti htib)) hcM hbM2 []
        simp only [parse_title_meta, e1, e2, e3, hsL, hcleanL, hsM, hcleanM,
          hKeq ▸ hKinv]
        simp only [show fragsText ([] : List (List Char × List Char)) = []
          from rfl, List.append_nil, List.append_assoc]
        rw [stripPy_append_ws (by decide), htinv]

theorem matchBulletStart_quote_none {w : List Char} (hw : ∀ c ∈ w, isWs c)
    (t : List Char) : matchBulletStart (w ++ '>' :: t) = none := by
  have h1 := takeWhile_ws_append (p := isWs) hw (d := '>') (by decide) t
  simp [matchBulletStart, h1, List.drop_left, s2, List.isPrefixOf]

theorem matchBulletStart_inv {l : List Char} {n : Nat}
    (h : matchBulletStart l = some n) :
    n = (l.takeWhile isWs).length ∧
    (s2 "- ").isPrefixOf (l.drop (l.takeWhile isWs).length) = true := by
  unfold matchBulletStart at h
  by_cases hp : (s2 "- ").isPrefixOf (l.drop (l.takeWhile isWs).length)
  · rw [if_pos hp] at h
    simp only [Option.some.injEq] at h
    exact ⟨h.symm, hp⟩
  · rw [if_neg hp] at h
    simp at h

theorem matchBulletStart_nonblank {l : List Char} {n : Nat}
    (h : matchBulletStart l = some n) : (stripPy l).isEmpty = false := by
  obtain ⟨hn, hp⟩ := matchBulletStart_inv h
  have hdw := drop_takeWhile_length isWs l
  rw [hdw] at hp
  obtain ⟨u, hu⟩ := List.isPrefixOf_iff_prefix.mp hp
  have hl : l = l.takeWhile isWs ++ ('-' :: ' ' :: u) := by
    conv_lhs => rw [← List.takeWhile_append_dropWhile (p := isWs) (l := l)]
    rw [← hu]
    simp [s2]
  rw [hl]
  exact strip_nonblank (fun c hc => List.mem_takeWhile_imp hc) (by decide) _

theorem indentOf_ws (d : Nat) : ∀ c ∈ indentOf d, isWs c := by
  intro c hc
  have := List.eq_of_mem_replicate hc
  simp [this, isWs]

theorem lineShape_mono {d d' : Nat} (h : d ≤ d') {L : List Char}
    (hs : lineShape d' L) : lineShape d L := by
  obtain ⟨hnb, hcase⟩ := hs
  refine ⟨hnb, ?_⟩
  rcases hcase with ⟨n, hn, hle⟩ | ⟨hnone, b, c, hq, hle⟩
  · exact Or.inl ⟨n, hn, by omega⟩
  · exact Or.inr ⟨hnone, b, c, hq, by omega⟩

theorem titleLine_bullet {t : Topic} (hne : rawTitleOf t ≠ []) (d : Nat) :
    matchBullet (titleLineOf d t) = some (2 * d, rawTitleOf t) := by
  rw [titleLineOf_shape]
  have := matchBullet_encode (w := indentOf d) (indentOf_ws d) hne
  rw [this]
  simp [indentOf]

theorem titleLine_bullet_start (t : Topic) (d : Nat) :
    matchBulletStart (titleLineOf d t) = some (2 * d) := by
  rw [titleLineOf_shape]
  rw [matchBulletStart_encode (indentOf_ws d) (rawTitleOf t)]
  simp [indentOf]

theorem noteLine_eq (d : Nat) (nl : List Char) :
    indentOf d ++ s2 "  > " ++ nl =
      (indentOf d ++ [' ', ' ']) ++ '>' :: ' ' :: nl := by
  simp [s2]

theorem noteLine_pad_ws (d : Nat) : ∀ c ∈ indentOf d ++ [' ', ' '], isWs c := by
  intro c hc
  rcases List.mem_append.mp hc with h | h
  · exact indentOf_ws d c h
  · simp only [List.mem_cons, List.not_mem_nil, or_false] at h
    rcases h with h | h <;> simp [h, isWs]

theorem noteLine_pad_len (d : Nat) : (indentOf d ++ [' ', ' ']).length =
    2 * d + 2 := by
  simp [indentOf]

theorem topic_lines_shape :
    ∀ t : Topic, wfTopicMd t = true → ∀ d, ∀ L ∈ topic_to_md_lines d t,
      lineShape d L := by
  refine topic_ind
    (fun t => wfTopicMd t = true → ∀ d, ∀ L ∈ topic_to_md_lines d t,
      lineShape d L)
    (fun l => wfTopicsMd l = true → ∀ d, ∀ L ∈ topics_to_md_lines d l,
      lineShape d L) ?mk ?nil ?cons
  case mk =>
    intro i ti ch no la li ma ih hwf d L hL
    simp only [wfTopicMd, Bool.and_eq_true] at hwf
    obtain ⟨⟨⟨⟨⟨hti, _⟩, _⟩, _⟩, _⟩, hch⟩ := hwf
    obtain ⟨htine, htinv, _, _, _⟩ := mdVal_facts hti
    have hrawne : rawTitleOf (Topic.mk i ti ch no la li ma) ≠ [] := by
      unfold rawTitleOf
      simp only [Topic.title]
      intro hcontra
      exact htine (List.append_eq_nil.mp hcontra).1
    rw [topic_to_md_lines] at hL
    simp only [List.mem_append, List.mem_singleton, List.mem_cons,
      List.not_mem_nil, or_false] at hL
    rcases hL with (hL | hL) | hL
    · subst hL
      refine ⟨?_, Or.inl ⟨2 * d, titleLine_bullet_start _ d, le_refl _⟩⟩
      rw [titleLineOf_shape]
      obtain ⟨c0, r0, hr0⟩ : ∃ c0 r0, rawTitleOf (Topic.mk i ti ch no la li
          ma) = c0 :: r0 := by
        match hx : rawTitleOf (Topic.mk i ti ch no la li ma), hrawne with
        | c0 :: r0, _ => exact ⟨c0, r0, rfl⟩
      rw [hr0]
      rw [show indentOf d ++ '-' :: ' ' :: c0 :: r0 =
        indentOf d ++ '-' :: (' ' :: c0 :: r0) from rfl]
      exact strip_nonblank (indentOf_ws d) (by decide) _
    · by_cases hno : no ≠ []
      · rw [if_pos hno] at hL
        obtain ⟨nl, _, hnl⟩ := List.mem_map.mp hL
        subst hnl
        rw [noteLine_eq]
        refine ⟨strip_nonblank (noteLine_pad_ws d) (by decide) _, Or.inr
          ⟨matchBulletStart_quote_none (noteLine_pad_ws d) _,
           2 * d + 2, nl, ?_, le_refl _⟩⟩
        have := matchQuote_encode (noteLine_pad_ws d) nl
        rw [this, noteLine_pad_len]
      · rw [if_neg hno] at hL
        simp at hL
    · exact lineShape_mono (Nat.le_succ d) (ih hch (d + 1) L hL)
  case nil =>
    intro _ d L hL
    simp [topics_to_md_lines] at hL
  case cons =>
    intro t ts ih1 ih2 hwf d L hL
    simp only [wfTopicsMd, Bool.and_eq_true] at hwf
    rw [topics_to_md_lines] at hL
    rcases List.mem_append.mp hL with h | h
    · exact ih1 hwf.1 d L h
    · exact ih2 hwf.2 d L h

theorem topics_lines_shape (l : List Topic) (hwf : wfTopicsMd l = true)
    (d : Nat) : ∀ L ∈ topics_to_md_lines d l, lineShape d L := by
  induction l with
  | nil => intro L hL; simp [topics_to_md_lines] at hL
  | cons t ts ih =>
    simp only [wfTopicsMd, Bool.and_eq_true] at hwf
    intro L hL
    rw [topics_to_md_lines] at hL
    rcases List.mem_append.mp hL with h | h
    · exact topic_lines_shape t hwf.1 d L h
    · exact ih hwf.2 L h

theorem consume_notes (d : Nat) (L : List (List Char)) :
    ∀ (nls : List (List Char)) (N : List (List Char)),
    consumeItem (2 * d) [] N
      ((nls.map (fun nl => indentOf d ++ s2 "  > " ++ nl)) ++ L) =
    consumeItem (2 * d) [] (N ++ nls) L := by
  intro nls
  induction nls with
  | nil => intro N; simp
  | cons nl nls' ih =>
    intro N
    simp only [List.map_cons, List.cons_append]
    rw [consumeItem]
    rw [noteLine_eq]
    rw [if_neg (by
      rw [strip_nonblank (noteLine_pad_ws d) (by decide)]
      simp)]
    have hq := matchQuote_encode (noteLine_pad_ws d) nl
    rw [noteLine_pad_len] at hq
    simp only [matchBulletStart_quote_none (noteLine_pad_ws d), hq,
      eq_self_iff_true, and_self, if_true]
    rw [ih (N ++ [nl])]
    simp

theorem consume_children (d : Nat) :
    ∀ (ls : List (List Char)), (∀ L ∈ ls, lineShape (d + 1) L) →
    ∀ (A N rest : List (List Char)),
    consumeItem (2 * d) A N (ls ++ rest) =
      consumeItem (2 * d) (A ++ ls) N rest := by
  intro ls
  induction ls with
  | nil => intro _ A N rest; simp
  | cons L ls' ih =>
    intro hls A N rest
    obtain ⟨hnb, hcase⟩ := hls L (by simp)
    simp only [List.cons_append]
    rw [consumeItem]
    rw [if_neg (by rw [hnb]; simp)]
    rcases hcase with ⟨n, hn, hle⟩ | ⟨hnone, b, c, hq, hle⟩
    · simp only [hn]
      rw [if_pos (by omega)]
      rw [ih (fun x hx => hls x (by simp [hx])) (A ++ [L])]
      simp
    · simp only [hnone, hq]
      rw [if_neg (by rintro ⟨_, hb2⟩; omega)]
      rw [if_pos (by omega)]
      rw [ih (fun x hx => hls x (by simp [hx])) (A ++ [L])]
      simp

theorem consume_stop (cur : Nat) (A N : List (List Char)) :
    ∀ rest : List (List Char),
    (rest = [] ∨ ∃ l r n, rest = l :: r ∧ matchBulletStart l = some n ∧
      n ≤ cur) →
    consumeItem cur A N rest = (A, N, rest) := by
  intro rest hrest
  rcases hrest with rfl | ⟨l, r, n, rfl, hb, hle⟩
  · rw [consumeItem]
  · rw [consumeItem]
    rw [if_neg (by rw [matchBulletStart_nonblank hb]; simp)]
    simp only [hb]
    rw [if_neg (by omega)]

theorem notes_splitlines {no : List Char} (h : notesOk no = true)
    (hne : no ≠ []) : splitlinesPy no = splitNl no := by
  simp only [notesOk, Bool.and_eq_true, Bool.not_eq_true',
    decide_eq_false_iff_not] at h
  unfold splitlinesPy
  rw [if_neg hne, if_neg h.1.2]

theorem splitlinesPy_ne_nil {no : List Char} (h : notesOk no = true)
    (hne : no ≠ []) : splitlinesPy no ≠ [] := by
  rw [notes_splitlines h hne]
  exact splitNl_ne_nil no

theorem notes_rejoin {no : List Char} (h : notesOk no = true)
    (hne : no ≠ []) :
    List.intercalate (s2 "\n") (splitlinesPy no) = no := by
  rw [notes_splitlines h hne]
  exact intercalate_splitNl no

theorem rawTitleOf_ne_nil {t : Topic} (h : t.title ≠ []) :
    rawTitleOf t ≠ [] := by
  unfold rawTitleOf
  intro hc
  exact h (List.append_eq_nil.mp hc).1

theorem topic_lines_cons (d : Nat) (i ti : List Char) (ch : List Topic)
    (no : List Char) (la : List (List Char)) (li : List Char)
    (ma : List (List Char)) :
    topic_to_md_lines d (Topic.mk i ti ch no la li ma) =
      titleLineOf d (Topic.mk i ti ch no la li ma) ::
        ((if no ≠ [] then
            (splitlinesPy no).map (fun nl => indentOf d ++ s2 "  > " ++ nl)
          else []) ++ topics_to_md_lines (d + 1) ch) := by
  rw [topic_to_md_lines]
  simp only [List.cons_append, List.nil_append, List.append_assoc]

theorem topics_lines_ne_nil (d : Nat) (t : Topic) (ts : List Topic) :
    topics_to_md_lines d (t :: ts) ≠ [] := by
  rw [topics_to_md_lines]
  obtain ⟨i, ti, ch, no, la, li, ma⟩ := t
  rw [topic_lines_cons]
  simp

theorem parse_item_step_roundtrip :
    ∀ t : Topic, wfTopicMd t = true → ∀ (d : Nat) (S : List (List Char)),
      (S = [] ∨ ∃ l r n, S = l :: r ∧ matchBulletStart l = some n ∧
        n ≤ 2 * d) →
      parse_md_items (topic_to_md_lines d t ++ S) =
        scrubTopic t :: parse_md_items S := by
  refine topic_ind
    (fun t => wfTopicMd t = true → ∀ (d : Nat) (S : List (List Char)),
      (S = [] ∨ ∃ l r n, S = l :: r ∧ matchBulletStart l = some n ∧
        n ≤ 2 * d) →
      parse_md_items (topic_to_md_lines d t ++ S) =
        scrubTopic t :: parse_md_items S)
    (fun l => wfTopicsMd l = true → ∀ d,
      parse_md_items (topics_to_md_lines d l) = scrubTopics l) ?mk ?nil ?cons
  case mk =>
    intro i ti ch no la li ma ih hwf d S hstop
    have hwf0 := hwf
    simp only [wfTopicMd, Bool.and_eq_true] at hwf
    obtain ⟨⟨⟨⟨⟨hti, hla2⟩, hma2⟩, hli2⟩, hno2⟩, hch2⟩ := hwf
    obtain ⟨htine, _, _, _, _⟩ := mdVal_facts hti
    have hrawne : rawTitleOf (Topic.mk i ti ch no la li ma) ≠ [] :=
      rawTitleOf_ne_nil (by simpa [Topic.title] using htine)
    have hshapes := topics_lines_shape ch hch2 (d + 1)
    have hcons : consumeItem (2 * d) [] []
        (((if no ≠ [] then
            (splitlinesPy no).map (fun nl => indentOf d ++ s2 "  > " ++ nl)
          else []) ++ topics_to_md_lines (d + 1) ch) ++ S) =
        (topics_to_md_lines (d + 1) ch,
         if no ≠ [] then splitlinesPy no else [], S) := by
      by_cases hno : no ≠ []
      · rw [if_pos hno, if_pos hno]
        rw [List.append_assoc]
        rw [consume_notes d (topics_to_md_lines (d + 1) ch ++ S)
          (splitlinesPy no) []]
        rw [List.nil_append]
        rw [consume_children d _ hshapes [] (splitlinesPy no) S]
        rw [List.nil_append]
        exact consume_stop (2 * d) _ _ S hstop
      · rw [if_neg hno, if_neg hno]
        rw [List.nil_append]
        rw [consume_children d _ hshapes [] [] S]
        rw [List.nil_append]
        exact consume_stop (2 * d) _ _ S hstop
    rw [topic_lines_cons, List.cons_append]
    rw [parse_md_items_step _ _ (2 * d)
      (rawTitleOf (Topic.mk i ti ch no la li ma)) _ _ _
      (titleLine_bullet hrawne d) hcons]
    rw [parse_title_meta_raw _ hwf0]
    simp only [Topic.id, Topic.title, Topic.children, Topic.notes,
      Topic.labels, Topic.link, Topic.markers]
    rw [show scrubTopic (Topic.mk i ti ch no la li ma) =
      Topic.mk genId ti (scrubTopics ch) no la li ma from rfl]
    congr 1
    by_cases hch : ch = []
    · subst hch
      rw [show topics_to_md_lines (d + 1) [] = [] from rfl]
      rw [if_neg (by simp)]
      by_cases hno : no ≠ []
      · rw [if_pos hno]
        rw [if_pos (by simpa using splitlinesPy_ne_nil hno2 hno)]
        rw [notes_rejoin hno2 hno]
        rfl
      · rw [if_neg hno, if_neg (by simp)]
        simp only [not_not] at hno
        rw [hno]
        rfl
    · obtain ⟨t2, ts2, rfl⟩ : ∃ t2 ts2, ch = t2 :: ts2 := by
        match ch, hch with | t2 :: ts2, _ => exact ⟨t2, ts2, rfl⟩
      rw [if_pos (by simpa using topics_lines_ne_nil (d + 1) t2 ts2)]
      rw [ih hch2 (d + 1)]
      by_cases hno : no ≠ []
      · rw [if_pos hno]
        rw [if_pos (by simpa using splitlinesPy_ne_nil hno2 hno)]
        rw [notes_rejoin hno2 hno]
      · rw [if_neg hno, if_neg (by simp)]
        simp only [not_not] at hno
        rw [hno]
  case nil =>
    intro _ d
    rw [show topics_to_md_lines d [] = [] from rfl, parse_md_items_nil]
    rfl
  case cons =>
    intro t tl ih1 ih2 hwf d
    simp only [wfTopicsMd, Bool.and_eq_true] at hwf
    rw [show topics_to_md_lines d (t :: tl) =
      topic_to_md_lines d t ++ topics_to_md_lines d tl from rfl]
    have hstop : topics_to_md_lines d tl = [] ∨
        ∃ l r n, topics_to_md_lines d tl = l :: r ∧
          matchBulletStart l = some n ∧ n ≤ 2 * d := by
      match tl with
      | [] => exact Or.inl rfl
      | t2 :: ts2 =>
        obtain ⟨i2, ti2, ch2, no2, la2, li2, ma2⟩ := t2
        have heq : topics_to_md_lines d
            (Topic.mk i2 ti2 ch2 no2 la2 li2 ma2 :: ts2) =
            titleLineOf d (Topic.mk i2 ti2 ch2 no2 la2 li2 ma2) ::
              (((if no2 ≠ [] then (splitlinesPy no2).map
                  (fun nl => indentOf d ++ s2 "  > " ++ nl) else []) ++
                topics_to_md_lines (d + 1) ch2) ++
               topics_to_md_lines d ts2) := by
          rw [show topics_to_md_lines d
            (Topic.mk i2 ti2 ch2 no2 la2 li2 ma2 :: ts2) =
            topic_to_md_lines d (Topic.mk i2 ti2 ch2 no2 la2 li2 ma2) ++
            topics_to_md_lines d ts2 from rfl]
          rw [topic_lines_cons, List.cons_append]
        exact Or.inr ⟨_, _, 2 * d, heq, titleLine_bullet_start _ d,
          le_refl _⟩
    rw [ih1 hwf.1 d _ hstop, ih2 hwf.2 d]
    rfl

theorem parse_items_roundtrip (l : List Topic) (h : wfTopicsMd l = true)
    (d : Nat) : parse_md_items (topics_to_md_lines d l) = scrubTopics l := by
  induction l with
  | nil =>
    rw [show topics_to_md_lines d [] = [] from rfl, parse_md_items_nil]
    rfl
  | cons t tl ih =>
    simp only [wfTopicsMd, Bool.and_eq_true] at h
    rw [show topics_to_md_lines d (t :: tl) =
      topic_to_md_lines d t ++ topics_to_md_lines d tl from rfl]
    have hstop : topics_to_md_lines d tl = [] ∨
        ∃ l2 r n, topics_to_md_lines d tl = l2 :: r ∧
          matchBulletStart l2 = some n ∧ n ≤ 2 * d := by
      match tl with
      | [] => exact Or.inl rfl
      | t2 :: ts2 =>
        obtain ⟨i2, ti2, ch2, no2, la2, li2, ma2⟩ := t2
        have heq : topics_to_md_lines d
            (Topic.mk i2 ti2 ch2 no2 la2 li2 ma2 :: ts2) =
            titleLineOf d (Topic.mk i2 ti2 ch2 no2 la2 li2 ma2) ::
              (((if no2 ≠ [] then (splitlinesPy no2).map
                  (fun nl => indentOf d ++ s2 "  > " ++ nl) else []) ++
                topics_to_md_lines (d + 1) ch2) ++
               topics_to_md_lines d ts2) := by
          rw [show topics_to_md_lines d
            (Topic.mk i2 ti2 ch2 no2 la2 li2 ma2 :: ts2) =
            topic_to_md_lines d (Topic.mk i2 ti2 ch2 no2 la2 li2 ma2) ++
            topics_to_md_lines d ts2 from rfl]
          rw [topic_lines_cons, List.cons_append]
        exact Or.inr ⟨_, _, 2 * d, heq, titleLine_bullet_start _ d,
          le_refl _⟩
    rw [parse_item_step_roundtrip t h.1 d _ hstop, ih h.2]
    rfl

-- psbLoop steps on the encoder's line shapes.

theorem rstripPy_cons_shape (c : Char) (y : List Char) :
    rstripPy (c :: y) = [] ∨ ∃ z, rstripPy (c :: y) = c :: z := by
  unfold rstripPy
  rw [show (c :: y).reverse = y.reverse ++ [c] from by simp]
  rw [List.dropWhile_append]
  by_cases h : ((y.reverse.dropWhile isWs).isEmpty : Bool)
  · rw [if_pos h]
    simp only [List.dropWhile_cons, List.dropWhile_nil]
    by_cases hc : isWs c
    · rw [if_pos hc]
      exact Or.inl rfl
    · rw [if_neg hc]
      exact Or.inr ⟨[], rfl⟩
  · rw [if_neg h]
    rw [List.reverse_append]
    exact Or.inr ⟨(y.reverse.dropWhile isWs).reverse, rfl⟩

theorem strip_quote_head (p : List Char) :
    ∃ z, stripPy (s2 "> " ++ p) = '>' :: z := by
  have hne : stripPy (s2 "> " ++ p) ≠ [] := by
    intro hnil
    have := strip_nonblank (w := []) (by simp) (show ¬ isWs '>' from by decide)
      (' ' :: p)
    rw [show ([] : List Char) ++ '>' :: ' ' :: p = s2 "> " ++ p from by
      simp [s2]] at this
    rw [hnil] at this
    simp at this
  have h1 : stripPy (s2 "> " ++ p) = rstripPy ('>' :: (' ' :: p)) := by
    unfold stripPy
    rw [show s2 "> " ++ p = '>' :: ' ' :: p from by simp [s2]]
    rw [lstripPy_cons_of_not_ws (by decide)]
  rcases rstripPy_cons_shape '>' (' ' :: p) with h | ⟨z, hz⟩
  · rw [h1] at hne
    exact absurd h hne
  · exact ⟨z, h1.trans hz⟩

theorem metaStrip {p : List Char} (hp : p = [] ∨ (stripPy p = p ∧ p ≠ [])) :
    subQuote (stripPy (s2 "> " ++ p)) = p := by
  rcases hp with rfl | ⟨hinv, hne⟩
  · rw [show stripPy (s2 "> " ++ []) = s2 ">" from by decide]
    rfl
  · rw [show s2 "> " ++ p = '>' :: [' '] ++ p from by simp [s2]]
    rw [stripPy_sandwich (by decide) hinv hne]
    show List.dropWhile isWs (' ' :: p) = p
    rw [List.dropWhile_cons, if_pos (by decide)]
    obtain ⟨c, r, rfl⟩ : ∃ c r, p = c :: r := by
      match p, hne with | c :: r, _ => exact ⟨c, r, rfl⟩
    have hc : ¬ isWs c := strip_inv_head hinv
    rw [List.dropWhile_cons, if_neg hc]

theorem psb_blank {st : BState} (h : ¬ st.phase = .body)
    (rest : List (List Char)) :
    psbLoop st ([] :: rest) = psbLoop st rest := by
  rw [psbLoop]
  rw [if_pos (by simp [stripPy, lstripPy, rstripPy])]
  rw [if_neg h]

theorem psb_sheet_heading {st : BState} (h : st.phase = .init) {T : List Char}
    (hT : stripPy T = T) (rest : List (List Char)) :
    psbLoop st ((s2 "# Sheet: " ++ T) :: rest) =
      psbLoop { st with phase := .afterSheet, sheetTitle := T } rest := by
  have hkey : stripPy (s2 "# Sheet: " ++ T) =
      (if T = [] then s2 "# Sheet:" else s2 "# Sheet: " ++ T) := by
    by_cases hTe : T = []
    · rw [if_pos hTe, hTe]
      decide
    · rw [if_neg hTe]
      rw [show s2 "# Sheet: " ++ T = '#' :: (s2 " Sheet: ") ++ T from by
        simp [s2]]
      exact stripPy_sandwich (by decide) hT hTe _
  rw [psbLoop, hkey]
  by_cases hTe : T = []
  · rw [if_pos hTe]
    rw [if_neg (by decide)]
    rw [if_pos (⟨h, by decide⟩ : st.phase = .init ∧
      ((s2 "# Sheet:").isPrefixOf (s2 "# Sheet:")) = true)]
    rw [show stripPy ((s2 "# Sheet:").drop 8) = T from by rw [hTe]; decide]
  · rw [if_neg hTe]
    rw [if_neg (show ¬ ((s2 "# Sheet: " ++ T).isEmpty = true) from by
      simp [s2])]
    rw [if_pos (⟨h, by
      rw [show s2 "# Sheet: " ++ T = s2 "# Sheet:" ++ (' ' :: T) from by
        simp [s2]]
      have h2 := List.prefix_append (s2 "# Sheet:") (' ' :: T)
      simpa using List.isPrefixOf_iff_prefix.mpr h2⟩ : st.phase = .init ∧
      ((s2 "# Sheet:").isPrefixOf (s2 "# Sheet: " ++ T)) = true)]
    rw [show stripPy ((s2 "# Sheet: " ++ T).drop 8) = T from by
      rw [show s2 "# Sheet: " ++ T = s2 "# Sheet:" ++ (' ' :: T) from by
        simp [s2]]
      rw [show ((s2 "# Sheet:" ++ (' ' :: T)).drop 8) = ' ' :: T from by
        rw [show (8 : Nat) = (s2 "# Sheet:").length from by decide]
        exact List.drop_left _ _]
      have h3 := stripPy_ws_append (w := [' ']) (by decide) T
      rw [show ([' '] ++ T : List Char) = ' ' :: T from rfl] at h3
      rw [h3, hT]]

theorem psb_root_heading {st : BState} (h : st.phase = .afterSheet)
    {RT : List Char} (hRT : stripPy RT = RT) (hRTne : RT ≠ [])
    (rest : List (List Char)) :
    psbLoop st ((s2 "## " ++ RT) :: rest) =
      psbLoop { st with phase := .rootMeta, rootTitle := RT } rest := by
  have hkey : stripPy (s2 "## " ++ RT) = s2 "## " ++ RT := by
    rw [show s2 "## " ++ RT = '#' :: (s2 "# ") ++ RT from by simp [s2]]
    exact stripPy_sandwich (by decide) hRT hRTne _
  rw [psbLoop, hkey]
  rw [if_neg (show ¬ ((s2 "## " ++ RT).isEmpty = true) from by simp [s2])]
  rw [if_neg (by
    rintro ⟨hph, _⟩
    rw [h] at hph
    exact absurd hph (by decide))]
  rw [if_pos (⟨Or.inr h, by
    rw [show s2 "## " ++ RT = s2 "## " ++ RT from rfl]
    have h2 := List.prefix_append (s2 "## ") RT
    simpa using List.isPrefixOf_iff_prefix.mpr h2⟩ :
    (st.phase = .init ∨ st.phase = .afterSheet) ∧
    ((s2 "## ").isPrefixOf (s2 "## " ++ RT)) = true)]
  rw [show stripPy ((s2 "## " ++ RT).drop 3) = RT from by
    rw [show ((s2 "## " ++ RT).drop 3) = RT from by
      rw [show (3 : Nat) = (s2 "## ").length from by decide]
      exact List.drop_left _ _]
    exact hRT]

theorem psb_meta_line {st : BState} (h : st.phase = .rootMeta)
    (p : List Char) (rest : List (List Char)) :
    psbLoop st ((s2 "> " ++ p) :: rest) =
      psbLoop { st with rootMeta := st.rootMeta ++
        [stripPy (s2 "> " ++ p)] } rest := by
  obtain ⟨z, hz⟩ := strip_quote_head p
  rw [psbLoop]
  rw [if_neg (by rw [hz]; simp)]
  rw [if_neg (by
    rintro ⟨hph, _⟩
    rw [h] at hph
    exact absurd hph (by decide))]
  rw [if_neg (by
    rintro ⟨hph, _⟩
    rw [h] at hph
    rcases hph with hph | hph <;> exact absurd hph (by decide))]
  rw [if_pos (⟨h, by rw [hz]; simp [s2, List.isPrefixOf]⟩ :
    st.phase = .rootMeta ∧
    ((s2 ">").isPrefixOf (stripPy (s2 "> " ++ p))) = true)]

theorem psb_meta_lines {st : BState} (h : st.phase = .rootMeta)
    (hb : st.phase ≠ .body) :
    ∀ (ps : List (List Char)) (rest : List (List Char)),
    psbLoop st ((ps.map (fun p => s2 "> " ++ p)) ++ rest) =
      psbLoop { st with rootMeta := st.rootMeta ++
        (ps.map (fun p => stripPy (s2 "> " ++ p))) } rest := by
  intro ps
  induction ps generalizing st with
  | nil =>
    intro rest
    simp only [List.map_nil, List.nil_append, List.append_nil]
  | cons p ps' ih =>
    intro rest
    simp only [List.map_cons, List.cons_append]
    rw [psb_meta_line h p]
    rw [@ih { st with rootMeta := st.rootMeta ++
      [stripPy (s2 "> " ++ p)] } h (by simpa using hb)]
    simp

theorem psb_body_phase :
    ∀ (ls : List (List Char)) (p0 : Phase) (a b : List Char)
      (c dd : List (List Char)), p0 = .body →
    psbLoop (BState.mk p0 a b c dd) ls = BState.mk p0 a b c (dd ++ ls) := by
  intro ls
  induction ls with
  | nil => intro p0 a b c dd _; simp [psbLoop]
  | cons l ls' ih =>
    intro p0 a b c dd hp
    subst hp
    rw [psbLoop]
    by_cases hblank : (stripPy l).isEmpty = true
    · rw [if_pos hblank]
      rw [if_pos rfl]
      rw [ih _ _ _ _ _ rfl]
      simp
    · rw [if_neg hblank]
      rw [if_neg (by
        rintro ⟨hph, _⟩
        exact absurd hph (by exact (by decide : ¬ Phase.body = Phase.init)))]
      rw [if_neg (by
        rintro ⟨hph, _⟩
        rcases hph with hph | hph
        · exact absurd hph (by exact (by decide : ¬ Phase.body = Phase.init))
        · exact absurd hph
            (by exact (by decide : ¬ Phase.body = Phase.afterSheet)))]
      rw [if_neg (by
        rintro ⟨hph, _⟩
        exact absurd hph
          (by exact (by decide : ¬ Phase.body = Phase.rootMeta)))]
      rw [ih _ _ _ _ _ rfl]
      simp

theorem psb_body_first {st : BState} (h : st.phase = .rootMeta)
    {L : List Char} {n : Nat} (hbul : matchBulletStart L = some n)
    (hhead : ∃ z, stripPy L = '-' :: z) (rest : List (List Char)) :
    psbLoop st (L :: rest) =
      psbLoop { st with phase := .body, body := st.body ++ [L] } rest := by
  obtain ⟨z, hz⟩ := hhead
  rw [psbLoop]
  rw [if_neg (by rw [matchBulletStart_nonblank hbul]; simp)]
  rw [if_neg (by
    rintro ⟨hph, _⟩
    rw [h] at hph
    exact absurd hph (by decide))]
  rw [if_neg (by
    rintro ⟨hph, _⟩
    rw [h] at hph
    rcases hph with hph | hph <;> exact absurd hph (by decide))]
  rw [if_neg (by
    rintro ⟨_, hpre⟩
    rw [hz] at hpre
    simp [s2, List.isPrefixOf] at hpre)]

-- The metadata block loop on the collected (stripped) quote lines.

theorem payload_strip_inv {c : Char} (hc : ¬ isWs c) (m : List Char)
    {v : List Char} (hv : stripPy v = v) (hvne : v ≠ []) :
    stripPy (c :: m ++ v) = c :: m ++ v ∧ (c :: m ++ v) ≠ [] :=
  ⟨stripPy_sandwich hc hv hvne m, by simp⟩

theorem abm_step_labels {la : List (List Char)} (hla : la ≠ [])
    (hall : la.all mdListValOk = true) (la0 : List (List Char))
    (li0 : List Char) (ma0 np rest : List (List Char)) :
    abmLoop la0 li0 ma0 np (stripPy (s2 "> " ++ (s2 "Labels: " ++
      List.intercalate (s2 ", ") la)) :: rest) =
    abmLoop la li0 ma0 np rest := by
  obtain ⟨cL, vL, hIL, hcL, _, _, hsL, hclean⟩ := mdList_inter_facts hla hall
  have hinv : stripPy (s2 "Labels: " ++ List.intercalate (s2 ", ") la) =
      s2 "Labels: " ++ List.intercalate (s2 ", ") la ∧
      (s2 "Labels: " ++ List.intercalate (s2 ", ") la) ≠ [] := by
    rw [show s2 "Labels: " ++ List.intercalate (s2 ", ") la =
      'L' :: (s2 "abels: ") ++ List.intercalate (s2 ", ") la from by simp [s2]]
    exact payload_strip_inv (by decide) _ (by rw [hIL]; exact hsL)
      (by rw [hIL]; simp)
  have hp := metaStrip (Or.inr hinv)
  rw [abmLoop, hp]
  rw [if_pos (by
    rw [show s2 "Labels: " ++ List.intercalate (s2 ", ") la =
      s2 "Labels:" ++ (' ' :: List.intercalate (s2 ", ") la) from by simp [s2]]
    have h2 := List.prefix_append (s2 "Labels:")
      (' ' :: List.intercalate (s2 ", ") la)
    simpa using List.isPrefixOf_iff_prefix.mpr h2)]
  rw [show ((s2 "Labels: " ++ List.intercalate (s2 ", ") la).drop 7) =
    ' ' :: List.intercalate (s2 ", ") la from by
    rw [show s2 "Labels: " ++ List.intercalate (s2 ", ") la =
      s2 "Labels:" ++ (' ' :: List.intercalate (s2 ", ") la) from by simp [s2]]
    rw [show (7 : Nat) = (s2 "Labels:").length from by decide]
    exact List.drop_left _ _]
  rw [clean_vals_ws_cons, clean_vals_intercalate hla (List.all_eq_true.mp hall)]

theorem abm_step_link {li : List Char} (hli : li ≠ [])
    (hok : mdValOk li = true) (la0 : List (List Char)) (li0 : List Char)
    (ma0 np rest : List (List Char)) :
    abmLoop la0 li0 ma0 np
      (stripPy (s2 "> " ++ (s2 "Link: " ++ li)) :: rest) =
    abmLoop la0 li ma0 np rest := by
  obtain ⟨_, hinv2, _, _, _⟩ := mdVal_facts hok
  have hinv : stripPy (s2 "Link: " ++ li) = s2 "Link: " ++ li ∧
      (s2 "Link: " ++ li) ≠ [] := by
    rw [show s2 "Link: " ++ li = 'L' :: (s2 "ink: ") ++ li from by simp [s2]]
    exact payload_strip_inv (by decide) _ hinv2 hli
  have hp := metaStrip (Or.inr hinv)
  rw [abmLoop, hp]
  rw [if_neg (by
    rw [show s2 "Link: " ++ li = 'L' :: 'i' :: (s2 "nk: " ++ li) from by
      simp [s2]]
    simp [s2, List.isPrefixOf])]
  rw [if_pos (by
    rw [show s2 "Link: " ++ li = s2 "Link:" ++ (' ' :: li) from by simp [s2]]
    have h2 := List.prefix_append (s2 "Link:") (' ' :: li)
    simpa using List.isPrefixOf_iff_prefix.mpr h2)]
  rw [show ((s2 "Link: " ++ li).drop 5) = ' ' :: li from by
    rw [show s2 "Link: " ++ li = s2 "Link:" ++ (' ' :: li) from by simp [s2]]
    rw [show (5 : Nat) = (s2 "Link:").length from by decide]
    exact List.drop_left _ _]
  rw [show stripPy (' ' :: li) = li from by
    have h3 := stripPy_ws_append (w := [' ']) (by decide) li
    rw [show ([' '] ++ li : List Char) = ' ' :: li from rfl] at h3
    rw [h3, hinv2]]

theorem abm_step_markers {ma : List (List Char)} (hma : ma ≠ [])
    (hall : ma.all mdListValOk = true) (la0 : List (List Char))
    (li0 : List Char) (ma0 np rest : List (List Char)) :
    abmLoop la0 li0 ma0 np (stripPy (s2 "> " ++ (s2 "Markers: " ++
      List.intercalate (s2 ", ") ma)) :: rest) =
    abmLoop la0 li0 ma np rest := by
  obtain ⟨cM, vM, hIM, hcM, _, _, hsM, hclean⟩ := mdList_inter_facts hma hall
  have hinv : stripPy (s2 "Markers: " ++ List.intercalate (s2 ", ") ma) =
      s2 "Markers: " ++ List.intercalate (s2 ", ") ma ∧
      (s2 "Markers: " ++ List.intercalate (s2 ", ") ma) ≠ [] := by
    rw [show s2 "Markers: " ++ List.intercalate (s2 ", ") ma =
      'M' :: (s2 "arkers: ") ++ List.intercalate (s2 ", ") ma from by
      simp [s2]]
    exact payload_strip_inv (by decide) _ (by rw [hIM]; exact hsM)
      (by rw [hIM]; simp)
  have hp := metaStrip (Or.inr hinv)
  rw [abmLoop, hp]
  rw [if_neg (by
    rw [show s2 "Markers: " ++ List.intercalate (s2 ", ") ma =
      'M' :: (s2 "arkers: " ++ List.intercalate (s2 ", ") ma) from by
      simp [s2]]
    simp [s2, List.isPrefixOf])]
  rw [if_neg (by
    rw [show s2 "Markers: " ++ List.intercalate (s2 ", ") ma =
      'M' :: (s2 "arkers: " ++ List.intercalate (s2 ", ") ma) from by
      simp [s2]]
    simp [s2, List.isPrefixOf])]
  rw [if_pos (by
    rw [show s2 "Markers: " ++ List.intercalate (s2 ", ") ma =
      s2 "Markers:" ++ (' ' :: List.intercalate (s2 ", ") ma) from by
      simp [s2]]
    have h2 := List.prefix_append (s2 "Markers:")
      (' ' :: List.intercalate (s2 ", ") ma)
    simpa using List.isPrefixOf_iff_prefix.mpr h2)]
  rw [show ((s2 "Markers: " ++ List.intercalate (s2 ", ") ma).drop 8) =
    ' ' :: List.intercalate (s2 ", ") ma from by
    rw [show s2 "Markers: " ++ List.intercalate (s2 ", ") ma =
      s2 "Markers:" ++ (' ' :: List.intercalate (s2 ", ") ma) from by
      simp [s2]]
    rw [show (8 : Nat) = (s2 "Markers:").length from by decide]
    exact List.drop_left _ _]
  rw [clean_vals_ws_cons, clean_vals_intercalate hma (List.all_eq_true.mp hall)]

theorem abm_notes_steps :
    ∀ (pieces : List (List Char)), (∀ p ∈ pieces, noteLineOk p = true) →
    ∀ (la0 : List (List Char)) (li0 : List Char) (ma0 np rest :
      List (List Char)),
    abmLoop la0 li0 ma0 np
      ((pieces.map (fun p => stripPy (s2 "> " ++ p))) ++ rest) =
    abmLoop la0 li0 ma0 (np ++ pieces) rest := by
  intro pieces
  induction pieces with
  | nil => intro _ la0 li0 ma0 np rest; simp
  | cons p ps ih =>
    intro hall la0 li0 ma0 np rest
    have hok := hall p (by simp)
    simp only [noteLineOk, Bool.and_eq_true, Bool.not_eq_true',
      decide_eq_true_eq] at hok
    obtain ⟨⟨⟨hinv, hnl⟩, hnk⟩, hnm⟩ := hok
    have hp : subQuote (stripPy (s2 "> " ++ p)) = p := by
      by_cases hpe : p = []
      · exact metaStrip (Or.inl hpe)
      · exact metaStrip (Or.inr ⟨hinv, hpe⟩)
    simp only [List.map_cons, List.cons_append]
    rw [abmLoop, hp]
    rw [if_neg (by simp [hnl])]
    rw [if_neg (by simp [hnk])]
    rw [if_neg (by simp [hnm])]
    rw [ih (fun x hx => hall x (by simp [hx])) la0 li0 ma0 (np ++ [p]) rest]
    simp

theorem format_meta_lines_payloads (t : Topic) :
    format_meta_block_lines t = (metaPayloads t).map (fun p => s2 "> " ++ p) := by
  obtain ⟨i, ti, ch, no, la, li, ma⟩ := t
  unfold format_meta_block_lines metaPayloads
  by_cases hla : la = [] <;> by_cases hli : li = [] <;>
    by_cases hma : ma = [] <;> by_cases hno : no = [] <;>
    simp [hla, hli, hma, hno, Topic.labels, Topic.link, Topic.markers,
      Topic.notes, s2]

theorem apply_block_meta_mk (tid RT : List Char) (ML : List (List Char)) :
    apply_block_meta (Topic.mk tid RT [] [] [] [] []) ML =
      (match abmLoop [] [] [] [] ML with
       | (l2, k2, m2, np) => Topic.mk tid RT []
           (if np ≠ [] then List.intercalate (s2 "\n") np else []) l2 k2 m2) :=
  rfl

theorem abm_payloads_apply {t : Topic} (hwf : wfTopicMd t = true)
    (tid RT : List Char) :
    apply_block_meta (Topic.mk tid RT [] [] [] [] [])
      ((metaPayloads t).map (fun p => stripPy (s2 "> " ++ p))) =
      Topic.mk tid RT [] t.notes t.labels t.link t.markers := by
  obtain ⟨i, ti, ch, no, la, li, ma⟩ := t
  simp only [wfTopicMd, Bool.and_eq_true] at hwf
  obtain ⟨⟨⟨⟨⟨hti, hla2⟩, hma2⟩, hli2⟩, hno2⟩, _⟩ := hwf
  simp only [metaPayloads, Topic.labels, Topic.link, Topic.markers,
    Topic.notes, List.map_append, List.append_assoc]
  rw [apply_block_meta_mk]
  have s1 : ∀ rest, abmLoop [] [] [] []
      (((if la ≠ [] then [s2 "Labels: " ++ List.intercalate (s2 ", ") la]
        else []).map (fun p => stripPy (s2 "> " ++ p))) ++ rest) =
      abmLoop la [] [] [] rest := by
    intro rest
    by_cases hla : la = []
    · simp [hla]
    · rw [if_pos hla]
      simp only [List.map_cons, List.map_nil, List.singleton_append]
      exact abm_step_labels hla hla2 [] [] [] [] rest
  have s2a : ∀ rest, abmLoop la [] [] []
      (((if li ≠ [] then [s2 "Link: " ++ li] else []).map
        (fun p => stripPy (s2 "> " ++ p))) ++ rest) =
      abmLoop la li [] [] rest := by
    intro rest
    by_cases hli : li = []
    · simp [hli]
    · rw [if_pos hli]
      simp only [List.map_cons, List.map_nil, List.singleton_append]
      have hok : mdValOk li = true := by
        have h2 : li.isEmpty = true ∨ mdValOk li = true := by simpa using hli2
        rcases h2 with h | h
        · exact absurd (List.isEmpty_iff.mp h) hli
        · exact h
      exact abm_step_link hli hok la [] [] [] rest
  have s3 : ∀ rest, abmLoop la li [] []
      (((if ma ≠ [] then [s2 "Markers: " ++ List.intercalate (s2 ", ") ma]
        else []).map (fun p => stripPy (s2 "> " ++ p))) ++ rest) =
      abmLoop la li ma [] rest := by
    intro rest
    by_cases hma : ma = []
    · simp [hma]
    · rw [if_pos hma]
      simp only [List.map_cons, List.map_nil, List.singleton_append]
      exact abm_step_markers hma hma2 la li [] [] rest
  have hnotesOk : ∀ p ∈ (if no ≠ [] then splitlinesPy no else []),
      noteLineOk p = true := by
    by_cases hno : no ≠ []
    · rw [if_pos hno]
      intro p hp
      have := (by
        simp only [notesOk, Bool.and_eq_true] at hno2
        exact hno2.1.1 : (splitlinesPy no).all noteLineOk = true)
      exact List.all_eq_true.mp this p hp
    · rw [if_neg hno]
      intro p hp
      simp at hp
  have s4 := abm_notes_steps (if no ≠ [] then splitlinesPy no else [])
    hnotesOk la li ma [] []
  rw [s1, s2a, s3]
  rw [show ((if no ≠ [] then splitlinesPy no else []).map
    (fun p => stripPy (s2 "> " ++ p))) = ((if no ≠ [] then splitlinesPy no
    else []).map (fun p => stripPy (s2 "> " ++ p))) ++ [] from by simp]
  rw [s4]
  rw [show abmLoop la li ma ([] ++ (if no ≠ [] then splitlinesPy no
    else [])) [] = (la, li, ma, (if no ≠ [] then splitlinesPy no else []))
    from by rw [abmLoop]; simp]
  show Topic.mk tid RT []
    (if (if no ≠ [] then splitlinesPy no else []) ≠ [] then
      List.intercalate (s2 "\n") (if no ≠ [] then splitlinesPy no else [])
     else []) la li ma = Topic.mk tid RT [] no la li ma
  by_cases hno : no ≠ []
  · rw [if_pos hno]
    rw [if_pos (by simpa using splitlinesPy_ne_nil hno2 hno)]
    rw [notes_rejoin hno2 hno]
  · rw [if_neg hno]
    rw [if_neg (by simp)]
    simp only [not_not] at hno
    rw [hno]

-- Right-strip invariance of the block string.

theorem rstripPy_length_le (s : List Char) : (rstripPy s).length ≤ s.length := by
  unfold rstripPy
  have h := List.Sublist.length_le
    (List.dropWhile_sublist (l := s.reverse) (p := isWs))
  simp only [List.length_reverse] at h ⊢
  omega

theorem rinv_concat {v : List Char} (h : rstripPy v = v) (hne : v ≠ []) :
    ∃ y d, v = y ++ [d] ∧ ¬ isWs d := by
  refine ⟨v.dropLast, v.getLast hne, (List.dropLast_append_getLast hne).symm, ?_⟩
  intro hws
  have hdec := List.dropLast_append_getLast hne
  have h1 : rstripPy v = rstripPy v.dropLast := by
    conv_lhs => rw [← hdec]
    exact rstripPy_append_ws (w := [v.getLast hne]) (by simpa using hws) _
  have h2 := rstripPy_length_le v.dropLast
  rw [h] at h1
  have h3 : v.length = v.dropLast.length + 1 := by
    conv_lhs => rw [← hdec]
    simp
  have h4 : v.length = (rstripPy v.dropLast).length := congrArg List.length h1
  omega

theorem rinv_append {v : List Char} (h : rstripPy v = v) (hne : v ≠ [])
    (x : List Char) : rstripPy (x ++ v) = x ++ v := by
  obtain ⟨y, d, hv, hd⟩ := rinv_concat h hne
  rw [hv, ← List.append_assoc, rstripPy_append_not_ws hd]

theorem splitNl_last_ne {no : List Char} (hne : no ≠ [])
    (hlast : no.getLast? ≠ some '\n') :
    ∀ p, (splitNl no).getLast? = some p → p ≠ [] := by
  induction no with
  | nil => exact absurd rfl hne
  | cons c cs ih =>
    intro p hp
    rw [splitNl] at hp
    by_cases hcs : cs = []
    · subst hcs
      by_cases hc : c = '\n'
      · exact absurd (by rw [hc]; rfl) hlast
      · rw [if_neg hc] at hp
        simp only [splitNl, List.getLast?_singleton, Option.some.injEq] at hp
        subst hp
        simp
    · have hlast2 : cs.getLast? ≠ some '\n' := by
        rw [show (c :: cs).getLast? = cs.getLast? from by
          match cs, hcs with
          | d :: ds, _ => simp] at hlast
        exact hlast
      by_cases hc : c = '\n'
      · rw [if_pos hc] at hp
        rw [show ([] :: splitNl cs).getLast? = (splitNl cs).getLast? from by
          match hs : splitNl cs, splitNl_ne_nil cs with
          | l :: ls, _ => simp] at hp
        exact ih hcs hlast2 p hp
      · rw [if_neg hc] at hp
        match hs : splitNl cs, splitNl_ne_nil cs with
        | l :: ls, _ =>
          rw [hs] at hp
          match ls with
          | [] =>
            simp only [List.getLast?_singleton, Option.some.injEq] at hp
            subst hp
            have := ih hcs hlast2 l (by rw [hs]; rfl)
            simp [this]
          | l2 :: ls2 =>
            rw [show ((c :: l) :: l2 :: ls2).getLast? =
              (l2 :: ls2).getLast? from by simp] at hp
            exact ih hcs hlast2 p (by rw [hs]; simpa using hp)

theorem fragsText_rinv : ∀ {ps : List (List Char × List Char)}, ps ≠ [] →
    ∃ y, fragsText ps = y ++ ['\x7d'] := by
  intro ps
  induction ps with
  | nil => intro h; exact absurd rfl h
  | cons kv rest ih =>
    intro _
    obtain ⟨k, v⟩ := kv
    by_cases hr : rest = []
    · subst hr
      refine ⟨s2 "  \x7b" ++ k ++ s2 ": " ++ v, ?_⟩
      simp [fragsText, s2]
    · obtain ⟨y, hy⟩ := ih hr
      refine ⟨s2 "  \x7b" ++ k ++ s2 ": " ++ v ++ s2 "\x7d" ++ y, ?_⟩
      rw [fragsText, hy]
      simp

theorem rawTitle_rinv {t : Topic} (hwf : wfTopicMd t = true) :
    rstripPy (rawTitleOf t) = rawTitleOf t ∧ rawTitleOf t ≠ [] := by
  have hwf2 := hwf
  obtain ⟨i, ti, ch, no, la, li, ma⟩ := t
  simp only [wfTopicMd, Bool.and_eq_true] at hwf2
  obtain ⟨⟨⟨⟨⟨hti, _⟩, _⟩, _⟩, _⟩, _⟩ := hwf2
  obtain ⟨htine, htinv, _, _, _⟩ := mdVal_facts hti
  rw [rawTitleOf_frags]
  by_cases hmp : metaPairs (Topic.mk i ti ch no la li ma) = []
  · rw [hmp]
    rw [show fragsText [] = [] from rfl, List.append_nil]
    simp only [Topic.title]
    constructor
    · obtain ⟨y, d, hv, hd⟩ := strip_inv_concat htinv htine
      rw [hv, rstripPy_append_not_ws hd]
    · exact htine
  · obtain ⟨y, hy⟩ := fragsText_rinv hmp
    rw [hy]
    constructor
    · rw [← List.append_assoc]
      exact rstripPy_append_not_ws (by decide) _
    · simp

theorem strip_inv_rinv {p : List Char} (h : stripPy p = p) (hne : p ≠ []) :
    rstripPy p = p := by
  obtain ⟨y, d, hv, hd⟩ := strip_inv_concat h hne
  rw [hv, rstripPy_append_not_ws hd]

theorem topic_lines_last :
    ∀ t : Topic, wfTopicMd t = true → ∀ d L,
      (topic_to_md_lines d t).getLast? = some L →
      rstripPy L = L ∧ L ≠ [] := by
  refine topic_ind
    (fun t => wfTopicMd t = true → ∀ d L,
      (topic_to_md_lines d t).getLast? = some L → rstripPy L = L ∧ L ≠ [])
    (fun l => wfTopicsMd l = true → ∀ d L,
      (topics_to_md_lines d l).getLast? = some L → rstripPy L = L ∧ L ≠ [])
    ?mk ?nil ?cons
  case mk =>
    intro i ti ch no la li ma ih hwf d L hL
    have hwf2 := hwf
    simp only [wfTopicMd, Bool.and_eq_true] at hwf2
    obtain ⟨⟨⟨⟨⟨hti, _⟩, _⟩, _⟩, hno2⟩, hch2⟩ := hwf2
    rw [topic_lines_cons] at hL
    match hch : ch with
    | c1 :: crest =>
      rw [show (titleLineOf d (Topic.mk i ti (c1 :: crest) no la li ma) ::
        ((if no ≠ [] then (splitlinesPy no).map
            (fun nl => indentOf d ++ s2 "  > " ++ nl) else []) ++
          topics_to_md_lines (d + 1) (c1 :: crest))) =
        (titleLineOf d (Topic.mk i ti (c1 :: crest) no la li ma) ::
          (if no ≠ [] then (splitlinesPy no).map
            (fun nl => indentOf d ++ s2 "  > " ++ nl) else [])) ++
          topics_to_md_lines (d + 1) (c1 :: crest) from by simp] at hL
      rw [List.getLast?_append_of_ne_nil _
        (topics_lines_ne_nil (d + 1) c1 crest)] at hL
      exact ih hch2 (d + 1) L hL
    | [] =>
      by_cases hno : no = []
      · subst hno
        rw [show topics_to_md_lines (d + 1) [] = [] from rfl] at hL
        simp only [ne_eq, not_true_eq_false, if_false,
          List.nil_append, List.append_nil, List.getLast?_singleton,
          Option.some.injEq] at hL
        subst hL
        rw [titleLineOf_shape]
        have hraw := rawTitle_rinv (t := Topic.mk i ti [] [] la li ma) hwf
        constructor
        · rw [show indentOf d ++ '-' :: ' ' ::
            rawTitleOf (Topic.mk i ti [] [] la li ma) =
            (indentOf d ++ ['-', ' ']) ++
            rawTitleOf (Topic.mk i ti [] [] la li ma) from by simp]
          exact rinv_append hraw.1 hraw.2 _
        · simp [indentOf]
      · rw [show topics_to_md_lines (d + 1) [] = [] from rfl] at hL
        rw [if_pos hno] at hL
        have hmne : (splitlinesPy no).map
            (fun nl => indentOf d ++ s2 "  > " ++ nl) ≠ [] := by
          simpa using splitlinesPy_ne_nil hno2 hno
        rw [show (titleLineOf d (Topic.mk i ti [] no la li ma) ::
          ((splitlinesPy no).map
            (fun nl => indentOf d ++ s2 "  > " ++ nl) ++ [])) =
          [titleLineOf d (Topic.mk i ti [] no la li ma)] ++
          (splitlinesPy no).map
            (fun nl => indentOf d ++ s2 "  > " ++ nl) from by simp] at hL
        rw [List.getLast?_append_of_ne_nil _ hmne] at hL
        rw [List.getLast?_map] at hL
        match hlast : (splitlinesPy no).getLast? with
        | none =>
          rw [hlast] at hL
          exact absurd hL (by simp)
        | some p =>
          rw [hlast] at hL
          simp only [Option.map_some', Option.some.injEq] at hL
          subst hL
          have hpne : p ≠ [] := by
            have hnlast : no.getLast? ≠ some '\n' := by
              simp only [notesOk, Bool.and_eq_true, Bool.not_eq_true',
                decide_eq_false_iff_not] at hno2
              exact hno2.1.2
            refine splitNl_last_ne hno hnlast p ?_
            rw [← notes_splitlines hno2 hno]
            exact hlast
          have hpinv : stripPy p = p := by
            have hok : noteLineOk p = true := by
              have hall : (splitlinesPy no).all noteLineOk = true := by
                simp only [notesOk, Bool.and_eq_true] at hno2
                exact hno2.1.1
              refine List.all_eq_true.mp hall p ?_
              match hs : splitlinesPy no, splitlinesPy_ne_nil hno2 hno with
              | l :: ls, _ =>
                rw [hs] at hlast
                exact List.mem_of_mem_getLast? hlast
            simp only [noteLineOk, Bool.and_eq_true, decide_eq_true_eq] at hok
            exact hok.1.1.1
          constructor
          · rw [show indentOf d ++ s2 "  > " ++ p =
              (indentOf d ++ s2 "  > ") ++ p from by simp]
            exact rinv_append (strip_inv_rinv hpinv hpne) hpne _
          · simp [indentOf, s2]
  case nil =>
    intro _ d L hL
    exact absurd hL (by rw [show topics_to_md_lines d [] = [] from rfl]; simp)
  case cons =>
    intro t ts ih1 ih2 hwf d L hL
    simp only [wfTopicsMd, Bool.and_eq_true] at hwf
    rw [topics_to_md_lines] at hL
    match hts : ts with
    | [] =>
      rw [show topics_to_md_lines d [] = [] from rfl, List.append_nil] at hL
      exact ih1 hwf.1 d L hL
    | t2 :: trest =>
      rw [List.getLast?_append_of_ne_nil _
        (topics_lines_ne_nil d t2 trest)] at hL
      exact ih2 hwf.2 d L hL

-- Newline-freeness of the encoder's lines.

theorem mem_splitNl_no_nl : ∀ (s : List Char) (p : List Char),
    p ∈ splitNl s → '\n' ∉ p := by
  intro s
  induction s with
  | nil =>
    intro p hp
    rw [show splitNl [] = [[]] from rfl] at hp
    simp only [List.mem_singleton] at hp
    subst hp
    simp
  | cons c cs ih =>
    intro p hp
    rw [splitNl] at hp
    by_cases hc : c = '\n'
    · rw [if_pos hc] at hp
      rcases List.mem_cons.mp hp with h | h
      · subst h; simp
      · exact ih p h
    · rw [if_neg hc] at hp
      match hs : splitNl cs, splitNl_ne_nil cs with
      | l :: ls, _ =>
        rw [hs] at hp
        rcases List.mem_cons.mp hp with h | h
        · subst h
          intro hmem
          rcases List.mem_cons.mp hmem with h2 | h2
          · exact hc h2.symm
          · exact ih l (by rw [hs]; simp) h2
        · exact ih p (by rw [hs]; simp [h])

theorem fragsText_no_nl : ∀ (ps : List (List Char × List Char)),
    (∀ kv ∈ ps, '\n' ∉ kv.1 ∧ '\n' ∉ kv.2) → '\n' ∉ fragsText ps := by
  intro ps
  induction ps with
  | nil => intro _; simp [fragsText]
  | cons kv rest ih =>
    intro hall
    obtain ⟨k, v⟩ := kv
    have hk := (hall (k, v) (by simp)).1
    have hv := (hall (k, v) (by simp)).2
    rw [fragsText]
    intro hmem
    simp only [List.append_assoc, List.mem_append] at hmem
    rcases hmem with h | h | h | h | h | h
    · simp [s2] at h
    · exact hk h
    · simp [s2] at h
    · exact hv h
    · simp [s2] at h
    · exact ih (fun x hx => hall x (by simp [hx])) h

theorem inter_vals_no_nl {la : List (List Char)}
    (hall : la.all mdListValOk = true) :
    '\n' ∉ List.intercalate (s2 ", ") la := by
  intro hmem
  rcases mem_intercalate hmem with ⟨l, hl, hc⟩ | hs
  · have h2 := List.all_eq_true.mp hall l hl
    simp only [mdListValOk, Bool.and_eq_true] at h2
    exact (mdVal_facts h2.1).2.2.1 hc
  · simp [s2] at hs

theorem rawTitle_no_nl {t : Topic} (hwf : wfTopicMd t = true) :
    '\n' ∉ rawTitleOf t := by
  obtain ⟨i, ti, ch, no, la, li, ma⟩ := t
  have hwf2 := hwf
  simp only [wfTopicMd, Bool.and_eq_true] at hwf2
  obtain ⟨⟨⟨⟨⟨hti, hla2⟩, hma2⟩, hli2⟩, _⟩, _⟩ := hwf2
  rw [rawTitleOf_frags]
  intro hmem
  rcases List.mem_append.mp hmem with h | h
  · exact (mdVal_facts hti).2.2.1 h
  · refine fragsText_no_nl _ ?_ h
    intro kv hkv
    simp only [metaPairs, Topic.labels, Topic.link, Topic.markers] at hkv
    simp only [List.mem_append] at hkv
    constructor
    · rcases hkv with (hk | hk) | hk <;>
        (revert hk
         split <;> intro hk <;>
           first
           | (simp only [List.mem_singleton] at hk; subst hk; simp [s2])
           | simp at hk)
    · rcases hkv with (hk | hk) | hk
      · revert hk
        split <;> intro hk
        · simp only [List.mem_singleton] at hk
          subst hk
          exact inter_vals_no_nl hla2
        · simp at hk
      · revert hk
        split <;> intro hk
        · simp only [List.mem_singleton] at hk
          subst hk
          have hok : mdValOk li = true := by
            have h2 : li.isEmpty = true ∨ mdValOk li = true := by
              simpa using hli2
            rcases h2 with h2 | h2
            · rename_i hne
              exact absurd (List.isEmpty_iff.mp h2) hne
            · exact h2
          exact (mdVal_facts hok).2.2.1
        · simp at hk
      · revert hk
        split <;> intro hk
        · simp only [List.mem_singleton] at hk
          subst hk
          exact inter_vals_no_nl hma2
        · simp at hk

theorem topic_lines_no_nl :
    ∀ t : Topic, wfTopicMd t = true → ∀ d L,
      L ∈ topic_to_md_lines d t → '\n' ∉ L := by
  refine topic_ind
    (fun t => wfTopicMd t = true → ∀ d L,
      L ∈ topic_to_md_lines d t → '\n' ∉ L)
    (fun l => wfTopicsMd l = true → ∀ d L,
      L ∈ topics_to_md_lines d l → '\n' ∉ L)
    ?mk ?nil ?cons
  case mk =>
    intro i ti ch no la li ma ih hwf d L hL
    have hwf2 := hwf
    simp only [wfTopicMd, Bool.and_eq_true] at hwf2
    obtain ⟨⟨⟨⟨⟨hti, _⟩, _⟩, _⟩, hno2⟩, hch2⟩ := hwf2
    rw [topic_lines_cons] at hL
    rcases List.mem_cons.mp hL with h | h
    · subst h
      rw [titleLineOf_shape]
      intro hmem
      rcases List.mem_append.mp hmem with h2 | h2
      · have := List.eq_of_mem_replicate h2
        exact absurd this (by decide)
      · rcases List.mem_cons.mp h2 with h3 | h3
        · exact absurd h3 (by decide)
        · rcases List.mem_cons.mp h3 with h4 | h4
          · exact absurd h4 (by decide)
          · exact rawTitle_no_nl hwf h4
    · rcases List.mem_append.mp h with h2 | h2
      · by_cases hno : no = []
        · rw [if_neg (by simp [hno])] at h2
          simp at h2
        · rw [if_pos hno] at h2
          obtain ⟨nl, hnl, rfl⟩ := List.mem_map.mp h2
          rw [notes_splitlines hno2 hno] at hnl
          intro hmem
          simp only [List.append_assoc, List.mem_append] at hmem
          rcases hmem with h3 | h3 | h3
          · have := List.eq_of_mem_replicate h3
            exact absurd this (by decide)
          · simp [s2] at h3
          · exact mem_splitNl_no_nl no nl hnl h3
      · exact ih hch2 (d + 1) L h2
  case nil =>
    intro _ d L hL
    rw [show topics_to_md_lines d [] = [] from rfl] at hL
    simp at hL
  case cons =>
    intro t ts ih1 ih2 hwf d L hL
    simp only [wfTopicsMd, Bool.and_eq_true] at hwf
    rw [topics_to_md_lines] at hL
    rcases List.mem_append.mp hL with h | h
    · exact ih1 hwf.1 d L h
    · exact ih2 hwf.2 d L h

theorem topics_lines_no_nl : ∀ (l : List Topic), wfTopicsMd l = true →
    ∀ d L, L ∈ topics_to_md_lines d l → '\n' ∉ L := by
  intro l
  induction l with
  | nil =>
    intro _ d L hL
    rw [show topics_to_md_lines d [] = [] from rfl] at hL
    simp at hL
  | cons t ts ih =>
    intro hwf d L hL
    simp only [wfTopicsMd, Bool.and_eq_true] at hwf
    rw [topics_to_md_lines] at hL
    rcases List.mem_append.mp hL with h | h
    · exact topic_lines_no_nl t hwf.1 d L h
    · exact ih hwf.2 d L h

theorem topics_lines_last : ∀ (l : List Topic), wfTopicsMd l = true →
    ∀ d L, (topics_to_md_lines d l).getLast? = some L →
      rstripPy L = L ∧ L ≠ [] := by
  intro l
  induction l with
  | nil =>
    intro _ d L hL
    exact absurd hL (by rw [show topics_to_md_lines d [] = [] from rfl]; simp)
  | cons t ts ih =>
    intro hwf d L hL
    simp only [wfTopicsMd, Bool.and_eq_true] at hwf
    rw [topics_to_md_lines] at hL
    match hts : ts with
    | [] =>
      rw [show topics_to_md_lines d [] = [] from rfl, List.append_nil] at hL
      exact topic_lines_last t hwf.1 d L hL
    | t2 :: trest =>
      rw [List.getLast?_append_of_ne_nil _
        (topics_lines_ne_nil d t2 trest)] at hL
      exact ih hwf.2 d L hL

theorem payloads_no_nl {t : Topic} (hwf : wfTopicMd t = true) :
    ∀ p ∈ metaPayloads t, '\n' ∉ p := by
  obtain ⟨i, ti, ch, no, la, li, ma⟩ := t
  have hwf2 := hwf
  simp only [wfTopicMd, Bool.and_eq_true] at hwf2
  obtain ⟨⟨⟨⟨⟨hti, hla2⟩, hma2⟩, hli2⟩, hno2⟩, _⟩ := hwf2
  intro p hp
  simp only [metaPayloads, Topic.labels, Topic.link, Topic.markers,
    Topic.notes, List.mem_append] at hp
  rcases hp with ((hk | hk) | hk) | hk
  · revert hk
    split <;> intro hk
    · simp only [List.mem_singleton] at hk
      subst hk
      intro hmem
      rcases List.mem_append.mp hmem with h | h
      · simp [s2] at h
      · exact inter_vals_no_nl hla2 h
    · simp at hk
  · revert hk
    split <;> intro hk
    · simp only [List.mem_singleton] at hk
      subst hk
      intro hmem
      rcases List.mem_append.mp hmem with h | h
      · simp [s2] at h
      · have hok : mdValOk li = true := by
          have h2 : li.isEmpty = true ∨ mdValOk li = true := by
            simpa using hli2
          rcases h2 with h2 | h2
          · rename_i hne
            exact absurd (List.isEmpty_iff.mp h2) hne
          · exact h2
        exact (mdVal_facts hok).2.2.1 h
    · simp at hk
  · revert hk
    split <;> intro hk
    · simp only [List.mem_singleton] at hk
      subst hk
      intro hmem
      rcases List.mem_append.mp hmem with h | h
      · simp [s2] at h
      · exact inter_vals_no_nl hma2 h
    · simp at hk
  · revert hk
    split <;> intro hk
    · rename_i hno
      rw [notes_splitlines hno2 hno] at hk
      exact mem_splitNl_no_nl no p hk
    · simp at hk

-- Joining and stripping the block's lines.

theorem intercalate_parts (sep : List Char) :
    ∀ (ys zs : List (List Char)), ys ≠ [] → zs ≠ [] →
      List.intercalate sep (ys ++ zs) =
        List.intercalate sep ys ++ sep ++ List.intercalate sep zs := by
  intro ys
  induction ys with
  | nil => intro zs h; exact absurd rfl h
  | cons a ys' ih =>
    intro zs _ hzs
    match ys' with
    | [] =>
      match zs, hzs with
      | z :: zs', _ =>
        rw [show ([a] ++ z :: zs' : List (List Char)) = a :: z :: zs' from
          rfl]
        rw [intercalate_two, intercalate_one]
    | b :: ys2 =>
      rw [show (a :: b :: ys2 ++ zs : List (List Char)) =
        a :: (b :: ys2 ++ zs) from rfl]
      match zs, hzs with
      | z :: zs', _ =>
        rw [show (b :: ys2 ++ z :: zs' : List (List Char)) =
          b :: (ys2 ++ z :: zs') from rfl]
        rw [intercalate_two, intercalate_two]
        rw [show (b :: (ys2 ++ z :: zs') : List (List Char)) =
          b :: ys2 ++ z :: zs' from rfl]
        rw [ih (z :: zs') (by simp) (by simp)]
        simp [List.append_assoc]

theorem intercalate_concat_last (sep : List Char) :
    ∀ (M : List (List Char)) (last : List Char),
      ∃ Z, List.intercalate sep (M ++ [last]) = Z ++ last := by
  intro M
  induction M with
  | nil => intro last; exact ⟨[], by simp [intercalate_one]⟩
  | cons m M' ih =>
    intro last
    obtain ⟨Z', hZ'⟩ := ih last
    match hM : M' ++ [last], (show M' ++ [last] ≠ [] from by simp) with
    | w :: ws, _ =>
      refine ⟨m ++ sep ++ Z', ?_⟩
      rw [show (m :: M' ++ [last] : List (List Char)) =
        m :: (M' ++ [last]) from rfl]
      rw [hM, intercalate_two, ← hM, hZ']
      simp [List.append_assoc]

theorem stripI_keep {c : Char} (hc : ¬ isWs c) (r : List Char)
    (L' : List (List Char)) {last : List Char}
    (hlast : ((c :: r) :: L').getLast? = some last)
    (hrinv : rstripPy last = last) (hne : last ≠ []) :
    stripPy (List.intercalate (s2 "\n") ((c :: r) :: L')) =
      List.intercalate (s2 "\n") ((c :: r) :: L') := by
  match L' with
  | [] =>
    rw [intercalate_one]
    simp only [List.getLast?_singleton, Option.some.injEq] at hlast
    unfold stripPy
    rw [lstripPy_cons_of_not_ws hc]
    rw [hlast]
    exact hrinv
  | x :: L2 =>
    have hlast2 : (x :: L2).getLast? = some last := by
      rw [show ((c :: r) :: x :: L2 : List (List Char)) =
        [c :: r] ++ x :: L2 from rfl] at hlast
      rw [List.getLast?_append_of_ne_nil _ (by simp)] at hlast
      exact hlast
    have hdec : x :: L2 = (x :: L2).dropLast ++ [last] := by
      have h1 := List.dropLast_append_getLast (l := x :: L2) (by simp)
      rw [show (x :: L2).getLast (by simp) = last from by
        have h2 := List.getLast?_eq_getLast (l := x :: L2) (by simp)
        rw [hlast2] at h2
        exact (Option.some.injEq _ _ ▸ h2).symm] at h1
      exact h1.symm
    obtain ⟨Z, hZ⟩ := intercalate_concat_last (s2 "\n")
      ((x :: L2).dropLast) last
    rw [intercalate_two, hdec, hZ]
    rw [show (c :: r ++ s2 "\n" ++ (Z ++ last) : List Char) =
      c :: ((r ++ s2 "\n" ++ Z) ++ last) from by simp]
    unfold stripPy
    rw [lstripPy_cons_of_not_ws hc]
    rw [show (c :: ((r ++ s2 "\n" ++ Z) ++ last) : List Char) =
      (c :: (r ++ s2 "\n" ++ Z)) ++ last from rfl]
    rw [rinv_append hrinv hne]

theorem strip_I_blank_tail :
    ∀ (L : List (List Char)), L ≠ [] →
      stripPy (List.intercalate (s2 "\n") (L ++ [[]])) =
        stripPy (List.intercalate (s2 "\n") L) := by
  intro L hL
  rw [intercalate_parts (s2 "\n") L [[]] hL (by simp)]
  rw [intercalate_one, List.append_nil]
  exact stripPy_append_ws (w := s2 "\n") (by decide) _

theorem meta_last {t : Topic} (hwf : wfTopicMd t = true) {p : List Char}
    (hp : (metaPayloads t).getLast? = some p) :
    rstripPy p = p ∧ p ≠ [] := by
  obtain ⟨i, ti, ch, no, la, li, ma⟩ := t
  have hwf2 := hwf
  simp only [wfTopicMd, Bool.and_eq_true] at hwf2
  obtain ⟨⟨⟨⟨⟨hti, hla2⟩, hma2⟩, hli2⟩, hno2⟩, _⟩ := hwf2
  simp only [metaPayloads, Topic.labels, Topic.link, Topic.markers,
    Topic.notes] at hp
  by_cases hno : no = []
  · rw [if_neg (show ¬ no ≠ [] from by simp [hno]), List.append_nil] at hp
    by_cases hma : ma = []
    · rw [if_neg (show ¬ ma ≠ [] from by simp [hma]), List.append_nil] at hp
      by_cases hli : li = []
      · rw [if_neg (show ¬ li ≠ [] from by simp [hli]),
          List.append_nil] at hp
        by_cases hla : la = []
        · rw [if_neg (show ¬ la ≠ [] from by simp [hla])] at hp
          simp at hp
        · rw [if_pos hla] at hp
          simp only [List.getLast?_singleton, Option.some.injEq] at hp
          subst hp
          obtain ⟨cL, vL, hIL, hcL, _, _, hsL, _⟩ :=
            mdList_inter_facts hla hla2
          rw [hIL]
          exact ⟨rinv_append (strip_inv_rinv hsL (by simp)) (by simp) _,
            by simp [s2]⟩
      · rw [if_pos hli] at hp
        rw [List.getLast?_append_of_ne_nil _ (by simp)] at hp
        simp only [List.getLast?_singleton, Option.some.injEq] at hp
        subst hp
        have hok : mdValOk li = true := by
          have h2 : li.isEmpty = true ∨ mdValOk li = true := by simpa using hli2
          rcases h2 with h2 | h2
          · exact absurd (List.isEmpty_iff.mp h2) hli
          · exact h2
        obtain ⟨hne2, hinv2, _, _, _⟩ := mdVal_facts hok
        exact ⟨rinv_append (strip_inv_rinv hinv2 hne2) hne2 _, by simp [s2]⟩
    · rw [if_pos hma] at hp
      rw [List.getLast?_append_of_ne_nil _ (by simp)] at hp
      simp only [List.getLast?_singleton, Option.some.injEq] at hp
      subst hp
      obtain ⟨cM, vM, hIM, hcM, _, _, hsM, _⟩ := mdList_inter_facts hma hma2
      rw [hIM]
      exact ⟨rinv_append (strip_inv_rinv hsM (by simp)) (by simp) _,
        by simp [s2]⟩
  · rw [if_pos hno] at hp
    have hnn : splitlinesPy no ≠ [] := splitlinesPy_ne_nil hno2 hno
    rw [List.getLast?_append_of_ne_nil _ hnn] at hp
    have hpne : p ≠ [] := by
      have hnlast : no.getLast? ≠ some '\n' := by
        simp only [notesOk, Bool.and_eq_true, Bool.not_eq_true',
          decide_eq_false_iff_not] at hno2
        exact hno2.1.2
      refine splitNl_last_ne hno hnlast p ?_
      rw [← notes_splitlines hno2 hno]
      exact hp
    have hpinv : stripPy p = p := by
      have hok : noteLineOk p = true := by
        have hall : (splitlinesPy no).all noteLineOk = true := by
          simp only [notesOk, Bool.and_eq_true] at hno2
          exact hno2.1.1
        exact List.all_eq_true.mp hall p (List.mem_of_mem_getLast? hp)
      simp only [noteLineOk, Bool.and_eq_true, decide_eq_true_eq] at hok
      exact hok.1.1.1
    exact ⟨strip_inv_rinv hpinv hpne, hpne⟩

theorem raw_strip_inv {t : Topic} (hwf : wfTopicMd t = true) :
    stripPy (rawTitleOf t) = rawTitleOf t := by
  have hrinv := rawTitle_rinv hwf
  have hti : mdValOk t.title = true := by
    obtain ⟨i, ti, ch, no, la, li, ma⟩ := t
    simp only [wfTopicMd, Bool.and_eq_true] at hwf
    exact hwf.1.1.1.1.1
  obtain ⟨htine, htinv, _, _, _⟩ := mdVal_facts hti
  obtain ⟨c, ti', hc⟩ : ∃ c ti', t.title = c :: ti' := by
    match hti2 : t.title, htine with | c :: ti', _ => exact ⟨c, ti', rfl⟩
  have hcw : ¬ isWs c := strip_inv_head (hc ▸ htinv)
  have hshape : ∃ z, rawTitleOf t = c :: z := by
    refine ⟨ti' ++ (if inline_meta_parts t ≠ [] then
      s2 "  " ++ List.intercalate (s2 "  ") (inline_meta_parts t) else []), ?_⟩
    rw [rawTitleOf, hc]
    simp
  obtain ⟨z, hz⟩ := hshape
  rw [hz]
  unfold stripPy
  rw [lstripPy_cons_of_not_ws hcw]
  rw [← hz, hrinv.1]

theorem titleLine0_strip {t : Topic} (hwf : wfTopicMd t = true) :
    stripPy (titleLineOf 0 t) = '-' :: ' ' :: rawTitleOf t := by
  rw [titleLineOf_shape]
  rw [show indentOf 0 = [] from rfl, List.nil_append]
  have hrinv := rawTitle_rinv hwf
  unfold stripPy
  rw [lstripPy_cons_of_not_ws (by decide)]
  rw [show ('-' :: ' ' :: rawTitleOf t : List Char) =
    ['-', ' '] ++ rawTitleOf t from rfl]
  rw [rinv_append hrinv.1 hrinv.2]

theorem psb_head_chain (T RT : List Char) (hTinv : stripPy T = T)
    (hRTinv : stripPy RT = RT) (hRTne : RT ≠ [])
    (pays : List (List Char)) (rest : List (List Char)) :
    psbLoop (BState.mk .init (s2 "Sheet 1") [] [] [])
      ((s2 "# Sheet: " ++ T) :: [] :: [] :: (s2 "## " ++ RT) :: [] ::
        ((pays.map (fun p => s2 "> " ++ p)) ++ rest)) =
    psbLoop (BState.mk .rootMeta T RT
      (pays.map (fun p => stripPy (s2 "> " ++ p))) []) rest := by
  rw [psb_sheet_heading rfl hTinv]
  rw [show ({ BState.mk Phase.init (s2 "Sheet 1") [] [] [] with
    phase := Phase.afterSheet, sheetTitle := T } : BState) =
    BState.mk .afterSheet T [] [] [] from rfl]
  rw [psb_blank (by exact fun h2 => nomatch h2)]
  rw [psb_blank (by exact fun h2 => nomatch h2)]
  rw [psb_root_heading rfl hRTinv hRTne]
  rw [show ({ BState.mk Phase.afterSheet T [] [] [] with
    phase := Phase.rootMeta, rootTitle := RT } : BState) =
    BState.mk .rootMeta T RT [] [] from rfl]
  rw [psb_blank (by exact fun h2 => nomatch h2)]
  rw [psb_meta_lines rfl (by exact fun h2 => nomatch h2) pays rest]
  rw [show ({ BState.mk Phase.rootMeta T RT [] [] with
    rootMeta := [] ++ pays.map (fun p => stripPy (s2 "> " ++ p)) } : BState) =
    BState.mk .rootMeta T RT
      (pays.map (fun p => stripPy (s2 "> " ++ p))) [] from by
    simp]

theorem parse_sheet_block_eval (block : List Char) (st : BState)
    (h : psbLoop (BState.mk .init (s2 "Sheet 1") [] [] [])
      (splitNl block) = st) :
    parse_sheet_block block =
      (if st.rootTitle.isEmpty ∧ st.body.isEmpty then none
       else some (Sheet.mk genId st.sheetTitle (some
         (if !st.body.isEmpty then
            setChildren (apply_block_meta
              (Topic.mk genId st.rootTitle [] [] [] [] []) st.rootMeta)
              (parse_md_items st.body)
          else apply_block_meta
              (Topic.mk genId st.rootTitle [] [] [] [] []) st.rootMeta)))) := by
  unfold parse_sheet_block
  rw [h]

theorem sheet_lines_no_nl {sid T : List Char} {rt : Topic}
    (hwf : wfSheetMd (Sheet.mk sid T (some rt)) = true) :
    ∀ l ∈ sheetLines (Sheet.mk sid T (some rt)), '\n' ∉ l := by
  obtain ⟨ri, RT, rch, rno, rla, rli, rma⟩ := rt
  have hwfS := hwf
  simp only [wfSheetMd, Bool.and_eq_true, decide_eq_true_eq,
    Bool.not_eq_true', decide_eq_false_iff_not, Sheet.title,
    Sheet.root_topic] at hwfS
  obtain ⟨⟨hTinv, hTnl⟩, hrt⟩ := hwfS
  have hwfT := hrt
  simp only [wfTopicMd, Bool.and_eq_true] at hwfT
  obtain ⟨⟨⟨⟨⟨hti, hla2⟩, hma2⟩, hli2⟩, hno2⟩, hch2⟩ := hwfT
  obtain ⟨hRTne, hRTinv, hRTnl, _, _⟩ := mdVal_facts hti
  intro l hl
  rw [show sheetLines (Sheet.mk sid T (some
    (Topic.mk ri RT rch rno rla rli rma))) =
    [s2 "# Sheet: " ++ T, [], [], s2 "## " ++ RT, []] ++
    (format_meta_block_lines (Topic.mk ri RT rch rno rla rli rma) ++
     ([[]] ++ topics_to_md_lines 0 rch)) from by
    rw [show sheetLines (Sheet.mk sid T (some
      (Topic.mk ri RT rch rno rla rli rma))) =
      [s2 "# Sheet: " ++ T, [], [], s2 "## " ++ RT, []] ++
      format_meta_block_lines (Topic.mk ri RT rch rno rla rli rma) ++
      [[]] ++ topics_to_md_lines 0 rch from rfl]
    simp [List.append_assoc]] at hl
  rcases List.mem_append.mp hl with hA | hRest
  · simp only [List.mem_cons, List.not_mem_nil, or_false] at hA
    rcases hA with h1 | h1 | h1 | h1 | h1
    · subst h1
      intro hmem
      rcases List.mem_append.mp hmem with h2 | h2
      · simp [s2] at h2
      · exact hTnl h2
    · subst h1; simp
    · subst h1; simp
    · subst h1
      intro hmem
      rcases List.mem_append.mp hmem with h2 | h2
      · simp [s2] at h2
      · exact hRTnl h2
    · subst h1; simp
  · rcases List.mem_append.mp hRest with hML | hTail
    · rw [format_meta_lines_payloads] at hML
      obtain ⟨p, hp, rfl⟩ := List.mem_map.mp hML
      intro hmem
      rcases List.mem_append.mp hmem with h2 | h2
      · simp [s2] at h2
      · exact payloads_no_nl hrt p hp h2
    · rcases List.mem_cons.mp hTail with h1 | hB
      · subst h1; simp
      · exact topics_lines_no_nl rch hch2 0 l hB

theorem psb_body_run (T RT : List Char) (M : List (List Char))
    {L : List Char} {n : Nat} (hbul : matchBulletStart L = some n)
    (hhead : ∃ z, stripPy L = '-' :: z) (rest : List (List Char)) :
    psbLoop (BState.mk .rootMeta T RT M []) (L :: rest) =
      BState.mk .body T RT M (L :: rest) := by
  rw [psb_body_first rfl hbul hhead]
  rw [show ({ BState.mk Phase.rootMeta T RT M [] with
    phase := Phase.body,
    body := (BState.mk Phase.rootMeta T RT M []).body ++ [L] } : BState) =
    BState.mk Phase.body T RT M [L] from rfl]
  rw [psb_body_phase rest .body T RT M [L] rfl]
  rfl

theorem sheet_block_eval {sh : Sheet} (hwf : wfSheetMd sh = true) :
    parse_sheet_block
      (stripPy (List.intercalate (s2 "\n") (sheetLines sh))) =
      some (scrubSheet sh) := by
  obtain ⟨sid, T, root⟩ := sh
  match root with
  | none => simp [wfSheetMd] at hwf
  | some rt =>
  obtain ⟨ri, RT, rch, rno, rla, rli, rma⟩ := rt
  have hwfS := hwf
  simp only [wfSheetMd, Bool.and_eq_true, decide_eq_true_eq,
    Bool.not_eq_true', decide_eq_false_iff_not, Sheet.title,
    Sheet.root_topic] at hwfS
  obtain ⟨⟨hTinv, hTnl⟩, hrt⟩ := hwfS
  have hwfT := hrt
  simp only [wfTopicMd, Bool.and_eq_true] at hwfT
  obtain ⟨⟨⟨⟨⟨hti, hla2⟩, hma2⟩, hli2⟩, hno2⟩, hch2⟩ := hwfT
  obtain ⟨hRTne, hRTinv, hRTnl, _, _⟩ := mdVal_facts hti
  have hnlL := sheet_lines_no_nl hwf
  have hlines : sheetLines (Sheet.mk sid T (some
      (Topic.mk ri RT rch rno rla rli rma))) =
      (s2 "# Sheet: " ++ T) :: [] :: [] :: (s2 "## " ++ RT) :: [] ::
      ((metaPayloads (Topic.mk ri RT rch rno rla rli rma)).map
        (fun p => s2 "> " ++ p) ++
       ([] :: topics_to_md_lines 0 rch)) := by
    rw [show sheetLines (Sheet.mk sid T (some
      (Topic.mk ri RT rch rno rla rli rma))) =
      [s2 "# Sheet: " ++ T, [], [], s2 "## " ++ RT, []] ++
      format_meta_block_lines (Topic.mk ri RT rch rno rla rli rma) ++
      [[]] ++ topics_to_md_lines 0 rch from rfl]
    rw [format_meta_lines_payloads]
    simp [List.append_assoc]
  rw [hlines] at hnlL ⊢
  rcases rch with _ | ⟨c1, crest⟩
  · -- no body items
    by_cases hpays : metaPayloads (Topic.mk ri RT [] rno rla rli rma) = []
    · -- no metadata block either: lines are the two headings and blanks
      rw [hpays]
      rw [show ((([] : List (List Char)).map (fun p => s2 "> " ++ p)) ++
        ([] :: topics_to_md_lines 0 []) : List (List Char)) = [[]]
        from rfl]
      have hstrip1 : stripPy (List.intercalate (s2 "\n")
          ((s2 "# Sheet: " ++ T) :: [] :: [] :: (s2 "## " ++ RT) :: [] ::
            [[]])) = stripPy (List.intercalate (s2 "\n")
          ((s2 "# Sheet: " ++ T) :: [] :: [] :: (s2 "## " ++ RT) :: [[]])) := by
        rw [show ((s2 "# Sheet: " ++ T) :: [] :: [] :: (s2 "## " ++ RT) ::
          [] :: [[]] : List (List Char)) =
          ((s2 "# Sheet: " ++ T) :: [] :: [] :: (s2 "## " ++ RT) :: [[]]) ++
          [[]] from by simp]
        exact strip_I_blank_tail _ (by simp)
      have hstrip2 : stripPy (List.intercalate (s2 "\n")
          ((s2 "# Sheet: " ++ T) :: [] :: [] :: (s2 "## " ++ RT) :: [[]])) =
          stripPy (List.intercalate (s2 "\n")
          [s2 "# Sheet: " ++ T, [], [], s2 "## " ++ RT]) := by
        rw [show ((s2 "# Sheet: " ++ T) :: [] :: [] :: (s2 "## " ++ RT) ::
          [[]] : List (List Char)) =
          [s2 "# Sheet: " ++ T, [], [], s2 "## " ++ RT] ++ [[]] from by simp]
        exact strip_I_blank_tail _ (by simp)
      have hstrip3 : stripPy (List.intercalate (s2 "\n")
          [s2 "# Sheet: " ++ T, [], [], s2 "## " ++ RT]) =
          List.intercalate (s2 "\n")
            [s2 "# Sheet: " ++ T, [], [], s2 "## " ++ RT] := by
        rw [show (s2 "# Sheet: " ++ T : List Char) =
          '#' :: (s2 " Sheet: " ++ T) from by simp [s2]]
        exact stripI_keep (by decide) _ _
          (show ([('#' :: (s2 " Sheet: " ++ T)), [], [],
            s2 "## " ++ RT] : List (List Char)).getLast? =
            some (s2 "## " ++ RT) from by simp)
          (rinv_append (strip_inv_rinv hRTinv hRTne) hRTne _)
          (by simp [s2])
      have hsplit : splitNl (List.intercalate (s2 "\n")
          [s2 "# Sheet: " ++ T, [], [], s2 "## " ++ RT]) =
          [s2 "# Sheet: " ++ T, [], [], s2 "## " ++ RT] := by
        refine splitNl_intercalate (by simp) ?_
        intro l hl
        simp only [List.mem_cons, List.not_mem_nil, or_false] at hl
        rcases hl with h1 | h1 | h1 | h1
        · subst h1
          intro hmem
          rcases List.mem_append.mp hmem with h2 | h2
          · simp [s2] at h2
          · exact hTnl h2
        · subst h1; simp
        · subst h1; simp
        · subst h1
          intro hmem
          rcases List.mem_append.mp hmem with h2 | h2
          · simp [s2] at h2
          · exact hRTnl h2
      have hrun : psbLoop (BState.mk .init (s2 "Sheet 1") [] [] [])
          (splitNl (stripPy (List.intercalate (s2 "\n")
            ((s2 "# Sheet: " ++ T) :: [] :: [] :: (s2 "## " ++ RT) :: [] ::
              [[]])))) = BState.mk .rootMeta T RT [] [] := by
        rw [hstrip1, hstrip2, hstrip3, hsplit]
        rw [psb_sheet_heading rfl hTinv]
        rw [show ({ BState.mk Phase.init (s2 "Sheet 1") [] [] [] with
          phase := Phase.afterSheet, sheetTitle := T } : BState) =
          BState.mk .afterSheet T [] [] [] from rfl]
        rw [psb_blank (by exact fun h2 => nomatch h2)]
        rw [psb_blank (by exact fun h2 => nomatch h2)]
        rw [psb_root_heading rfl hRTinv hRTne]
        rfl
      rw [parse_sheet_block_eval _ _ hrun]
      rw [if_neg (by
        intro hand
        exact absurd (List.isEmpty_iff.mp hand.1) hRTne)]
      rw [if_neg (by exact fun h2 => nomatch h2)]
      have habm : apply_block_meta (Topic.mk genId RT [] [] [] [] []) [] =
          Topic.mk genId RT [] rno rla rli rma := by
        have h2 := abm_payloads_apply
          (t := Topic.mk ri RT [] rno rla rli rma) hrt genId RT
        rw [hpays] at h2
        simpa using h2
      rw [show (BState.mk Phase.rootMeta T RT [] []).rootMeta =
        ([] : List (List Char)) from rfl]
      rw [habm]
      rfl
    · -- metadata block present, still no body
      have hmapne : (metaPayloads (Topic.mk ri RT [] rno rla rli rma)).map
          (fun p => s2 "> " ++ p) ≠ [] := by simpa using hpays
      obtain ⟨p, hp⟩ : ∃ p, (metaPayloads
          (Topic.mk ri RT [] rno rla rli rma)).getLast? = some p :=
        ⟨_, List.getLast?_eq_getLast _ hpays⟩
      obtain ⟨hprinv, hpne⟩ := meta_last hrt hp
      have hcore : ((s2 "# Sheet: " ++ T) :: [] :: [] :: (s2 "## " ++ RT) ::
          [] :: ((metaPayloads (Topic.mk ri RT [] rno rla rli rma)).map
            (fun p => s2 "> " ++ p) ++ ([] :: topics_to_md_lines 0 []))) =
          ((s2 "# Sheet: " ++ T) :: [] :: [] :: (s2 "## " ++ RT) ::
            [] :: (metaPayloads (Topic.mk ri RT [] rno rla rli rma)).map
              (fun p => s2 "> " ++ p)) ++ [[]] := by
        rw [show topics_to_md_lines 0 [] = [] from rfl]
        simp
      have hclast : ((s2 "# Sheet: " ++ T) :: [] :: [] ::
          (s2 "## " ++ RT) :: [] :: (metaPayloads
            (Topic.mk ri RT [] rno rla rli rma)).map
            (fun p => s2 "> " ++ p)).getLast? = some (s2 "> " ++ p) := by
        rw [show ((s2 "# Sheet: " ++ T) :: [] :: [] :: (s2 "## " ++ RT) ::
          [] :: (metaPayloads (Topic.mk ri RT [] rno rla rli rma)).map
            (fun p => s2 "> " ++ p) : List (List Char)) =
          [s2 "# Sheet: " ++ T, [], [], s2 "## " ++ RT, []] ++
          (metaPayloads (Topic.mk ri RT [] rno rla rli rma)).map
            (fun p => s2 "> " ++ p) from by simp]
        rw [List.getLast?_append_of_ne_nil _ hmapne]
        rw [List.getLast?_map, hp]
        rfl
      have hstrip1 : stripPy (List.intercalate (s2 "\n")
          ((s2 "# Sheet: " ++ T) :: [] :: [] :: (s2 "## " ++ RT) :: [] ::
            ((metaPayloads (Topic.mk ri RT [] rno rla rli rma)).map
              (fun p => s2 "> " ++ p) ++ ([] :: topics_to_md_lines 0 [])))) =
          stripPy (List.intercalate (s2 "\n")
            ((s2 "# Sheet: " ++ T) :: [] :: [] :: (s2 "## " ++ RT) :: [] ::
              (metaPayloads (Topic.mk ri RT [] rno rla rli rma)).map
                (fun p => s2 "> " ++ p))) := by
        rw [hcore]
        exact strip_I_blank_tail _ (by simp)
      have hstrip2 : stripPy (List.intercalate (s2 "\n")
          ((s2 "# Sheet: " ++ T) :: [] :: [] :: (s2 "## " ++ RT) :: [] ::
            (metaPayloads (Topic.mk ri RT [] rno rla rli rma)).map
              (fun p => s2 "> " ++ p))) =
          List.intercalate (s2 "\n")
            ((s2 "# Sheet: " ++ T) :: [] :: [] :: (s2 "## " ++ RT) :: [] ::
              (metaPayloads (Topic.mk ri RT [] rno rla rli rma)).map
                (fun p => s2 "> " ++ p)) := by
        rw [show (s2 "# Sheet: " ++ T : List Char) =
          '#' :: (s2 " Sheet: " ++ T) from by simp [s2]]
        have hcl2 : ((('#' :: (s2 " Sheet: " ++ T)) :: [] :: [] ::
            (s2 "## " ++ RT) :: [] :: (metaPayloads
              (Topic.mk ri RT [] rno rla rli rma)).map
              (fun p => s2 "> " ++ p) : List (List Char))).getLast? =
            some (s2 "> " ++ p) := by
          rw [show (('#' :: (s2 " Sheet: " ++ T)) :: [] :: [] ::
            (s2 "## " ++ RT) :: [] :: (metaPayloads
              (Topic.mk ri RT [] rno rla rli rma)).map
              (fun p => s2 "> " ++ p) : List (List Char)) =
            [('#' :: (s2 " Sheet: " ++ T)), [], [], s2 "## " ++ RT, []] ++
            (metaPayloads (Topic.mk ri RT [] rno rla rli rma)).map
              (fun p => s2 "> " ++ p) from by simp]
          rw [List.getLast?_append_of_ne_nil _ hmapne]
          rw [List.getLast?_map, hp]
          rfl
        exact stripI_keep (by decide) _ _ hcl2
          (rinv_append hprinv hpne _) (by simp [s2])
      have hsplit : splitNl (List.intercalate (s2 "\n")
          ((s2 "# Sheet: " ++ T) :: [] :: [] :: (s2 "## " ++ RT) :: [] ::
            (metaPayloads (Topic.mk ri RT [] rno rla rli rma)).map
              (fun p => s2 "> " ++ p))) =
          ((s2 "# Sheet: " ++ T) :: [] :: [] :: (s2 "## " ++ RT) :: [] ::
            (metaPayloads (Topic.mk ri RT [] rno rla rli rma)).map
              (fun p => s2 "> " ++ p)) := by
        refine splitNl_intercalate (by simp) ?_
        intro l hl
        refine hnlL l ?_
        rw [hcore]
        exact List.mem_append_left _ hl
      have hrun : psbLoop (BState.mk .init (s2 "Sheet 1") [] [] [])
          (splitNl (stripPy (List.intercalate (s2 "\n")
            ((s2 "# Sheet: " ++ T) :: [] :: [] :: (s2 "## " ++ RT) :: [] ::
              ((metaPayloads (Topic.mk ri RT [] rno rla rli rma)).map
                (fun p => s2 "> " ++ p) ++
               ([] :: topics_to_md_lines 0 [])))))) =
          BState.mk .rootMeta T RT
            ((metaPayloads (Topic.mk ri RT [] rno rla rli rma)).map
              (fun p => stripPy (s2 "> " ++ p))) [] := by
        rw [hstrip1, hstrip2, hsplit]
        rw [show ((metaPayloads (Topic.mk ri RT [] rno rla rli rma)).map
          (fun p => s2 "> " ++ p) : List (List Char)) =
          (metaPayloads (Topic.mk ri RT [] rno rla rli rma)).map
            (fun p => s2 "> " ++ p) ++ [] from by simp]
        rw [psb_head_chain T RT hTinv hRTinv hRTne _ []]
        rfl
      rw [parse_sheet_block_eval _ _ hrun]
      rw [if_neg (by
        intro hand
        exact absurd (List.isEmpty_iff.mp hand.1) hRTne)]
      rw [if_neg (by exact fun h2 => nomatch h2)]
      rw [show (BState.mk Phase.rootMeta T RT
        ((metaPayloads (Topic.mk ri RT [] rno rla rli rma)).map
          (fun p => stripPy (s2 "> " ++ p))) []).rootMeta =
        (metaPayloads (Topic.mk ri RT [] rno rla rli rma)).map
          (fun p => stripPy (s2 "> " ++ p)) from rfl]
      rw [abm_payloads_apply hrt genId RT]
      rfl
  · -- body items present
    have hwfc : wfTopicMd c1 = true ∧ wfTopicsMd crest = true := by
      simpa [wfTopicsMd] using hch2
    have hBne : topics_to_md_lines 0 (c1 :: crest) ≠ [] :=
      topics_lines_ne_nil 0 c1 crest
    obtain ⟨lastL, hlastEq⟩ : ∃ L,
        (topics_to_md_lines 0 (c1 :: crest)).getLast? = some L :=
      ⟨_, List.getLast?_eq_getLast _ hBne⟩
    have hlastP := topics_lines_last (c1 :: crest) hch2 0 lastL hlastEq
    have hstrip : stripPy (List.intercalate (s2 "\n")
        ((s2 "# Sheet: " ++ T) :: [] :: [] :: (s2 "## " ++ RT) :: [] ::
          ((metaPayloads (Topic.mk ri RT (c1 :: crest) rno rla rli rma)).map
            (fun p => s2 "> " ++ p) ++
           ([] :: topics_to_md_lines 0 (c1 :: crest))))) =
        List.intercalate (s2 "\n")
          ((s2 "# Sheet: " ++ T) :: [] :: [] :: (s2 "## " ++ RT) :: [] ::
            ((metaPayloads (Topic.mk ri RT (c1 :: crest) rno rla rli rma)).map
              (fun p => s2 "> " ++ p) ++
             ([] :: topics_to_md_lines 0 (c1 :: crest)))) := by
      rw [show (s2 "# Sheet: " ++ T : List Char) =
        '#' :: (s2 " Sheet: " ++ T) from by simp [s2]]
      refine stripI_keep (by decide) _ _ ?_ hlastP.1 hlastP.2
      rw [show (('#' :: (s2 " Sheet: " ++ T)) :: [] :: [] ::
        (s2 "## " ++ RT) :: [] ::
        ((metaPayloads (Topic.mk ri RT (c1 :: crest) rno rla rli rma)).map
          (fun p => s2 "> " ++ p) ++
         ([] :: topics_to_md_lines 0 (c1 :: crest))) : List (List Char)) =
        (('#' :: (s2 " Sheet: " ++ T)) :: [] :: [] ::
          (s2 "## " ++ RT) :: [] ::
          ((metaPayloads (Topic.mk ri RT (c1 :: crest) rno rla rli rma)).map
            (fun p => s2 "> " ++ p) ++ [[]])) ++
        topics_to_md_lines 0 (c1 :: crest) from by simp]
      rw [List.getLast?_append_of_ne_nil _ hBne]
      exact hlastEq
    have hsplit : splitNl (List.intercalate (s2 "\n")
        ((s2 "# Sheet: " ++ T) :: [] :: [] :: (s2 "## " ++ RT) :: [] ::
          ((metaPayloads (Topic.mk ri RT (c1 :: crest) rno rla rli rma)).map
            (fun p => s2 "> " ++ p) ++
           ([] :: topics_to_md_lines 0 (c1 :: crest))))) =
        ((s2 "# Sheet: " ++ T) :: [] :: [] :: (s2 "## " ++ RT) :: [] ::
          ((metaPayloads (Topic.mk ri RT (c1 :: crest) rno rla rli rma)).map
            (fun p => s2 "> " ++ p) ++
           ([] :: topics_to_md_lines 0 (c1 :: crest)))) :=
      splitNl_intercalate (by simp) hnlL
    obtain ⟨i1, ti1, ch1, no1, la1, li1, ma1⟩ := c1
    have htl1 := topic_lines_cons 0 i1 ti1 ch1 no1 la1 li1 ma1
    have hrun : psbLoop (BState.mk .init (s2 "Sheet 1") [] [] [])
        (splitNl (stripPy (List.intercalate (s2 "\n")
          ((s2 "# Sheet: " ++ T) :: [] :: [] :: (s2 "## " ++ RT) :: [] ::
            ((metaPayloads (Topic.mk ri RT
                (Topic.mk i1 ti1 ch1 no1 la1 li1 ma1 :: crest)
                rno rla rli rma)).map (fun p => s2 "> " ++ p) ++
             ([] :: topics_to_md_lines 0
                (Topic.mk i1 ti1 ch1 no1 la1 li1 ma1 :: crest))))))) =
        BState.mk .body T RT
          ((metaPayloads (Topic.mk ri RT
              (Topic.mk i1 ti1 ch1 no1 la1 li1 ma1 :: crest)
              rno rla rli rma)).map (fun p => stripPy (s2 "> " ++ p)))
          (topics_to_md_lines 0
            (Topic.mk i1 ti1 ch1 no1 la1 li1 ma1 :: crest)) := by
      rw [hstrip, hsplit]
      rw [psb_head_chain T RT hTinv hRTinv hRTne _ _]
      rw [psb_blank (by exact fun h2 => nomatch h2)]
      rw [show topics_to_md_lines 0
        (Topic.mk i1 ti1 ch1 no1 la1 li1 ma1 :: crest) =
        topic_to_md_lines 0 (Topic.mk i1 ti1 ch1 no1 la1 li1 ma1) ++
        topics_to_md_lines 0 crest from rfl]
      rw [htl1, List.cons_append]
      rw [psb_body_run T RT _ (titleLine_bullet_start _ 0)
        ⟨' ' :: rawTitleOf (Topic.mk i1 ti1 ch1 no1 la1 li1 ma1),
          titleLine0_strip hwfc.1⟩ _]
    rw [parse_sheet_block_eval _ _ hrun]
    rw [if_neg (by
      intro hand
      exact absurd (List.isEmpty_iff.mp hand.1) hRTne)]
    rw [if_pos (show (!(BState.mk Phase.body T RT
      ((metaPayloads (Topic.mk ri RT
          (Topic.mk i1 ti1 ch1 no1 la1 li1 ma1 :: crest)
          rno rla rli rma)).map (fun p => stripPy (s2 "> " ++ p)))
      (topics_to_md_lines 0
        (Topic.mk i1 ti1 ch1 no1 la1 li1 ma1 :: crest))).body.isEmpty) =
      true from by
      simp only [Bool.not_eq_true']
      rw [List.isEmpty_eq_false]
      exact hBne)]
    rw [show (BState.mk Phase.body T RT
      ((metaPayloads (Topic.mk ri RT
          (Topic.mk i1 ti1 ch1 no1 la1 li1 ma1 :: crest)
          rno rla rli rma)).map (fun p => stripPy (s2 "> " ++ p)))
      (topics_to_md_lines 0
        (Topic.mk i1 ti1 ch1 no1 la1 li1 ma1 :: crest))).rootMeta =
      (metaPayloads (Topic.mk ri RT
          (Topic.mk i1 ti1 ch1 no1 la1 li1 ma1 :: crest)
          rno rla rli rma)).map (fun p => stripPy (s2 "> " ++ p)) from rfl]
    rw [abm_payloads_apply hrt genId RT]
    rw [show (BState.mk Phase.body T RT
      ((metaPayloads (Topic.mk ri RT
          (Topic.mk i1 ti1 ch1 no1 la1 li1 ma1 :: crest)
          rno rla rli rma)).map (fun p => stripPy (s2 "> " ++ p)))
      (topics_to_md_lines 0
        (Topic.mk i1 ti1 ch1 no1 la1 li1 ma1 :: crest))).body =
      topics_to_md_lines 0
        (Topic.mk i1 ti1 ch1 no1 la1 li1 ma1 :: crest) from rfl]
    rw [parse_items_roundtrip _ hch2 0]
    rfl

-- Locating the sheet separator in the joined outline text.

theorem reSplitSep_some {s a b : List Char} (h : findSep s = some (a, b)) :
    reSplitSep s = a :: reSplitSep b := by
  rw [reSplitSep]
  split
  · rename_i heq
    rw [h] at heq
    exact absurd heq (by simp)
  · rename_i a2 b2 heq
    rw [h] at heq
    simp only [Option.some.injEq, Prod.mk.injEq] at heq
    rw [heq.1, heq.2]

theorem sep_head_neg {a : List Char} (hnl : '\n' ∉ a) (hne : a ≠ s2 "---")
    {S : List Char} (hS : S = [] ∨ ∃ S2, S = '\n' :: S2) :
    ¬ (s2 "---\n").isPrefixOf (a ++ S) := by
  match a with
  | [] =>
    rcases hS with rfl | ⟨S2, rfl⟩
    · simp [s2, List.isPrefixOf]
    · simp [s2, List.isPrefixOf]
  | [x] =>
    rcases hS with rfl | ⟨S2, rfl⟩
    · simp [s2, List.isPrefixOf]
    · simp [s2, List.isPrefixOf]
  | [x, y] =>
    rcases hS with rfl | ⟨S2, rfl⟩
    · simp [s2, List.isPrefixOf]
    · simp [s2, List.isPrefixOf]
  | [x, y, z] =>
    rcases hS with rfl | ⟨S2, rfl⟩
    · simp [s2, List.isPrefixOf]
    · intro hp
      simp only [s2, List.isPrefixOf, List.cons_append, List.nil_append,
        Bool.and_eq_true, beq_iff_eq] at hp
      exact hne (by
        rw [← hp.1, ← hp.2.1, ← hp.2.2.1]
        rfl)
  | x :: y :: z :: w :: t =>
    intro hp
    simp only [s2, List.isPrefixOf, List.cons_append, Bool.and_eq_true,
      beq_iff_eq] at hp
    exact hnl (by
      rw [hp.2.2.2.1]
      simp)

theorem findSep_no_nl : ∀ {s : List Char}, '\n' ∉ s → findSep s = none := by
  intro s
  induction s with
  | nil => intro _; rfl
  | cons c cs ih =>
    intro hnl
    rw [findSep]
    rw [if_neg (by
      intro hp
      simp only [sepChars, s2, List.isPrefixOf, Bool.and_eq_true,
        beq_iff_eq] at hp
      exact hnl (by rw [hp.1]; simp))]
    rw [ih (fun hm => hnl (by simp [hm]))]
    rfl

theorem findSep_skip_line {l : List Char} (hnl : '\n' ∉ l)
    {rest : List Char} (hpre : ¬ (s2 "---\n").isPrefixOf rest) :
    findSep (l ++ '\n' :: rest) =
      (findSep rest).map (fun p => (l ++ '\n' :: p.1, p.2)) := by
  induction l with
  | nil =>
    rw [List.nil_append, findSep]
    rw [if_neg (by
      intro hp
      refine hpre ?_
      simp only [sepChars, s2, List.isPrefixOf, Bool.and_eq_true,
        beq_iff_eq] at hp
      simp only [s2, List.isPrefixOf, Bool.and_eq_true, beq_iff_eq]
      exact hp.2)]
    cases findSep rest <;> simp
  | cons c l' ih =>
    have hc : c ≠ '\n' := fun hc => hnl (by simp [hc])
    rw [List.cons_append, findSep]
    rw [if_neg (by
      intro hp
      simp only [sepChars, s2, List.isPrefixOf, Bool.and_eq_true,
        beq_iff_eq] at hp
      exact hc hp.1.symm)]
    rw [ih (fun hm => hnl (by simp [hm]))]
    cases findSep rest <;> simp

theorem findSep_hit {l : List Char} (hnl : '\n' ∉ l) (tail : List Char) :
    findSep (l ++ '\n' :: (s2 "---" ++ '\n' :: tail)) = some (l, tail) := by
  induction l with
  | nil =>
    rw [List.nil_append, findSep]
    rw [if_pos (by
      refine List.isPrefixOf_iff_prefix.mpr ⟨tail, ?_⟩
      simp [sepChars, s2])]
    simp [s2]
  | cons c l' ih =>
    have hc : c ≠ '\n' := fun hc => hnl (by simp [hc])
    rw [List.cons_append, findSep]
    rw [if_neg (by
      intro hp
      simp only [sepChars, s2, List.isPrefixOf, Bool.and_eq_true,
        beq_iff_eq] at hp
      exact hc hp.1.symm)]
    rw [ih (fun hm => hnl (by simp [hm]))]
    rfl

theorem findSep_lines : ∀ (A : List (List Char)),
    (∀ l ∈ A, '\n' ∉ l ∧ l ≠ s2 "---") → ∀ tail,
    findSep (List.intercalate (s2 "\n") A ++ '\n' ::
      (s2 "---" ++ '\n' :: tail)) =
      some (List.intercalate (s2 "\n") A, tail) := by
  intro A
  induction A with
  | nil =>
    intro _ tail
    rw [show List.intercalate (s2 "\n") [] = [] from rfl]
    exact findSep_hit (by simp) tail
  | cons l A' ih =>
    intro hall tail
    match A' with
    | [] =>
      rw [intercalate_one]
      exact findSep_hit (hall l (by simp)).1 tail
    | a :: A'' =>
      rw [intercalate_two]
      rw [show (l ++ s2 "\n" ++ List.intercalate (s2 "\n") (a :: A'') :
        List Char) = l ++ '\n' :: List.intercalate (s2 "\n") (a :: A'')
        from by simp [s2]]
      rw [List.append_assoc, List.cons_append]
      rw [findSep_skip_line (hall l (by simp)).1 (by
        match A'' with
        | [] =>
          rw [intercalate_one]
          exact sep_head_neg (hall a (by simp)).1 (hall a (by simp)).2
            (Or.inr ⟨_, rfl⟩)
        | a2 :: A3 =>
          rw [intercalate_two]
          rw [show (a ++ s2 "\n" ++ List.intercalate (s2 "\n") (a2 :: A3) :
            List Char) = a ++ '\n' :: List.intercalate (s2 "\n") (a2 :: A3)
            from by simp [s2]]
          rw [List.append_assoc, List.cons_append]
          exact sep_head_neg (hall a (by simp)).1 (hall a (by simp)).2
            (Or.inr ⟨_, rfl⟩))]
      rw [ih (fun x hx => hall x (by simp [hx])) tail]
      rfl

theorem findSep_I_none : ∀ (A : List (List Char)),
    (∀ l ∈ A, '\n' ∉ l ∧ l ≠ s2 "---") →
    findSep (List.intercalate (s2 "\n") A) = none := by
  intro A
  induction A with
  | nil => intro _; rfl
  | cons l A' ih =>
    intro hall
    match A' with
    | [] =>
      rw [intercalate_one]
      exact findSep_no_nl (hall l (by simp)).1
    | a :: A'' =>
      rw [intercalate_two]
      rw [show (l ++ s2 "\n" ++ List.intercalate (s2 "\n") (a :: A'') :
        List Char) = l ++ '\n' :: List.intercalate (s2 "\n") (a :: A'')
        from by simp [s2]]
      rw [findSep_skip_line (hall l (by simp)).1 (by
        match A'' with
        | [] =>
          rw [intercalate_one]
          have h2 := sep_head_neg (hall a (by simp)).1
            (hall a (by simp)).2 (Or.inl rfl)
          simpa using h2
        | a2 :: A3 =>
          rw [intercalate_two]
          rw [show (a ++ s2 "\n" ++ List.intercalate (s2 "\n") (a2 :: A3) :
            List Char) = a ++ '\n' :: List.intercalate (s2 "\n") (a2 :: A3)
            from by simp [s2]]
          exact sep_head_neg (hall a (by simp)).1 (hall a (by simp)).2
            (Or.inr ⟨_, rfl⟩))]
      rw [ih (fun x hx => hall x (by simp [hx]))]
      rfl

theorem sheet_lines_not_sep {sid T : List Char} {rt : Topic}
    (hwf : wfSheetMd (Sheet.mk sid T (some rt)) = true) :
    ∀ l ∈ sheetLines (Sheet.mk sid T (some rt)), l ≠ s2 "---" := by
  obtain ⟨ri, RT, rch, rno, rla, rli, rma⟩ := rt
  have hwfS := hwf
  simp only [wfSheetMd, Bool.and_eq_true, decide_eq_true_eq,
    Bool.not_eq_true', decide_eq_false_iff_not, Sheet.title,
    Sheet.root_topic] at hwfS
  obtain ⟨⟨hTinv, hTnl⟩, hrt⟩ := hwfS
  have hwfT := hrt
  simp only [wfTopicMd, Bool.and_eq_true] at hwfT
  obtain ⟨⟨⟨⟨⟨hti, hla2⟩, hma2⟩, hli2⟩, hno2⟩, hch2⟩ := hwfT
  intro l hl
  rw [show sheetLines (Sheet.mk sid T (some
    (Topic.mk ri RT rch rno rla rli rma))) =
    [s2 "# Sheet: " ++ T, [], [], s2 "## " ++ RT, []] ++
    ((format_meta_block_lines (Topic.mk ri RT rch rno rla rli rma)) ++
     ([[]] ++ topics_to_md_lines 0 rch)) from by
    rw [show sheetLines (Sheet.mk sid T (some
      (Topic.mk ri RT rch rno rla rli rma))) =
      [s2 "# Sheet: " ++ T, [], [], s2 "## " ++ RT, []] ++
      format_meta_block_lines (Topic.mk ri RT rch rno rla rli rma) ++
      [[]] ++ topics_to_md_lines 0 rch from rfl]
    simp [List.append_assoc]] at hl
  rcases List.mem_append.mp hl with hA | hRest
  · simp only [List.mem_cons, List.not_mem_nil, or_false] at hA
    rcases hA with h1 | h1 | h1 | h1 | h1 <;> subst h1
    · intro h
      have h2 := congrArg List.head? h
      simp [s2] at h2
    · simp [s2]
    · simp [s2]
    · intro h
      have h2 := congrArg List.head? h
      simp [s2] at h2
    · simp [s2]
  · rcases List.mem_append.mp hRest with hML | hTail
    · rw [format_meta_lines_payloads] at hML
      obtain ⟨p, hp, rfl⟩ := List.mem_map.mp hML
      intro h
      have h2 := congrArg List.head? h
      simp [s2] at h2
    · rcases List.mem_cons.mp hTail with h1 | hB
      · subst h1; simp [s2]
      · have hsh := topics_lines_shape rch hch2 0 l hB
        obtain ⟨hnb, hshape⟩ := hsh
        intro h
        subst h
        rcases hshape with ⟨n, hb, _⟩ | ⟨_, b, c, hq, _⟩
        · rw [show matchBulletStart (s2 "---") = none from by decide] at hb
          exact absurd hb (by simp)
        · rw [show matchQuote (s2 "---") = none from by decide] at hq
          exact absurd hq (by simp)

theorem sheet_lines_clean {sh : Sheet} (hwf : wfSheetMd sh = true) :
    ∀ l ∈ sheetLines sh, '\n' ∉ l ∧ l ≠ s2 "---" := by
  obtain ⟨sid, T, root⟩ := sh
  match root with
  | none => simp [wfSheetMd] at hwf
  | some rt =>
    intro l hl
    exact ⟨sheet_lines_no_nl hwf l hl, sheet_lines_not_sep hwf l hl⟩

theorem sheetLines_ne_nil (sh : Sheet) : sheetLines sh ≠ [] := by
  obtain ⟨sid, T, root⟩ := sh
  cases root <;> simp [sheetLines]

theorem docLines_ne_nil : ∀ (sh : Sheet) (rest : List Sheet),
    docLines (sh :: rest) ≠ [] := by
  intro sh rest
  match rest with
  | [] =>
    rw [show docLines [sh] = sheetLines sh from rfl]
    exact sheetLines_ne_nil sh
  | sh2 :: rest2 =>
    rw [docLines]
    intro h
    exact sheetLines_ne_nil sh
      (List.append_eq_nil.mp (List.append_eq_nil.mp h).1).1

theorem strip_pre_blank {L : List (List Char)} (hne : L ≠ []) :
    stripPy (List.intercalate (s2 "\n") ([] :: L)) =
      stripPy (List.intercalate (s2 "\n") L) := by
  match L, hne with
  | x :: xs, _ =>
    rw [intercalate_two]
    rw [show (([] : List Char) ++ s2 "\n" ++
      List.intercalate (s2 "\n") (x :: xs)) =
      ['\n'] ++ List.intercalate (s2 "\n") (x :: xs) from by simp [s2]]
    exact stripPy_ws_append (by decide) _

theorem strip_pre {pre : List (List Char)} (hpre : pre = [] ∨ pre = [[]])
    (L : List (List Char)) (hne : L ≠ []) :
    stripPy (List.intercalate (s2 "\n") (pre ++ L)) =
      stripPy (List.intercalate (s2 "\n") L) := by
  rcases hpre with rfl | rfl
  · rw [List.nil_append]
  · exact strip_pre_blank hne

theorem md_split_eval : ∀ (sheets : List Sheet), wfDocMd sheets = true →
    sheets ≠ [] → ∀ pre : List (List Char), pre = [] ∨ pre = [[]] →
    (reSplitSep (List.intercalate (s2 "\n")
      (pre ++ docLines sheets))).filterMap
      (fun b => parse_sheet_block (stripPy b)) = scrubDoc sheets := by
  intro sheets
  induction sheets with
  | nil => intro _ h; exact absurd rfl h
  | cons sh rest ih =>
    intro hwf _ pre hpre
    simp only [wfDocMd, List.all_cons, Bool.and_eq_true] at hwf
    have hclean := sheet_lines_clean hwf.1
    cases rest with
    | nil =>
      rw [show docLines [sh] = sheetLines sh from rfl]
      have hnone : findSep (List.intercalate (s2 "\n")
          (pre ++ sheetLines sh)) = none := by
        refine findSep_I_none _ ?_
        intro l hl
        rcases List.mem_append.mp hl with h1 | h1
        · rcases hpre with rfl | rfl
          · simp at h1
          · simp only [List.mem_singleton] at h1
            subst h1
            exact ⟨by simp, by simp [s2]⟩
        · exact hclean l h1
      rw [reSplitSep_none hnone]
      rw [filterMap_singleton_some _ _ (scrubSheet sh) (by
        rw [strip_pre hpre _ (sheetLines_ne_nil sh)]
        exact sheet_block_eval hwf.1)]
      rfl
    | cons sh2 rest2 =>
      have hXne : ([] :: docLines (sh2 :: rest2) : List (List Char)) ≠ [] :=
        by simp
      have hAne : (pre ++ sheetLines sh ++ [[]] : List (List Char)) ≠ [] :=
        by simp
      have hAcond : ∀ l ∈ pre ++ sheetLines sh ++ [[]],
          '\n' ∉ l ∧ l ≠ s2 "---" := by
        intro l hl
        rcases List.mem_append.mp hl with h1 | h1
        · rcases List.mem_append.mp h1 with h2 | h2
          · rcases hpre with rfl | rfl
            · simp at h2
            · simp only [List.mem_singleton] at h2
              subst h2
              exact ⟨by simp, by simp [s2]⟩
          · exact hclean l h2
        · simp only [List.mem_singleton] at h1
          subst h1
          exact ⟨by simp, by simp [s2]⟩
      have htext : List.intercalate (s2 "\n")
          (pre ++ docLines (sh :: sh2 :: rest2)) =
          List.intercalate (s2 "\n") (pre ++ sheetLines sh ++ [[]]) ++
          '\n' :: (s2 "---" ++ '\n' :: List.intercalate (s2 "\n")
            ([] :: docLines (sh2 :: rest2))) := by
        rw [show pre ++ docLines (sh :: sh2 :: rest2) =
          (pre ++ sheetLines sh ++ [[]]) ++
          ([s2 "---"] ++ ([] :: docLines (sh2 :: rest2))) from by
          rw [docLines]
          simp [List.append_assoc]]
        rw [intercalate_parts _ _ _ hAne (by simp)]
        rw [intercalate_parts _ _ _ (by simp) hXne]
        rw [intercalate_one]
        simp [s2]
      have hfind : findSep (List.intercalate (s2 "\n")
          (pre ++ docLines (sh :: sh2 :: rest2))) =
          some (List.intercalate (s2 "\n") (pre ++ sheetLines sh ++ [[]]),
            List.intercalate (s2 "\n") ([] :: docLines (sh2 :: rest2))) := by
        rw [htext]
        exact findSep_lines _ hAcond _
      rw [reSplitSep_some hfind]
      rw [List.filterMap_cons]
      rw [show parse_sheet_block (stripPy (List.intercalate (s2 "\n")
        (pre ++ sheetLines sh ++ [[]]))) = some (scrubSheet sh) from by
        rw [show (pre ++ sheetLines sh ++ [[]] : List (List Char)) =
          pre ++ (sheetLines sh ++ [[]]) from by simp]
        rw [strip_pre hpre _ (by simp)]
        rw [strip_I_blank_tail _ (sheetLines_ne_nil sh)]
        exact sheet_block_eval hwf.1]
      rw [show ([] :: docLines (sh2 :: rest2) : List (List Char)) =
        [[]] ++ docLines (sh2 :: rest2) from rfl]
      rw [ih (by simpa [wfDocMd] using hwf.2) (by simp) [[]] (Or.inr rfl)]
      rfl

-- The encoder's joined string equals its line list joined with newlines.

theorem intercalate_flatten (sep : List Char) :
    ∀ (ps : List (List (List Char))), (∀ p ∈ ps, p ≠ []) →
      List.intercalate sep (ps.map (List.intercalate sep)) =
        List.intercalate sep ps.flatten := by
  intro ps
  induction ps with
  | nil => intro _; rfl
  | cons p ps' ih =>
    intro hall
    match ps' with
    | [] =>
      simp only [List.map_cons, List.map_nil, List.flatten_cons,
        List.flatten_nil, List.append_nil]
      rw [intercalate_one]
    | q :: ps'' =>
      have hpne : p ≠ [] := hall p (by simp)
      have hfne : (q :: ps'').flatten ≠ [] := by
        have hqne : q ≠ [] := hall q (by simp)
        rw [List.flatten_cons]
        intro h
        exact hqne (List.append_eq_nil.mp h).1
      simp only [List.map_cons]
      rw [intercalate_two]
      rw [← List.map_cons]
      rw [ih (fun x hx => hall x (by simp [hx]))]
      rw [show ((p :: q :: ps'').flatten : List (List Char)) =
        p ++ (q :: ps'').flatten from rfl]
      rw [intercalate_parts sep p ((q :: ps'').flatten) hpne hfne]

theorem topic_lines_ne_nil (d : Nat) (t : Topic) :
    topic_to_md_lines d t ≠ [] := by
  obtain ⟨i, ti, ch, no, la, li, ma⟩ := t
  rw [topic_lines_cons]
  simp

theorem topics_lines_flatten : ∀ (l : List Topic) (d : Nat),
    topics_to_md_lines d l = (l.map (topic_to_md_lines d)).flatten := by
  intro l
  induction l with
  | nil => intro d; rfl
  | cons t ts ih =>
    intro d
    rw [show topics_to_md_lines d (t :: ts) =
      topic_to_md_lines d t ++ topics_to_md_lines d ts from rfl]
    rw [ih d]
    simp

theorem topic_md_join :
    ∀ t : Topic, ∀ d, topic_to_md d t =
      List.intercalate (s2 "\n") (topic_to_md_lines d t) := by
  refine topic_ind
    (fun t => ∀ d, topic_to_md d t =
      List.intercalate (s2 "\n") (topic_to_md_lines d t))
    (fun l => ∀ d, topics_to_md d l =
      l.map (fun t => List.intercalate (s2 "\n") (topic_to_md_lines d t)))
    ?mk ?nil ?cons
  case mk =>
    intro i ti ch no la li ma ih d
    rw [topic_to_md, ih (d + 1)]
    rw [topic_lines_cons]
    match ch with
    | [] =>
      rw [show topics_to_md_lines (d + 1) [] = [] from rfl]
      simp
    | c :: cr =>
      have hA : (titleLineOf d (Topic.mk i ti (c :: cr) no la li ma) ::
          (if no ≠ [] then (splitlinesPy no).map
            (fun nl => indentOf d ++ s2 "  > " ++ nl) else []) :
          List (List Char)) ≠ [] := by simp
      rw [show (titleLineOf d (Topic.mk i ti (c :: cr) no la li ma) ::
        ((if no ≠ [] then (splitlinesPy no).map
            (fun nl => indentOf d ++ s2 "  > " ++ nl) else []) ++
         topics_to_md_lines (d + 1) (c :: cr)) : List (List Char)) =
        (titleLineOf d (Topic.mk i ti (c :: cr) no la li ma) ::
          (if no ≠ [] then (splitlinesPy no).map
            (fun nl => indentOf d ++ s2 "  > " ++ nl) else [])) ++
        topics_to_md_lines (d + 1) (c :: cr) from by simp]
      rw [intercalate_parts _ _ _ hA (topics_lines_ne_nil (d + 1) c cr)]
      rw [show ([titleLineOf d (Topic.mk i ti (c :: cr) no la li ma)] ++
        (if no ≠ [] then (splitlinesPy no).map
          (fun nl => indentOf d ++ s2 "  > " ++ nl) else []) ++
        (c :: cr).map (fun t => List.intercalate (s2 "\n")
          (topic_to_md_lines (d + 1) t)) : List (List Char)) =
        (titleLineOf d (Topic.mk i ti (c :: cr) no la li ma) ::
          (if no ≠ [] then (splitlinesPy no).map
            (fun nl => indentOf d ++ s2 "  > " ++ nl) else [])) ++
        (c :: cr).map (fun t => List.intercalate (s2 "\n")
          (topic_to_md_lines (d + 1) t)) from by simp]
      rw [intercalate_parts _ _ _ hA (by simp)]
      rw [show ((c :: cr).map (fun t => List.intercalate (s2 "\n")
        (topic_to_md_lines (d + 1) t)) : List (List Char)) =
        ((c :: cr).map (topic_to_md_lines (d + 1))).map
          (List.intercalate (s2 "\n")) from by rw [List.map_map]; rfl]
      rw [intercalate_flatten _ _ (by
        intro p hp
        obtain ⟨t2, _, rfl⟩ := List.mem_map.mp hp
        exact topic_lines_ne_nil (d + 1) t2)]
      rw [← topics_lines_flatten]
  case nil =>
    intro d
    rfl
  case cons =>
    intro t ts ih1 ih2 d
    rw [show topics_to_md d (t :: ts) =
      topic_to_md d t :: topics_to_md d ts from rfl]
    rw [ih1 d, ih2 d]
    rfl

theorem topics_md_map : ∀ (l : List Topic) (d : Nat),
    topics_to_md d l = l.map (fun t =>
      List.intercalate (s2 "\n") (topic_to_md_lines d t)) := by
  intro l
  induction l with
  | nil => intro d; rfl
  | cons t ts ih =>
    intro d
    rw [show topics_to_md d (t :: ts) =
      topic_to_md d t :: topics_to_md d ts from rfl]
    rw [topic_md_join t d, ih d]
    rfl

theorem topics_md_I (l : List Topic) (d : Nat) :
    List.intercalate (s2 "\n") (topics_to_md d l) =
      List.intercalate (s2 "\n") (topics_to_md_lines d l) := by
  rw [topics_md_map]
  rw [show l.map (fun t => List.intercalate (s2 "\n")
    (topic_to_md_lines d t)) = (l.map (topic_to_md_lines d)).map
    (List.intercalate (s2 "\n")) from by rw [List.map_map]; rfl]
  rw [intercalate_flatten _ _ (by
    intro p hp
    obtain ⟨t2, _, rfl⟩ := List.mem_map.mp hp
    exact topic_lines_ne_nil d t2)]
  rw [← topics_lines_flatten]

theorem fmb_ne {t : Topic} (h : format_meta_block_lines t ≠ []) :
    format_meta_block t ≠ [] := by
  rw [format_meta_lines_payloads] at h
  unfold format_meta_block
  rw [format_meta_lines_payloads]
  match hp : metaPayloads t with
  | [] => rw [hp] at h; simp at h
  | p0 :: pr =>
    rw [List.map_cons]
    exact intercalate_ne_nil (by simp [s2])

theorem fmb_nil {t : Topic} (h : format_meta_block_lines t = []) :
    format_meta_block t = [] := by
  unfold format_meta_block
  rw [h]
  rfl

theorem sheet_parts0_join (sh : Sheet) :
    List.intercalate (s2 "\n") (sheet_parts 0 sh) =
      List.intercalate (s2 "\n") (sheetLines sh) := by
  obtain ⟨sid, T, root⟩ := sh
  match root with
  | none =>
    rw [show sheet_parts 0 (Sheet.mk sid T none) =
      [s2 "# Sheet: " ++ T ++ s2 "\n"] from rfl]
    rw [show sheetLines (Sheet.mk sid T none) =
      [s2 "# Sheet: " ++ T, []] from rfl]
    simp [List.intercalate, List.intersperse, s2]
  | some rt =>
    obtain ⟨ri, RT, rch, rno, rla, rli, rma⟩ := rt
    by_cases hML : format_meta_block_lines
        (Topic.mk ri RT rch rno rla rli rma) = []
    · rw [show sheet_parts 0 (Sheet.mk sid T (some
        (Topic.mk ri RT rch rno rla rli rma))) =
        [s2 "# Sheet: " ++ T ++ s2 "\n", s2 "\n## " ++ RT ++ s2 "\n"] ++
        (if format_meta_block (Topic.mk ri RT rch rno rla rli rma) ≠ []
         then [format_meta_block (Topic.mk ri RT rch rno rla rli rma)]
         else []) ++ [[]] ++ topics_to_md 0 rch from rfl]
      rw [if_neg (by simp [fmb_nil hML])]
      rw [show sheetLines (Sheet.mk sid T (some
        (Topic.mk ri RT rch rno rla rli rma))) =
        [s2 "# Sheet: " ++ T, [], [], s2 "## " ++ RT, []] ++
        format_meta_block_lines (Topic.mk ri RT rch rno rla rli rma) ++
        [[]] ++ topics_to_md_lines 0 rch from rfl]
      rw [hML]
      match rch with
      | [] =>
        rw [show topics_to_md 0 ([] : List Topic) = [] from rfl]
        rw [show topics_to_md_lines 0 ([] : List Topic) = [] from rfl]
        simp [List.intercalate, List.intersperse, s2]
      | c :: cr =>
        rw [show ([s2 "# Sheet: " ++ T ++ s2 "\n", s2 "\n## " ++ RT ++
          s2 "\n"] ++ [] ++ [[]] ++ topics_to_md 0 (c :: cr) :
          List (List Char)) =
          [s2 "# Sheet: " ++ T ++ s2 "\n", s2 "\n## " ++ RT ++ s2 "\n",
            []] ++ topics_to_md 0 (c :: cr) from by simp]
        rw [show ([s2 "# Sheet: " ++ T, [], [], s2 "## " ++ RT, []] ++
          [] ++ [[]] ++ topics_to_md_lines 0 (c :: cr) :
          List (List Char)) =
          [s2 "# Sheet: " ++ T, [], [], s2 "## " ++ RT, [], []] ++
          topics_to_md_lines 0 (c :: cr) from by simp]
        rw [intercalate_parts _ _ _ (by simp)
          (by rw [show topics_to_md 0 (c :: cr) = topic_to_md 0 c ::
            topics_to_md 0 cr from rfl]; simp)]
        rw [intercalate_parts _ _ _ (by simp)
          (topics_lines_ne_nil 0 c cr)]
        rw [topics_md_I]
        simp [List.intercalate, List.intersperse, s2, List.append_assoc]
    · rw [show sheet_parts 0 (Sheet.mk sid T (some
        (Topic.mk ri RT rch rno rla rli rma))) =
        [s2 "# Sheet: " ++ T ++ s2 "\n", s2 "\n## " ++ RT ++ s2 "\n"] ++
        (if format_meta_block (Topic.mk ri RT rch rno rla rli rma) ≠ []
         then [format_meta_block (Topic.mk ri RT rch rno rla rli rma)]
         else []) ++ [[]] ++ topics_to_md 0 rch from rfl]
      rw [if_pos (fmb_ne hML)]
      rw [show sheetLines (Sheet.mk sid T (some
        (Topic.mk ri RT rch rno rla rli rma))) =
        [s2 "# Sheet: " ++ T, [], [], s2 "## " ++ RT, []] ++
        format_meta_block_lines (Topic.mk ri RT rch rno rla rli rma) ++
        [[]] ++ topics_to_md_lines 0 rch from rfl]
      match rch with
      | [] =>
        rw [show topics_to_md 0 ([] : List Topic) = [] from rfl]
        rw [show topics_to_md_lines 0 ([] : List Topic) = [] from rfl]
        rw [show ([s2 "# Sheet: " ++ T ++ s2 "\n", s2 "\n## " ++ RT ++
          s2 "\n"] ++ [format_meta_block
            (Topic.mk ri RT [] rno rla rli rma)] ++ [[]] ++ [] :
          List (List Char)) =
          [s2 "# Sheet: " ++ T ++ s2 "\n", s2 "\n## " ++ RT ++ s2 "\n",
            format_meta_block (Topic.mk ri RT [] rno rla rli rma), []]
          from by simp]
        rw [show ([s2 "# Sheet: " ++ T, [], [], s2 "## " ++ RT, []] ++
          format_meta_block_lines (Topic.mk ri RT [] rno rla rli rma) ++
          [[]] ++ [] : List (List Char)) =
          [s2 "# Sheet: " ++ T, [], [], s2 "## " ++ RT, []] ++
          (format_meta_block_lines (Topic.mk ri RT [] rno rla rli rma) ++
           [[]]) from by simp]
        rw [intercalate_parts _ _ _ (by simp) (by simp [hML])]
        rw [intercalate_parts _ _ _ hML (by simp)]
        rw [show format_meta_block (Topic.mk ri RT [] rno rla rli rma) =
          List.intercalate (s2 "\n") (format_meta_block_lines
            (Topic.mk ri RT [] rno rla rli rma)) from rfl]
        simp [List.intercalate, List.intersperse, s2, List.append_assoc]
      | c :: cr =>
        rw [show ([s2 "# Sheet: " ++ T ++ s2 "\n", s2 "\n## " ++ RT ++
          s2 "\n"] ++ [format_meta_block
            (Topic.mk ri RT (c :: cr) rno rla rli rma)] ++ [[]] ++
          topics_to_md 0 (c :: cr) : List (List Char)) =
          [s2 "# Sheet: " ++ T ++ s2 "\n", s2 "\n## " ++ RT ++ s2 "\n",
            format_meta_block (Topic.mk ri RT (c :: cr) rno rla rli rma),
            []] ++ topics_to_md 0 (c :: cr) from by simp]
        rw [show ([s2 "# Sheet: " ++ T, [], [], s2 "## " ++ RT, []] ++
          format_meta_block_lines
            (Topic.mk ri RT (c :: cr) rno rla rli rma) ++
          [[]] ++ topics_to_md_lines 0 (c :: cr) : List (List Char)) =
          [s2 "# Sheet: " ++ T, [], [], s2 "## " ++ RT, []] ++
          (format_meta_block_lines
            (Topic.mk ri RT (c :: cr) rno rla rli rma) ++
           ([[]] ++ topics_to_md_lines 0 (c :: cr))) from by simp]
        rw [intercalate_parts _ _ _ (by simp)
          (by rw [show topics_to_md 0 (c :: cr) = topic_to_md 0 c ::
            topics_to_md 0 cr from rfl]; simp)]
        rw [intercalate_parts _ _ _ (by simp) (by
          intro h
          exact hML (List.append_eq_nil.mp h).1)]
        rw [intercalate_parts _ _ _ hML (by simp)]
        rw [show ([[]] ++ topics_to_md_lines 0 (c :: cr) :
          List (List Char)) = [[]] ++ topics_to_md_lines 0 (c :: cr)
          from rfl]
        rw [intercalate_parts _ _ _ (by simp)
          (topics_lines_ne_nil 0 c cr)]
        rw [topics_md_I]
        rw [show format_meta_block
          (Topic.mk ri RT (c :: cr) rno rla rli rma) =
          List.intercalate (s2 "\n") (format_meta_block_lines
            (Topic.mk ri RT (c :: cr) rno rla rli rma)) from rfl]
        simp [List.intercalate, List.intersperse, s2, List.append_assoc]

theorem sheet_parts_pos {i : Nat} (h : 0 < i) (sh : Sheet) :
    sheet_parts i sh = s2 "\n---\n" :: sheet_parts 0 sh := by
  unfold sheet_parts
  rw [if_pos h, if_neg (lt_irrefl 0)]
  rfl

theorem sheet_parts0_ne (sh : Sheet) : sheet_parts 0 sh ≠ [] := by
  obtain ⟨sid, T, root⟩ := sh
  unfold sheet_parts
  rw [if_neg (lt_irrefl 0)]
  cases root <;> simp

theorem enumFrom_parts : ∀ (xs : List Sheet) (n : Nat), 0 < n →
    ((List.enumFrom n xs).map (fun p => sheet_parts p.1 p.2)).flatten =
      (xs.map (fun sh => s2 "\n---\n" :: sheet_parts 0 sh)).flatten := by
  intro xs
  induction xs with
  | nil => intro n _; rfl
  | cons x xs' ih =>
    intro n hn
    rw [show List.enumFrom n (x :: xs') =
      (n, x) :: List.enumFrom (n + 1) xs' from rfl]
    simp only [List.map_cons, List.flatten_cons]
    rw [sheet_parts_pos hn, ih (n + 1) (by omega)]

theorem doc_join : ∀ (rest : List Sheet) (sh : Sheet),
    List.intercalate (s2 "\n") (sheet_parts 0 sh ++
      (rest.map (fun s => s2 "\n---\n" :: sheet_parts 0 s)).flatten) =
      List.intercalate (s2 "\n") (docLines (sh :: rest)) := by
  intro rest
  induction rest with
  | nil =>
    intro sh
    rw [show ((List.map (fun s => s2 "\n---\n" :: sheet_parts 0 s)
      ([] : List Sheet)).flatten : List (List Char)) = [] from rfl]
    rw [List.append_nil]
    rw [show docLines [sh] = sheetLines sh from rfl]
    exact sheet_parts0_join sh
  | cons sh2 rest2 ih =>
    intro sh
    simp only [List.map_cons, List.flatten_cons]
    rw [show (sheet_parts 0 sh ++ ((s2 "\n---\n" :: sheet_parts 0 sh2) ++
      (rest2.map (fun s => s2 "\n---\n" :: sheet_parts 0 s)).flatten) :
      List (List Char)) = sheet_parts 0 sh ++ (s2 "\n---\n" ::
      (sheet_parts 0 sh2 ++
        (rest2.map (fun s => s2 "\n---\n" :: sheet_parts 0 s)).flatten))
      from by simp]
    rw [intercalate_parts _ _ _ (sheet_parts0_ne sh) (by simp)]
    rw [show (s2 "\n---\n" :: (sheet_parts 0 sh2 ++
      (rest2.map (fun s => s2 "\n---\n" :: sheet_parts 0 s)).flatten) :
      List (List Char)) = [s2 "\n---\n"] ++ (sheet_parts 0 sh2 ++
      (rest2.map (fun s => s2 "\n---\n" :: sheet_parts 0 s)).flatten)
      from rfl]
    rw [intercalate_parts _ _ _ (by simp) (by
      intro h
      exact sheet_parts0_ne sh2 (List.append_eq_nil.mp h).1)]
    rw [intercalate_one]
    rw [ih sh2]
    rw [show docLines (sh :: sh2 :: rest2) = sheetLines sh ++
      ([[], s2 "---", []] ++ docLines (sh2 :: rest2)) from by
      rw [docLines]; simp]
    rw [intercalate_parts _ _ _ (sheetLines_ne_nil sh) (by simp)]
    rw [show ([[], s2 "---", []] ++ docLines (sh2 :: rest2) :
      List (List Char)) = [[], s2 "---", []] ++ docLines (sh2 :: rest2)
      from rfl]
    rw [intercalate_parts _ _ _ (by simp) (docLines_ne_nil sh2 rest2)]
    rw [sheet_parts0_join sh]
    simp [List.intercalate, List.intersperse, s2, List.append_assoc]

theorem sheets_md_lines_eq : ∀ (sheets : List Sheet),
    sheets_to_markdown sheets =
      List.intercalate (s2 "\n") (docLines sheets) := by
  intro sheets
  match sheets with
  | [] => rfl
  | sh :: rest =>
    unfold sheets_to_markdown
    rw [show (sh :: rest).enum = (0, sh) :: List.enumFrom 1 rest from rfl]
    simp only [List.map_cons, List.flatten_cons]
    rw [enumFrom_parts rest 1 (by omega)]
    exact doc_join rest sh

theorem md_roundtrip_main : ∀ (sheets : List Sheet),
    wfDocMd sheets = true →
    markdown_to_sheets (sheets_to_markdown sheets) = scrubDoc sheets := by
  intro sheets hwf
  match sheets with
  | [] =>
    rw [show sheets_to_markdown [] = [] from rfl]
    unfold markdown_to_sheets
    rw [reSplitSep_none (show findSep [] = none from rfl)]
    rw [show List.filterMap (fun b => parse_sheet_block (stripPy b))
      [[]] = [] from by
      rw [List.filterMap_cons]
      rw [show parse_sheet_block (stripPy []) = none from rfl]
      rfl]
    rfl
  | sh :: rest =>
    rw [sheets_md_lines_eq]
    rw [show markdown_to_sheets (List.intercalate (s2 "\n")
      (docLines (sh :: rest))) =
      (reSplitSep (List.intercalate (s2 "\n")
        ([] ++ docLines (sh :: rest)))).filterMap
        (fun b => parse_sheet_block (stripPy b)) from by
      rw [List.nil_append]
      rfl]
    exact md_split_eval (sh :: rest) hwf (by simp) [] (Or.inl rfl)

/-- C1, counterexample: the outline round trip does not hold for every
document.  A sheet without a root topic is encoded as a bare `# Sheet:`
heading; `_parse_sheet_block` yields no sheet for that block (no root
title, no body), so the decoded document is empty rather than the
original one-sheet document. -/
theorem c1_counterexample :
    ¬ ∀ sheets : List Sheet,
      markdown_to_sheets (sheets_to_markdown sheets) = scrubDoc sheets := by
  intro hall
  have h := hall [Sheet.mk (s2 "i") (s2 "S") none]
  rw [show sheets_to_markdown [Sheet.mk (s2 "i") (s2 "S") none] =
    s2 "# Sheet: S\n" from rfl] at h
  rw [show markdown_to_sheets (s2 "# Sheet: S\n") = [] from by
    unfold markdown_to_sheets
    rw [reSplitSep_none (show findSep (s2 "# Sheet: S\n") = none
      from by decide)]
    rw [List.filterMap_cons]
    rw [show parse_sheet_block (stripPy (s2 "# Sheet: S\n")) = none
      from rfl]
    rfl] at h
  simp [scrubDoc, scrubSheet] at h

/-- C1: for every document in the outline well-formedness boundary
(each sheet has a root topic, titles and metadata values are non-empty,
single-line, strip-invariant and brace-free, labels and markers
comma-free, notes without trailing or exotic line terminators), decoding
the encoded outline text returns the document with all identifiers
regenerated: markdown_to_sheets (sheets_to_markdown sheets) equals the
document up to ids. -/
theorem c1_outline_roundtrip (sheets : List Sheet)
    (h : wfDocMd sheets = true) :
    markdown_to_sheets (sheets_to_markdown sheets) = scrubDoc sheets :=
  md_roundtrip_main sheets h

/-- C1, witness: a concrete two-sheet document with metadata, notes and
nested children satisfies the boundary and round trips. -/
theorem c1_outline_roundtrip_witness :
    wfDocMd [Sheet.mk (s2 "s1") (s2 "Plan")
      (some (Topic.mk (s2 "r1") (s2 "Root") 
        [Topic.mk (s2 "t1") (s2 "Child A") [] (s2 "a note")
          [s2 "x", s2 "y"] [] [],
         Topic.mk (s2 "t2") (s2 "Child B")
           [Topic.mk (s2 "t3") (s2 "Grand") [] [] [] [] []]
           [] [] (s2 "http://e") [s2 "star"]]
        (s2 "root note\nmore") [s2 "l1"] [] [])),
      Sheet.mk (s2 "s2") (s2 "Second")
        (some (Topic.mk (s2 "r2") (s2 "R2") [] [] [] [] []))] = true ∧
    markdown_to_sheets (sheets_to_markdown
      [Sheet.mk (s2 "s1") (s2 "Plan")
        (some (Topic.mk (s2 "r1") (s2 "Root")
          [Topic.mk (s2 "t1") (s2 "Child A") [] (s2 "a note")
            [s2 "x", s2 "y"] [] [],
           Topic.mk (s2 "t2") (s2 "Child B")
             [Topic.mk (s2 "t3") (s2 "Grand") [] [] [] [] []]
             [] [] (s2 "http://e") [s2 "star"]]
          (s2 "root note\nmore") [s2 "l1"] [] [])),
        Sheet.mk (s2 "s2") (s2 "Second")
          (some (Topic.mk (s2 "r2") (s2 "R2") [] [] [] [] []))]) =
      scrubDoc
      [Sheet.mk (s2 "s1") (s2 "Plan")
        (some (Topic.mk (s2 "r1") (s2 "Root")
          [Topic.mk (s2 "t1") (s2 "Child A") [] (s2 "a note")
            [s2 "x", s2 "y"] [] [],
           Topic.mk (s2 "t2") (s2 "Child B")
             [Topic.mk (s2 "t3") (s2 "Grand") [] [] [] [] []]
             [] [] (s2 "http://e") [s2 "star"]]
          (s2 "root note\nmore") [s2 "l1"] [] [])),
        Sheet.mk (s2 "s2") (s2 "Second")
          (some (Topic.mk (s2 "r2") (s2 "R2") [] [] [] [] []))] :=
  ⟨by decide, c1_outline_roundtrip _ (by decide)⟩
